import Mathlib

/-!
# Verification development for the AI coding agent pipeline

Shallow embedding of the safety/undo manager (`src/safety-manager.js`), the
codebase indexers (`src/codebase-indexer.js`, `src/enhanced-indexer.js`) and
the response parser (`src/ai-agent-system.js`), followed by the theorems that
settle the specification's claims.

Conventions.
* Asynchronous functions are modelled by their sequential semantics
  (`await` is sequencing).
* The file system, clock and `path` helpers are external collaborators: they
  are the fields of an environment record `Env`, so every general theorem
  holds for every file system. A small in-memory instance (`memEnv`) is used
  for concrete evaluations.
* A JavaScript exception is the `error` case of `Except String`, carrying the
  message of the thrown `Error`.
* The indexers read the disk through a `World` (file texts, directories,
  clock); the MD5 digest is computed, not assumed. The regular-expression
  based text analysis of the enhanced indexer is a parameter (`Analysis`):
  the statements about that indexer hold for every analysis.
-/

namespace Js

/-! ## JavaScript strings

A string is the list of its characters; one `Char` stands for one UTF-16 code
unit (texts outside the Basic Multilingual Plane are outside the model). -/

/-- The characters matched by `\s` and removed by `trim()`: WhiteSpace and
LineTerminator of ECMAScript. -/
def isSpace (c : Char) : Bool :=
  c.toNat = 9 || c.toNat = 10 || c.toNat = 11 || c.toNat = 12 || c.toNat = 13 ||
  c.toNat = 32 || c.toNat = 160 || c.toNat = 5760 ||
  (8192 ≤ c.toNat && c.toNat ≤ 8202) ||
  c.toNat = 8232 || c.toNat = 8233 || c.toNat = 8239 || c.toNat = 8287 ||
  c.toNat = 12288 || c.toNat = 65279

/-- `s.trimStart()`. -/
def trimStart (s : List Char) : List Char := s.dropWhile isSpace

/-- `s.trimEnd()`. -/
def trimEnd (s : List Char) : List Char := (s.reverse.dropWhile isSpace).reverse

/-- `s.trim()`. -/
def trim (s : List Char) : List Char := trimEnd (trimStart s)

/-- `s.split('\n')`: always at least one element. -/
def splitLines : List Char → List (List Char)
  | [] => [[]]
  | c :: cs =>
    if c = '\n' then [] :: splitLines cs
    else
      match splitLines cs with
      | l :: ls => (c :: l) :: ls
      | [] => [[c]]

/-- Loop of `s.split(/\s+/)`: `cur` is the token being read (reversed) and
`inRun` tells that the previous character belonged to a whitespace run. -/
def splitSpacesAux : List Char → Bool → List Char → List (List Char)
  | cur, _, [] => [cur.reverse]
  | cur, inRun, c :: cs =>
    if isSpace c then
      if inRun then splitSpacesAux [] true cs
      else cur.reverse :: splitSpacesAux [] true cs
    else splitSpacesAux (c :: cur) false cs

/-- `s.split(/\s+/)`: the tokens between maximal whitespace runs; a leading
or trailing run contributes an empty token, and `''` gives `['']`. -/
def splitSpaces (s : List Char) : List (List Char) := splitSpacesAux [] false s

/-- `s.toLowerCase()` on the ASCII letters (other letters are left as they
are). -/
def toLowerCase (s : List Char) : List Char := s.map Char.toLower

/-- The string after the literal `p` when `s` starts with it. -/
def dropLiteral : List Char → List Char → Option (List Char)
  | [], s => some s
  | _ :: _, [] => none
  | p :: ps, c :: cs => if p = c then dropLiteral ps cs else none

/-- `[A-Za-z0-9_]`, the class `\w`. -/
def isWordChar (c : Char) : Bool :=
  ('a'.toNat ≤ c.toNat && c.toNat ≤ 'z'.toNat) || ('A'.toNat ≤ c.toNat && c.toNat ≤ 'Z'.toNat) ||
  ('0'.toNat ≤ c.toNat && c.toNat ≤ '9'.toNat) || c = '_'

/-- Decimal rendering of a non-negative integer (template literals). -/
def ofNat (n : Nat) : List Char := Nat.toDigits 10 n

/-- Decimal rendering of an integer. -/
def ofInt : Int → List Char
  | Int.ofNat n => ofNat n
  | Int.negSucc n => '-' :: ofNat (n + 1)

end Js

namespace Indexer

/-! ## Chunks -/

/-- Chunk record. The enhanced indexer adds metadata fields (language,
purpose, documentation, ...) computed from the text; they play no part in
the properties below and are left out. -/
structure Chunk where
  id : List Char
  content : List Char
  filePath : List Char
  startLine : Nat
  endLine : Nat
  tokenCount : Nat
deriving DecidableEq, Repr

/-- `estimateTokenCount(text)`: `Math.ceil(text.length / 4)`. -/
def estimateTokenCount (text : List Char) : Nat := (text.length + 3) / 4

/-- The template literal of a chunk id, from the two 0-based line indices
handed to it. -/
def chunkId (filePath : List Char) (first last : Int) : List Char :=
  filePath ++ ':' :: (Js.ofInt first ++ '-' :: Js.ofInt last)

/-- The `for` loop and the final push of `CodebaseIndexer.generateChunks`;
`i` is the index of the next line, `cur` is `currentChunk`, `start` is
`chunkStart`. At the end of the lines `i` equals `lines.length`. -/
def generateChunksLoop (filePath : List Char) (chunkSize : Nat) :
    List (List Char) → Nat → List Char → Nat → List Chunk
  | [], i, cur, start =>
    if (Js.trim cur).length > 0 then
      [{ id := chunkId filePath start ((i : Int) - 1), content := Js.trim cur,
         filePath := filePath, startLine := start + 1, endLine := i,
         tokenCount := estimateTokenCount cur }]
    else []
  | line :: rest, i, cur, start =>
    if (cur ++ (line ++ ['\n'])).length > chunkSize ∧ cur.length > 0 then
      { id := chunkId filePath start ((i : Int) - 1), content := Js.trim cur,
        filePath := filePath, startLine := start + 1, endLine := i,
        tokenCount := estimateTokenCount cur } ::
        generateChunksLoop filePath chunkSize rest (i + 1) (line ++ ['\n']) i
    else generateChunksLoop filePath chunkSize rest (i + 1) (cur ++ (line ++ ['\n'])) start

/-- `CodebaseIndexer.generateChunks(content, filePath)`; `chunkSize` is
`this.chunkSize` (500 after construction). -/
def generateChunks (chunkSize : Nat) (content filePath : List Char) : List Chunk :=
  generateChunksLoop filePath chunkSize (Js.splitLines content) 0 [] 0

/-- `createChunk(content, fileInfo, startLine, endLine)` of the enhanced
indexer, with 0-based `startLine` and `endLine`. -/
def createChunk (content filePath : List Char) (startLine endLine : Int) : Chunk :=
  { id := chunkId filePath startLine endLine, content := Js.trim content,
    filePath := filePath, startLine := (startLine + 1).toNat, endLine := (endLine + 1).toNat,
    tokenCount := estimateTokenCount content }

/-- `^kw\s+` followed by a string satisfying `next`: what `^kw\s+X` tests
when `X` cannot start with whitespace. -/
def keywordSpaces (kw : String) (next : List Char → Bool) (line : List Char) : Bool :=
  match Js.dropLiteral kw.data line with
  | some (c :: cs) => Js.isSpace c && next (Js.trimStart cs)
  | _ => false

/-- `^kw\s*` followed by the character `ch`. -/
def keywordThen (kw : String) (ch : Char) (line : List Char) : Bool :=
  match Js.dropLiteral kw.data line with
  | some rest => (Js.trimStart rest).head? = some ch
  | none => false

/-- `^\s*\/\/\s*` followed by the literal `mark`. -/
def commentRule (mark : String) (line : List Char) : Bool :=
  match Js.dropLiteral "//".data (Js.trimStart line) with
  | some rest => (Js.dropLiteral mark.data (Js.trimStart rest)).isSome
  | none => false

/-- `isSemanticBoundary(line, language)` for the `javascript` table of
`semanticBoundaries` (also used for every language without a table). -/
def isSemanticBoundaryJs (line : List Char) : Bool :=
  keywordSpaces "export" (fun r =>
    ["class", "function", "const", "let", "var", "default"].any
      (fun k => (Js.dropLiteral k.data r).isSome)) line ||
  keywordSpaces "import" (fun _ => true) line ||
  ["class", "function", "const", "let", "var"].any
    (fun k => keywordSpaces k (fun r => (r.head?.map Js.isWordChar).getD false) line) ||
  ["if", "for", "while", "switch", "catch", "describe", "it", "test", "beforeEach",
    "afterEach", "beforeAll", "afterAll"].any (fun k => keywordThen k '(' line) ||
  ["try", "finally"].any (fun k => keywordThen k '{' line) ||
  (Js.dropLiteral "/**".data line).isSome ||
  commentRule "===" line || commentRule "---" line

/-- The guarded push `if (currentChunk.trim().length > 0) chunks.push(...)`
of `generateSemanticChunks`; `i` is the index of the line after the chunk. -/
def pushChunk (cur filePath : List Char) (start i : Nat) : List Chunk :=
  if (Js.trim cur).length > 0 then [createChunk cur filePath start ((i : Int) - 1)] else []

/-- The `for` loop and the final push of
`EnhancedCodebaseIndexer.generateSemanticChunks`. `isBoundary` is
`isSemanticBoundary(line, language)` for the file's language and
`maxChunkSize` is `this.maxChunkSize` (300 after construction). -/
def generateSemanticChunksLoop (isBoundary : List Char → Bool) (maxChunkSize : Nat)
    (filePath : List Char) : List (List Char) → Nat → List Char → Nat → List Chunk
  | [], i, cur, start => pushChunk cur filePath start i
  | line :: rest, i, cur, start =>
    if (isBoundary line ∧ cur.length > 0) ∨ cur.length + (line ++ ['\n']).length > maxChunkSize
    then
      pushChunk cur filePath start i ++
        generateSemanticChunksLoop isBoundary maxChunkSize filePath rest (i + 1)
          (line ++ ['\n']) i
    else
      generateSemanticChunksLoop isBoundary maxChunkSize filePath rest (i + 1)
        (cur ++ (line ++ ['\n'])) start

/-- `generateSemanticChunks(content, fileInfo)`. -/
def generateSemanticChunks (isBoundary : List Char → Bool) (maxChunkSize : Nat)
    (content filePath : List Char) : List Chunk :=
  generateSemanticChunksLoop isBoundary maxChunkSize filePath (Js.splitLines content) 0 [] 0

/-! ## Embeddings and search -/

/-- Value stored under a word of `wordFreq`: a count, or the string that
`wordFreq['constructor'] || 0` makes of the inherited `Object` function
(`function Object() ... 1`), whose square is `NaN`. -/
inductive Freq where
  | count (n : Nat)
  | text
deriving DecidableEq, Repr

/-- `Math.sqrt` of the sum of squares: the square root of a natural number,
or `NaN`. -/
inductive Magnitude where
  | sqrt (sumOfSquares : Nat)
  | nan
deriving DecidableEq, Repr

/-- Embedding `{ vector, magnitude }`; `vector` lists the own keys of
`wordFreq` in first-occurrence order. -/
structure Embedding where
  vector : List (List Char × Freq)
  magnitude : Magnitude
deriving DecidableEq, Repr

/-- The callback `wordFreq[word] = (wordFreq[word] || 0) + 1` on a plain
object: `__proto__` never becomes an own key, `constructor` turns into a
string, every other word counts. -/
def addWord (v : List (List Char × Freq)) (word : List Char) : List (List Char × Freq) :=
  if word = "__proto__".data then v
  else
    match v.find? (fun kv => kv.1 = word) with
    | some _ =>
      v.map (fun kv =>
        if kv.1 = word then
          (kv.1, match kv.2 with
            | .count n => .count (n + 1)
            | .text => .text)
        else kv)
    | none =>
      if word = "constructor".data then v ++ [(word, .text)]
      else v ++ [(word, .count 1)]

/-- `Math.sqrt(Object.values(wordFreq).reduce((sum, f) => sum + f * f, 0))`. -/
def magnitudeOf (v : List (List Char × Freq)) : Magnitude :=
  if v.any (fun kv => kv.2 = .text) then .nan
  else .sqrt ((v.map (fun kv => match kv.2 with
    | .count n => n * n
    | .text => 0)).sum)

/-- `createSimpleEmbedding(content)`. -/
def createSimpleEmbedding (content : List Char) : Embedding :=
  let wordFreq := (Js.splitSpaces (Js.toLowerCase content)).foldl addWord []
  { vector := wordFreq, magnitude := magnitudeOf wordFreq }

/-- Result of `calculateSimilarity`: the literal `0` of the early return, the
quotient `dot / (sqrt a * sqrt b)`, or `NaN`. -/
inductive Similarity where
  | zero
  | ratio (dot a b : Nat)
  | nan
deriving DecidableEq, Repr

/-- `embedding.vector[word]` for an own key. -/
def freqOf (e : Embedding) (word : List Char) : Option Freq :=
  (e.vector.find? (fun kv => kv.1 = word)).map Prod.snd

/-- `words1.filter(word => words2.includes(word))`. -/
def commonWords (e1 e2 : Embedding) : List (List Char) :=
  (e1.vector.map Prod.fst).filter (fun w => (e2.vector.map Prod.fst).contains w)

/-- The `forEach` accumulating `dotProduct`; `none` is `NaN`. -/
def dotProduct (e1 e2 : Embedding) (words : List (List Char)) : Option Nat :=
  words.foldl (fun acc w =>
    match acc, freqOf e1 w, freqOf e2 w with
    | some d, some (.count x), some (.count y) => some (d + x * y)
    | _, _, _ => none) (some 0)

/-- `calculateSimilarity(embedding1, embedding2)`. -/
def calculateSimilarity (e1 e2 : Embedding) : Similarity :=
  let common := commonWords e1 e2
  if common.length = 0 then .zero
  else
    match dotProduct e1 e2 common, e1.magnitude, e2.magnitude with
    | some d, .sqrt a, .sqrt b => .ratio d a b
    | _, _, _ => .nan

/-- The part of the index that `semanticSearch` reads: the `chunks` map
(path to chunk list) and the `embeddings` map (chunk id to embedding), each
in insertion order. -/
structure SearchIndex where
  chunks : List (List Char × List Chunk)
  embeddings : List (List Char × Embedding)
deriving DecidableEq, Repr

/-- Entry of `results`. -/
structure SearchResult where
  chunkId : List Char
  similarity : Similarity
  chunk : Option Chunk
deriving DecidableEq, Repr

/-- `this.index.chunks.get(chunkId.split(':')[0])?.find(c => c.id === chunkId)`. -/
def findChunk (idx : SearchIndex) (chunkId : List Char) : Option Chunk :=
  match idx.chunks.find? (fun kv => kv.1 = chunkId.takeWhile (fun c => c ≠ ':')) with
  | some kv => kv.2.find? (fun c => c.id = chunkId)
  | none => none

/-- The order `x ≥ y` on similarity values, decided in exact arithmetic
(`d1 / sqrt (a1 b1) ≥ d2 / sqrt (a2 b2)` iff `d1² a2 b2 ≥ d2² a1 b1`); a
comparison with `NaN` counts as a tie, as the comparator's `NaN` does. -/
def Similarity.ge : Similarity → Similarity → Bool
  | .nan, _ => true
  | _, .nan => true
  | _, .zero => true
  | .zero, .ratio d _ _ => d = 0
  | .ratio d1 a1 b1, .ratio d2 a2 b2 => decide (d2 * d2 * (a1 * b1) ≤ d1 * d1 * (a2 * b2))

/-- `semanticSearch(query, maxResults)`: one result per embedding entry,
those without chunk filtered out, stable sort by descending similarity,
`slice(0, maxResults)`. -/
def semanticSearch (idx : SearchIndex) (query : List Char) (maxResults : Nat) :
    List SearchResult :=
  let queryEmbedding := createSimpleEmbedding query
  let results : List SearchResult := idx.embeddings.map (fun kv =>
    { chunkId := kv.1, similarity := calculateSimilarity queryEmbedding kv.2,
      chunk := findChunk idx kv.1 })
  ((results.filter (fun r => r.chunk.isSome)).insertionSort
    (fun x y => x.similarity.ge y.similarity = true)).take maxResults

/-- Index holding one file whose path contains a colon, with its single
chunk and that chunk's embedding, as `indexCodebase` builds them. -/
def colonIndex : SearchIndex :=
  { chunks := [("a:b.js".data, generateChunks 500 "hello world".data "a:b.js".data)]
    embeddings := (generateChunks 500 "hello world".data "a:b.js".data).map
      (fun c => (c.id, createSimpleEmbedding c.content)) }

/-- Value of a decimal numeral. -/
def decodeDecimal (l : List Char) : Nat := l.foldl (fun v c => 10 * v + (c.toNat - 48)) 0

/-- Chunks of the file `path` whose ids are built from the 0-based indices of
their first and last line, whose 1-based ranges lie in `lo + 1 .. hi`, and
whose ranges ascend without overlap. -/
def WellRanged (path : List Char) (lo hi : Nat) (cs : List Chunk) : Prop :=
  (∀ c ∈ cs, c.id = chunkId path ((c.startLine : Int) - 1) ((c.endLine : Int) - 1) ∧
      lo + 1 ≤ c.startLine ∧ c.startLine ≤ c.endLine ∧ c.endLine ≤ hi) ∧
  cs.Pairwise (fun c1 c2 => c1.endLine < c2.startLine)

/-- `s` with every whitespace character deleted. -/
def stripSpaces (s : List Char) : List Char := s.filter (fun c => !Js.isSpace c)

/-- The words of a text: the non-empty tokens between whitespace runs,
lower-cased. -/
def wordsOf (s : List Char) : List (List Char) :=
  (Js.splitSpaces (Js.toLowerCase s)).filter (fun w => w ≠ [])

end Indexer

namespace SafetyManager

/-! ## Data model -/

/-- AgentAction as consumed by the safety manager: `type`, `path` and the
optional `content` (absent for `delete_file` / `create_folder`). -/
structure Action where
  type : String
  path : String
  content : Option String
deriving DecidableEq, Repr

/-- Value returned by `createBackup` when a backup was written. -/
structure Backup where
  originalPath : String
  backupPath : String
  timestamp : String
deriving DecidableEq, Repr

/-- Entry of `undoStack`: `{ action, backup, timestamp }`. -/
structure UndoEntry where
  action : Action
  backup : Option Backup
  timestamp : String
deriving DecidableEq, Repr

/-- Object built by `validateActions`. -/
structure Validation where
  valid : Bool
  warnings : List String
  errors : List String
  requiresConfirmation : Bool
  scopedViolations : List String
deriving DecidableEq, Repr

/-- The `result` field of a successful execution: `{ success, type, backup }`. -/
structure ExecInfo where
  success : Bool
  type : String
  backup : Option Backup
deriving DecidableEq, Repr

/-- ActionResult: the action's own fields (`...action`) plus `executed`,
`result` (on success), `error` (on failure) and `timestamp`. -/
structure ActionResult where
  action : Action
  executed : Bool
  result : Option ExecInfo
  error : Option String
  timestamp : String
deriving DecidableEq, Repr

/-- Object returned by the undo operations: `{ success, action, path }`. -/
structure UndoResult where
  success : Bool
  action : String
  path : String
deriving DecidableEq, Repr

/-- Element of the list returned by `undoMultipleActions`:
`{ index, ...result }` or `{ index, success: false, error }`. -/
structure MultiUndoResult where
  index : Int
  result : Option UndoResult
  error : Option String
deriving DecidableEq, Repr

/-- Fields of the `SafetyManager` instance that the modelled methods read or
write (`pendingActions` only carries the promise plumbing of the confirmation
request, which is modelled by its outcome). -/
structure Manager where
  workspacePath : String
  backupDir : String
  undoStack : List UndoEntry
  maxUndoSteps : Nat
  scopedFiles : List String
deriving DecidableEq, Repr

/-- External collaborators: `path.join`, `path.basename`, the `fs-extra`
operations on a world state `σ`, and the clock. An operation that throws
leaves the world as it was. The data handed to `writeFile` is a string or
`undefined` (`none`): what a write of `undefined` does is the file system's
business. -/
structure Env (σ : Type) where
  join : String → String → String
  basename : String → String
  pathExists : σ → String → Bool
  readFile : σ → String → Except String String
  writeFile : σ → String → Option String → Except String σ
  ensureFile : σ → String → Except String σ
  ensureDir : σ → String → Except String σ
  remove : σ → String → Except String σ
  dateNow : σ → Nat
  isoNow : σ → String

/-- The constructor: `new SafetyManager(workspacePath)`. -/
def Manager.new {σ : Type} (env : Env σ) (workspacePath : String) : Manager :=
  { workspacePath := workspacePath
    backupDir := env.join workspacePath ".ai-backups"
    undoStack := []
    maxUndoSteps := 10
    scopedFiles := [] }

/-! ## Scope and validation -/

/-- `setScopedFiles(files)`: the set is cleared and refilled. -/
def setScopedFiles (m : Manager) (files : List String) : Manager :=
  { m with scopedFiles := files.dedup }

/-- `isFileInScope(filePath)`:
`this.scopedFiles.has(filePath) || this.scopedFiles.size === 0`. -/
def isFileInScope (scopedFiles : List String) (filePath : String) : Bool :=
  scopedFiles.contains filePath || scopedFiles.length == 0

/-- The `criticalFiles` array of `validateActions`. -/
def criticalFiles : List String :=
  ["package.json", "package-lock.json", "yarn.lock", ".gitignore", "README.md"]

/-- `action.content && action.content.length > 10000`. -/
def largeContent (a : Action) : Bool :=
  match a.content with
  | some c => decide (c.length > 10000)
  | none => false

/-- Body of the `for (const action of actions)` loop of `validateActions`. -/
def validateStep (basename : String → String) (scopedFiles : List String)
    (v : Validation) (a : Action) : Validation :=
  let v1 :=
    if !isFileInScope scopedFiles a.path then
      { v with
        scopedViolations := v.scopedViolations ++ [a.path]
        requiresConfirmation := true
        warnings := v.warnings ++ ["File " ++ a.path ++ " is outside the current scope"] }
    else v
  let v2 :=
    if a.type = "delete_file" then
      { v1 with
        requiresConfirmation := true
        warnings := v1.warnings ++ ["Deleting file: " ++ a.path] }
    else v1
  let v3 :=
    if largeContent a then
      { v2 with
        warnings := v2.warnings ++
          ["Large content change in " ++ a.path ++ " (" ++
            toString ((a.content.getD "").length) ++ " characters)"] }
    else v2
  if criticalFiles.contains (basename a.path) then
    { v3 with
      requiresConfirmation := true
      warnings := v3.warnings ++ ["Modifying critical file: " ++ a.path] }
  else v3

/-- The initial `validation` object. -/
def Validation.init : Validation :=
  { valid := true, warnings := [], errors := [], requiresConfirmation := false,
    scopedViolations := [] }

/-- `validateActions(actions)` with `this.scopedFiles = scopedFiles`. -/
def validateActions (basename : String → String) (scopedFiles : List String)
    (actions : List Action) : Validation :=
  let v := actions.foldl (validateStep basename scopedFiles) Validation.init
  if v.scopedViolations.length > 0 then
    { v with errors := v.errors ++
        [toString v.scopedViolations.length ++ " files are outside the current scope"] }
  else v

/-- The three conditions under which the loop body of `validateActions` sets
`requiresConfirmation`. -/
def needsConfirmation (basename : String → String) (scopedFiles : List String)
    (a : Action) : Prop :=
  (scopedFiles ≠ [] ∧ a.path ∉ scopedFiles) ∨ a.type = "delete_file" ∨
    basename a.path ∈ criticalFiles

/-! ## Backups, execution and the undo stack -/

/-- `filePath.replace(/[\/\\]/g, '_')`. -/
def flattenPath (filePath : String) : String :=
  String.mk (filePath.data.map (fun c => if c = '/' ∨ c = '\\' then '_' else c))

/-- `createBackup(filePath)`: copies an existing file into the backup
directory; returns `null` when the file does not exist or the copy fails. -/
def createBackup {σ : Type} (env : Env σ) (m : Manager) (w : σ) (filePath : String) :
    σ × Option Backup :=
  let fullPath := env.join m.workspacePath filePath
  let backupPath := env.join m.backupDir
    (flattenPath filePath ++ "_" ++ toString (env.dateNow w) ++ ".backup")
  if env.pathExists w fullPath then
    match env.readFile w fullPath with
    | .error _ => (w, none)
    | .ok content =>
      match env.writeFile w backupPath (some content) with
      | .error _ => (w, none)
      | .ok w1 =>
        (w1, some { originalPath := filePath, backupPath := backupPath,
                    timestamp := env.isoNow w1 })
  else (w, none)

/-- `addToUndoStack(action, backup)`: push, then `shift()` once when the
length exceeds `maxUndoSteps`. -/
def addToUndoStack (m : Manager) (action : Action) (backup : Option Backup)
    (timestamp : String) : Manager :=
  let pushed := m.undoStack ++ [{ action := action, backup := backup, timestamp := timestamp }]
  { m with undoStack := if pushed.length > m.maxUndoSteps then pushed.tail else pushed }

/-- The `switch (action.type)` of `executeActionWithBackup`. -/
def performAction {σ : Type} (env : Env σ) (w : σ) (fullPath : String) (action : Action)
    (backup : Option Backup) : σ × Except String ExecInfo :=
  if action.type = "create_file" then
    match env.ensureFile w fullPath with
    | .error e => (w, .error e)
    | .ok w1 =>
      match env.writeFile w1 fullPath action.content with
      | .error e => (w1, .error e)
      | .ok w2 => (w2, .ok { success := true, type := "created", backup := none })
  else if action.type = "edit_file" then
    match env.writeFile w fullPath action.content with
    | .error e => (w, .error e)
    | .ok w1 => (w1, .ok { success := true, type := "modified", backup := backup })
  else if action.type = "delete_file" then
    match env.remove w fullPath with
    | .error e => (w, .error e)
    | .ok w1 => (w1, .ok { success := true, type := "deleted", backup := backup })
  else if action.type = "create_folder" then
    match env.ensureDir w fullPath with
    | .error e => (w, .error e)
    | .ok w1 => (w1, .ok { success := true, type := "folder_created", backup := none })
  else (w, .error ("Unknown action type: " ++ action.type))

/-- `executeActionWithBackup(action)`: backup (for edit/delete), the file
operation, then the push on the undo stack; an exception of the file
operation is rethrown (no push happened). -/
def executeActionWithBackup {σ : Type} (env : Env σ) (m : Manager) (w : σ) (action : Action) :
    (Manager × σ) × Except String ActionResult :=
  let fullPath := env.join m.workspacePath action.path
  let bk : σ × Option Backup :=
    if action.type = "edit_file" ∨ action.type = "delete_file" then
      createBackup env m w action.path
    else (w, none)
  match performAction env bk.1 fullPath action bk.2 with
  | (w2, .error e) => ((m, w2), .error e)
  | (w2, .ok info) =>
    ((addToUndoStack m action bk.2 (env.isoNow w2), w2),
      .ok { action := action, executed := true, result := some info, error := none,
            timestamp := env.isoNow w2 })

/-- The `for (const action of actions) { try ... catch ... }` loop of
`executeActionsSafely`: one result per action, failures captured. -/
def executeLoop {σ : Type} (env : Env σ) :
    Manager → σ → List Action → (Manager × σ) × List ActionResult
  | m, w, [] => ((m, w), [])
  | m, w, a :: rest =>
    let step := executeActionWithBackup env m w a
    let r : ActionResult := match step.2 with
      | .ok r => r
      | .error e => { action := a, executed := false, result := none, error := some e,
                      timestamp := env.isoNow step.1.2 }
    let out := executeLoop env step.1.1 step.1.2 rest
    (out.1, r :: out.2)

/-- The diff loop of `executeActionsSafely` only reads files; the one way it
throws is `generateDiff('', undefined)` (an `edit_file` action without
content on a file that is missing or empty), a `TypeError` on
`newContent.split`. With non-empty old content the `TypeError` comes from the
same call two statements later. -/
def diffThrows (actions : List Action) : Bool :=
  actions.any (fun a => a.type = "edit_file" ∧ a.content = none)

/-- The scope set in force after the first statement of
`executeActionsSafely`. -/
def scopeFor (m : Manager) (relevantFiles : Option (List String)) : Manager :=
  match relevantFiles with
  | some files => setScopedFiles m files
  | none => m

/-- `executeActionsSafely(actions, context)`. `relevantFiles` is
`context.relevantFiles` when `context` and that field are present;
`approved` is the value the confirmation request resolves to when it is made
(`confirmActions(approved)`, or `true` on the 10 s timeout). -/
def executeActionsSafely {σ : Type} (env : Env σ) (m : Manager) (w : σ)
    (actions : List Action) (relevantFiles : Option (List String)) (approved : Bool) :
    (Manager × σ) × Except String (List ActionResult) :=
  let m1 := scopeFor m relevantFiles
  let validation := validateActions env.basename m1.scopedFiles actions
  if !validation.valid then
    ((m1, w), .error ("Action validation failed: " ++ ", ".intercalate validation.errors))
  else if diffThrows actions then
    ((m1, w), .error "Cannot read properties of undefined (reading 'split')")
  else
    let shouldProceed := if validation.requiresConfirmation then approved else true
    if !shouldProceed then
      ((m1, w), .error "User cancelled the operation")
    else
      let out := executeLoop env m1 w actions
      (out.1, .ok out.2)

/-- The `try` block shared by `undoLastAction` and `undoActionByIndex`:
restore from the backup and delete it, or remove a created file, or (any
other entry) do nothing and return `undefined`. -/
def restoreEntry {σ : Type} (env : Env σ) (m : Manager) (w : σ) (e : UndoEntry) :
    σ × Except String (Option UndoResult) :=
  let fullPath := env.join m.workspacePath e.action.path
  match e.backup with
  | some b =>
    match env.readFile w b.backupPath with
    | .error err => (w, .error err)
    | .ok backupContent =>
      match env.writeFile w fullPath (some backupContent) with
      | .error err => (w, .error err)
      | .ok w1 =>
        match env.remove w1 b.backupPath with
        | .error err => (w1, .error err)
        | .ok w2 =>
          (w2, .ok (some { success := true, action := e.action.type, path := e.action.path }))
  | none =>
    if e.action.type = "create_file" then
      match env.remove w fullPath with
      | .error err => (w, .error err)
      | .ok w1 => (w1, .ok (some { success := true, action := "deleted", path := e.action.path }))
    else (w, .ok none)

/-- `undoLastAction()`: `pop()` and restore. -/
def undoLastAction {σ : Type} (env : Env σ) (m : Manager) (w : σ) :
    (Manager × σ) × Except String (Option UndoResult) :=
  match m.undoStack.getLast? with
  | none => ((m, w), .error "No actions to undo")
  | some e =>
    let m1 := { m with undoStack := m.undoStack.dropLast }
    let out := restoreEntry env m1 w e
    ((m1, out.1), out.2)

/-- `undoActionByIndex(index)`: range check, `splice(index, 1)`, restore. -/
def undoActionByIndex {σ : Type} (env : Env σ) (m : Manager) (w : σ) (index : Int) :
    (Manager × σ) × Except String (Option UndoResult) :=
  if index < 0 ∨ index ≥ (m.undoStack.length : Int) then
    ((m, w), .error "Invalid action index")
  else
    match m.undoStack.get? index.toNat with
    | none => ((m, w), .error "Invalid action index")
    | some e =>
      let m1 := { m with undoStack := m.undoStack.eraseIdx index.toNat }
      let out := restoreEntry env m1 w e
      ((m1, out.1), out.2)

/-- The loop of `undoMultipleActions` over the already sorted indices. -/
def undoLoop {σ : Type} (env : Env σ) :
    Manager → σ → List Int → (Manager × σ) × List MultiUndoResult
  | m, w, [] => ((m, w), [])
  | m, w, i :: rest =>
    let step := undoActionByIndex env m w i
    let r : MultiUndoResult := match step.2 with
      | .ok r => { index := i, result := r, error := none }
      | .error e => { index := i, result := none, error := some e }
    let out := undoLoop env step.1.1 step.1.2 rest
    (out.1, r :: out.2)

/-- `undoMultipleActions(indices)`: `indices.sort((a, b) => b - a)` and then
one guarded `undoActionByIndex` per index. -/
def undoMultipleActions {σ : Type} (env : Env σ) (m : Manager) (w : σ) (indices : List Int) :
    (Manager × σ) × List MultiUndoResult :=
  undoLoop env m w (indices.insertionSort (· ≥ ·))

/-- `clearUndoStack()`. -/
def clearUndoStack (m : Manager) : Manager := { m with undoStack := [] }

/-- Element of `getUndoStackDetails()`. -/
structure UndoDetail where
  index : Int
  action : Action
  backup : Option Backup
  timestamp : String
  canUndo : Bool
deriving DecidableEq, Repr

/-- `getUndoStackDetails()`: the stack mapped in stack order, with
`index = length - position - 1`. -/
def getUndoStackDetails (m : Manager) : List UndoDetail :=
  m.undoStack.enum.map (fun p =>
    { index := (m.undoStack.length : Int) - (p.1 : Int) - 1
      action := p.2.action, backup := p.2.backup, timestamp := p.2.timestamp
      canUndo := true })

/-- The calls that change the undo stack. -/
inductive StackOp where
  | add (action : Action) (backup : Option Backup) (timestamp : String)
  | undoLast
  | undoByIndex (index : Int)
  | clear
deriving DecidableEq, Repr

/-- One call on the manager and the world. -/
def applyOp {σ : Type} (env : Env σ) (st : Manager × σ) : StackOp → Manager × σ
  | .add a b ts => (addToUndoStack st.1 a b ts, st.2)
  | .undoLast => (undoLastAction env st.1 st.2).1
  | .undoByIndex i => (undoActionByIndex env st.1 st.2 i).1
  | .clear => (clearUndoStack st.1, st.2)

/-- The entries of `s` whose position, counted from `k`, is not in `idxs`. -/
def withoutPositions {α : Type} : Nat → List α → List Int → List α
  | _, [], _ => []
  | k, x :: xs, idxs =>
    if (k : Int) ∈ idxs then withoutPositions (k + 1) xs idxs
    else x :: withoutPositions (k + 1) xs idxs

/-- The world after restoring, one after the other, the entries that sit at
the given positions of the stack `s`. -/
def restoreAt {σ : Type} (env : Env σ) (m : Manager) (s : List UndoEntry) : σ → List Int → σ
  | w, [] => w
  | w, i :: rest =>
    match s.get? i.toNat with
    | some e => restoreAt env m s (restoreEntry env m w e).1 rest
    | none => restoreAt env m s w rest

/-! ## An in-memory file system for concrete evaluations -/

/-- Flat in-memory world: files with their content, folders, paths on which
every write or removal is refused, and the clock (milliseconds). -/
structure MemFs where
  files : List (String × String)
  dirs : List String
  unwritable : List String
  clock : Nat
deriving DecidableEq, Repr

/-- Content of a file of the in-memory world. -/
def MemFs.lookup (w : MemFs) (p : String) : Option String :=
  (w.files.find? (fun kv => kv.1 = p)).map Prod.snd

/-- Create or overwrite a file of the in-memory world. -/
def MemFs.put (w : MemFs) (p c : String) : MemFs :=
  { w with files := (w.files.filter (fun kv => kv.1 ≠ p)) ++ [(p, c)] }

/-- Characters after the last `/` (POSIX `path.basename` on a path without
trailing slash). -/
def lastSegment : List Char → List Char
  | [] => []
  | c :: cs => if cs.contains '/' then lastSegment cs else if c = '/' then cs else c :: cs

/-- Sample world: one existing file, one path that refuses writes. -/
def sampleWorld : MemFs :=
  { files := [("ws/a.txt", "old")], dirs := [], unwritable := ["ws/b.txt"], clock := 5 }

/-- Sample undo stack of three entries without backup. -/
def sampleStack : List UndoEntry :=
  [ { action := ⟨"create_file", "x.txt", some "1"⟩, backup := none, timestamp := "1" },
    { action := ⟨"create_file", "y.txt", some "2"⟩, backup := none, timestamp := "2" },
    { action := ⟨"create_file", "z.txt", some "3"⟩, backup := none, timestamp := "3" } ]

/-- The in-memory instance of the collaborators. -/
def memEnv : Env MemFs where
  join a b := a ++ "/" ++ b
  basename p := String.mk (lastSegment p.data)
  pathExists w p := (w.lookup p).isSome || w.dirs.contains p
  readFile w p := match w.lookup p with
    | some c => .ok c
    | none => .error ("ENOENT: no such file or directory, open '" ++ p ++ "'")
  writeFile w p data :=
    match data with
    | none => .error "The \"data\" argument must be of type string"
    | some c =>
      if w.unwritable.contains p then .error ("EACCES: permission denied, open '" ++ p ++ "'")
      else .ok (w.put p c)
  ensureFile w p :=
    if (w.lookup p).isSome then .ok w
    else if w.unwritable.contains p then .error ("EACCES: permission denied, open '" ++ p ++ "'")
    else .ok (w.put p "")
  ensureDir w p :=
    if w.unwritable.contains p then .error ("EACCES: permission denied, mkdir '" ++ p ++ "'")
    else .ok { w with dirs := if w.dirs.contains p then w.dirs else w.dirs ++ [p] }
  remove w p :=
    if w.unwritable.contains p then .error ("EACCES: permission denied, unlink '" ++ p ++ "'")
    else .ok { w with files := w.files.filter (fun kv => kv.1 ≠ p)
                      dirs := w.dirs.filter (fun d => d ≠ p) }
  dateNow w := w.clock
  isoNow w := toString w.clock

end SafetyManager

namespace Agent

/-! ## JSON values and `JSON.parse` -/

/-- A value produced by `JSON.parse`. A number is kept as the exact decimal
value of its literal, `± mantissa * 10 ^ exponent`; an object is the list of
its members in source order (a repeated key is read at its last member). -/
inductive Json where
  | null
  | bool (b : Bool)
  | num (negative : Bool) (mantissa : Nat) (exponent : Int)
  | str (s : List Char)
  | arr (xs : List Json)
  | obj (members : List (List Char × Json))
deriving Repr

/-- `obj[key]` on the members of an object: the last member with that key,
`undefined` (`none`) when there is none. -/
def lookup (key : List Char) : List (List Char × Json) → Option Json
  | [] => none
  | (k, v) :: rest =>
    match lookup key rest with
    | some w => some w
    | none => if k = key then some v else none

/-- `value[key]` for one of the keys `analysis`, `actions`, `type`, `path`,
`content`, `explanation` (none of them exists on the prototypes): a
`TypeError` on `null`, the member on an object, `undefined` otherwise. -/
def getProp (v : Json) (key : String) : Except String (Option Json) :=
  match v with
  | .null => .error ("Cannot read properties of null (reading '" ++ key ++ "')")
  | .obj members => .ok (lookup key.data members)
  | _ => .ok none

/-- A decimal literal rounds to the double `0` exactly when its value is at
most `2 ^ (-1075)`, half the smallest subnormal. -/
def numIsZero (mantissa : Nat) (exponent : Int) : Bool :=
  mantissa = 0 ||
    (exponent < 0 && decide (mantissa * 2 ^ 1075 ≤ 10 ^ exponent.natAbs))

/-- Truthiness of a JSON value (`!value` is its negation). -/
def truthy : Option Json → Bool
  | none => false
  | some .null => false
  | some (.bool b) => b
  | some (.num _ m e) => !numIsZero m e
  | some (.str s) => !s.isEmpty
  | some (.arr _) => true
  | some (.obj _) => true

/-- JSON whitespace: space, tab, line feed, carriage return. -/
def isJsonSpace (c : Char) : Bool := c = ' ' || c = '\t' || c = '\n' || c = '\r'

/-- Skip JSON whitespace. -/
def skipWs (s : List Char) : List Char := s.dropWhile isJsonSpace

/-- Value of a hexadecimal digit. -/
def hexValue (c : Char) : Option Nat :=
  if '0'.toNat ≤ c.toNat ∧ c.toNat ≤ '9'.toNat then some (c.toNat - '0'.toNat)
  else if 'a'.toNat ≤ c.toNat ∧ c.toNat ≤ 'f'.toNat then some (c.toNat - 'a'.toNat + 10)
  else if 'A'.toNat ≤ c.toNat ∧ c.toNat ≤ 'F'.toNat then some (c.toNat - 'A'.toNat + 10)
  else none

/-- The code unit of `\uXXXX` (an escaped surrogate has no `Char`; it is
read as U+0000). -/
def unicodeEscape (a b c d : Char) : Option Char :=
  match hexValue a, hexValue b, hexValue c, hexValue d with
  | some x, some y, some z, some w => some (Char.ofNat (((x * 16 + y) * 16 + z) * 16 + w))
  | _, _, _, _ => none

/-- The characters of a string literal after its opening quote, up to the
closing quote: the decoded string and the text after the closing quote. -/
def parseStringBody : List Char → Option (List Char × List Char)
  | [] => none
  | '"' :: rest => some ([], rest)
  | '\\' :: 'u' :: a :: b :: c :: d :: rest =>
    match unicodeEscape a b c d, parseStringBody rest with
    | some ch, some (s, r) => some (ch :: s, r)
    | _, _ => none
  | '\\' :: e :: rest =>
    let decoded : Option Char :=
      if e = '"' then some '"' else if e = '\\' then some '\\' else if e = '/' then some '/'
      else if e = 'b' then some (Char.ofNat 8) else if e = 'f' then some (Char.ofNat 12)
      else if e = 'n' then some '\n' else if e = 'r' then some '\r'
      else if e = 't' then some '\t' else none
    match decoded, parseStringBody rest with
    | some ch, some (s, r) => some (ch :: s, r)
    | _, _ => none
  | '\\' :: [] => none
  | ch :: rest =>
    if ch.toNat < 32 then none
    else
      match parseStringBody rest with
      | some (s, r) => some (ch :: s, r)
      | none => none

/-- Decimal digits at the start of the text and the rest. -/
def spanDigits (s : List Char) : List Char × List Char := s.span Char.isDigit

/-- Value of a run of decimal digits. -/
def digitsValue (ds : List Char) : Nat := ds.foldl (fun v c => 10 * v + (c.toNat - 48)) 0

/-- A number literal `-? (0 | [1-9][0-9]*) (. [0-9]+)? ([eE] [+-]? [0-9]+)?`
at the start of the text. -/
def parseNumber (s : List Char) : Option (Json × List Char) :=
  let neg := s.head? = some '-'
  let s1 := if neg then s.tail else s
  let ip := spanDigits s1
  if ip.1 = [] ∨ (ip.1.head? = some '0' ∧ ip.1.length > 1) then none
  else
    let fr : Option (List Char × List Char) :=
      match ip.2 with
      | '.' :: r =>
        let f := spanDigits r
        if f.1 = [] then none else some f
      | r => some ([], r)
    match fr with
    | none => none
    | some (fd, r1) =>
      let ex : Option (Int × List Char) :=
        match r1 with
        | 'e' :: '+' :: r | 'E' :: '+' :: r =>
          let e := spanDigits r
          if e.1 = [] then none else some ((digitsValue e.1 : Int), e.2)
        | 'e' :: '-' :: r | 'E' :: '-' :: r =>
          let e := spanDigits r
          if e.1 = [] then none else some (- (digitsValue e.1 : Int), e.2)
        | 'e' :: r | 'E' :: r =>
          let e := spanDigits r
          if e.1 = [] then none else some ((digitsValue e.1 : Int), e.2)
        | r => some (0, r)
      match ex with
      | none => none
      | some (e, r2) =>
        some (.num neg (digitsValue (ip.1 ++ fd)) (e - (fd.length : Int)), r2)

/-- One of the literals `true`, `false`, `null`, or a number, at the start
of the text. -/
def parseLiteral (s : List Char) : Option (Json × List Char) :=
  match Js.dropLiteral "true".data s with
  | some r => some (.bool true, r)
  | none =>
    match Js.dropLiteral "false".data s with
    | some r => some (.bool false, r)
    | none =>
      match Js.dropLiteral "null".data s with
      | some r => some (.null, r)
      | none => parseNumber s

mutual
/-- A JSON value at the start of the text (after optional whitespace); the
first argument bounds the nesting of calls. -/
def parseValue : Nat → List Char → Option (Json × List Char)
  | 0, _ => none
  | fuel + 1, s =>
    match skipWs s with
    | [] => none
    | c :: r =>
      if c = '{' then
        match skipWs r with
        | [] => none
        | d :: r1 =>
          if d = '}' then some (.obj [], r1)
          else
            match parseMembers fuel (d :: r1) with
            | some (ms, r2) => some (.obj ms, r2)
            | none => none
      else if c = '[' then
        match skipWs r with
        | [] => none
        | d :: r1 =>
          if d = ']' then some (.arr [], r1)
          else
            match parseElements fuel (d :: r1) with
            | some (xs, r2) => some (.arr xs, r2)
            | none => none
      else if c = '"' then
        match parseStringBody r with
        | some (str, r1) => some (.str str, r1)
        | none => none
      else parseLiteral (c :: r)
/-- The elements of an array after `[`, up to and including `]`. -/
def parseElements : Nat → List Char → Option (List Json × List Char)
  | 0, _ => none
  | fuel + 1, s =>
    match parseValue fuel s with
    | none => none
    | some (v, r) =>
      match skipWs r with
      | [] => none
      | d :: r1 =>
        if d = ',' then
          match parseElements fuel r1 with
          | some (vs, r2) => some (v :: vs, r2)
          | none => none
        else if d = ']' then some ([v], r1)
        else none
/-- The members of an object after `{`, up to and including `}`. -/
def parseMembers : Nat → List Char → Option (List (List Char × Json) × List Char)
  | 0, _ => none
  | fuel + 1, s =>
    match skipWs s with
    | [] => none
    | q :: r =>
      if q = '"' then
        match parseStringBody r with
        | none => none
        | some (key, r1) =>
          match skipWs r1 with
          | [] => none
          | colon :: r2 =>
            if colon = ':' then
              match parseValue fuel r2 with
              | none => none
              | some (v, r3) =>
                match skipWs r3 with
                | [] => none
                | d :: r4 =>
                  if d = ',' then
                    match parseMembers fuel r4 with
                    | some (ms, r5) => some ((key, v) :: ms, r5)
                    | none => none
                  else if d = '}' then some ([(key, v)], r4)
                  else none
            else none
      else none
end

/-- `JSON.parse(text)`: one value surrounded by optional whitespace, or a
`SyntaxError` (whose message is the engine's own; the engine's limit on the
depth of nesting is not modelled). Every call of the three
parsing functions above consumes a character before it recurses twice, so
`2 * length + 2` bounds the nesting. -/
def jsonParse (text : List Char) : Except String Json :=
  match parseValue (2 * text.length + 2) text with
  | some (v, rest) =>
    if skipWs rest = [] then .ok v else .error "Unexpected non-whitespace character after JSON"
  | none => .error "Unexpected token in JSON"

/-! ## Extraction of the JSON text -/

/-- The backtick character. -/
def backtick : Char := Char.ofNat 96

/-- The apostrophe character. -/
def apostrophe : Char := Char.ofNat 39

/-- A markdown code fence: three backticks. -/
def fence : List Char := [backtick, backtick, backtick]

/-- The text before the first code fence in `s`, when there is one. -/
def untilFence : List Char → Option (List Char)
  | [] => none
  | c :: cs =>
    match Js.dropLiteral fence (c :: cs) with
    | some _ => some []
    | none => (untilFence cs).map (fun t => c :: t)

/-- Capture group 1 of the fence pattern once an opening fence has been read:
optional `json`, `\s*`, then lazily up to the first closing fence that is
preceded by `\s*`; that is the text between, without surrounding whitespace. -/
def matchFenceAt (after : List Char) : Option (List Char) :=
  let capture (a : List Char) : Option (List Char) :=
    (untilFence (Js.trimStart a)).map Js.trimEnd
  match Js.dropLiteral "json".data after with
  | some r =>
    match capture r with
    | some cap => some cap
    | none => capture after
  | none => capture after

/-- Group 1 of the leftmost match of the fence pattern
(three backticks, `(?:json)?\s*([\s\S]*?)\s*`, three backticks) in
`aiResponse`. -/
def matchFence : List Char → Option (List Char)
  | [] => none
  | c :: cs =>
    match Js.dropLiteral fence (c :: cs) with
    | some after =>
      match matchFenceAt after with
      | some cap => some cap
      | none => matchFence cs
    | none => matchFence cs

/-- The prefix of `s` that ends at the last `}` of `s`. -/
def upToLastBrace : List Char → Option (List Char)
  | [] => none
  | c :: cs =>
    match upToLastBrace cs with
    | some t => some (c :: t)
    | none => if c = '}' then some [c] else none

/-- `aiResponse.match(/\{[\s\S]*\}/)`: from the first `{` to the last `}`
after it. -/
def matchObject (s : List Char) : Option (List Char) :=
  match s.dropWhile (fun c => c ≠ '{') with
  | [] => none
  | o :: r => (upToLastBrace r).map (fun t => o :: t)

/-- The value of `jsonText` after the two extraction steps: the object match
on `aiResponse` when there is one, else the fence capture, else the
response itself. -/
def extractJsonText (aiResponse : List Char) : List Char :=
  match matchObject aiResponse with
  | some t => t
  | none =>
    match matchFence aiResponse with
    | some t => t
    | none => aiResponse

/-! ## Global replacements -/

/-- `s.replace(re, ...)` for a global pattern that cannot match the empty
string: `matchAt` gives, for a match at the start of the remaining text, the
replacement and the text after the match. -/
def replaceAllAux (matchAt : List Char → Option (List Char × List Char)) :
    Nat → List Char → List Char
  | 0, s => s
  | _, [] => []
  | fuel + 1, c :: cs =>
    match matchAt (c :: cs) with
    | some (out, rest) => out ++ replaceAllAux matchAt fuel rest
    | none => c :: replaceAllAux matchAt fuel cs

/-- Global replacement over the whole of `s`. -/
def replaceAll (matchAt : List Char → Option (List Char × List Char)) (s : List Char) :
    List Char :=
  replaceAllAux matchAt s.length s

/-- The pattern `,\s*X` with `X` one closing character accepted by
`isClose`, replaced by that character. -/
def commaBefore (isClose : Char → Bool) : List Char → Option (List Char × List Char)
  | ',' :: r =>
    match Js.trimStart r with
    | d :: rest => if isClose d then some ([d], rest) else none
    | [] => none
  | _ => none

/-- `[\u0000-\u001F\u007F-\u009F]`. -/
def isControl (c : Char) : Bool := c.toNat ≤ 31 || (127 ≤ c.toNat && c.toNat ≤ 159)

/-- `cleanJsonString(jsonText)`: trailing commas before `}` and before `]`
removed, control characters removed, trimmed. -/
def cleanJsonString (jsonText : List Char) : List Char :=
  let c1 := replaceAll (commaBefore (fun c => c = '}')) jsonText
  let c2 := replaceAll (commaBefore (fun c => c = ']')) c1
  Js.trim (c2.filter (fun c => !isControl c))

/-! ## The `content` pattern and `String.prototype.replace` -/

/-- Largest string length of the engine (V8 on 64-bit: `2 ^ 29 - 24`); a
string operation that would exceed it throws a `RangeError`. -/
def maxStringLength : Nat := 536870888

/-- A match of `"content":\s*"([^"]*(?:\\"[^"]*)*)"` at the start of `s`: the
matched text, group 1 and the text after the match. Group 1 is the text up to
the next `"` (the alternative `\\"` is only tried where `[^"]*` stopped, on a
`"`, so it never applies). -/
def matchContentAt (s : List Char) : Option (List Char × List Char × List Char) :=
  match Js.dropLiteral "\"content\":".data s with
  | some r =>
    let w := r.span Js.isSpace
    match w.2 with
    | '"' :: body =>
      let cap := body.takeWhile (fun c => c ≠ '"')
      match body.dropWhile (fun c => c ≠ '"') with
      | _ :: rest => some ("\"content\":".data ++ w.1 ++ '"' :: cap ++ ['"'], cap, rest)
      | [] => none
    | _ => none
  | none => none

/-- Leftmost match of the `content` pattern: its index, text and group 1. -/
def findContent : List Char → Option (Nat × List Char × List Char)
  | [] => none
  | c :: cs =>
    match matchContentAt (c :: cs) with
    | some m => some (0, m.1, m.2.1)
    | none => (findContent cs).map (fun p => (p.1 + 1, p.2))

/-- `contentRegex.exec(s)` with the given `lastIndex`: the new `lastIndex`,
the matched text and group 1; `none` is `null`. -/
def execContent (s : List Char) (lastIndex : Nat) : Option (Nat × List Char × List Char) :=
  if lastIndex > s.length then none
  else (findContent (s.drop lastIndex)).map
    (fun p => (lastIndex + p.1 + p.2.1.length, p.2.1, p.2.2))

/-- The text before and after the first occurrence of `pat` in `s`. -/
def splitAtFirst (pat : List Char) : List Char → Option (List Char × List Char)
  | [] => if pat = [] then some ([], []) else none
  | c :: cs =>
    match Js.dropLiteral pat (c :: cs) with
    | some rest => some ([], rest)
    | none => (splitAtFirst pat cs).map (fun p => (c :: p.1, p.2))

/-- Expansion of a replacement string for a string pattern: `$$`, `$&`,
dollar-backtick (text before the match) and dollar-apostrophe (text after
it); any other `$` is literal. -/
def expandTemplateAux (matched before after : List Char) : Bool → List Char → List Char
  | false, [] => []
  | true, [] => ['$']
  | false, c :: r =>
    if c = '$' then expandTemplateAux matched before after true r
    else c :: expandTemplateAux matched before after false r
  | true, d :: r =>
    if d = '$' then '$' :: expandTemplateAux matched before after false r
    else if d = '&' then matched ++ expandTemplateAux matched before after false r
    else if d = backtick then before ++ expandTemplateAux matched before after false r
    else if d = apostrophe then after ++ expandTemplateAux matched before after false r
    else '$' :: d :: expandTemplateAux matched before after false r

/-- Expansion of a whole replacement string (the flag of the loop above
tells that the previous character was an unconsumed `$`). -/
def expandTemplate (matched before after template : List Char) : List Char :=
  expandTemplateAux matched before after false template

/-- `s.replace(pat, template)` for string arguments: the first occurrence is
replaced by the expanded template; a `RangeError` when the result is longer
than the engine allows. -/
def replaceFirst (s pat template : List Char) : Except String (List Char) :=
  match splitAtFirst pat s with
  | some (before, after) =>
    let out := before ++ expandTemplate pat before after template ++ after
    if out.length > maxStringLength then .error "Invalid string length" else .ok out
  | none => .ok s

/-- `text.replace(/"/g, '\\"')`. -/
def escapeQuotes (text : List Char) : List Char :=
  (text.map (fun c => if c = '"' then ['\\', '"'] else [c])).flatten

/-- `text.replace(/\\"/g, '"')`. -/
def unescapeQuotesAux : Bool → List Char → List Char
  | false, [] => []
  | true, [] => ['\\']
  | false, c :: r =>
    if c = '\\' then unescapeQuotesAux true r else c :: unescapeQuotesAux false r
  | true, d :: r =>
    if d = '"' then '"' :: unescapeQuotesAux false r
    else if d = '\\' then '\\' :: unescapeQuotesAux true r
    else '\\' :: d :: unescapeQuotesAux false r

/-- The replacement over a whole text (the flag of the loop above tells that
the previous character was a backslash not yet written). -/
def unescapeQuotes (text : List Char) : List Char := unescapeQuotesAux false text

/-- The template literal of the repaired member. -/
def contentMember (escapedContent : List Char) : List Char :=
  "\"content\": \"".data ++ escapedContent ++ ['"']

/-- The `while` loop of `parseJsonWithContentFix`: the matches are searched
in `jsonText`, which does not change, so there are at most `jsonText.length`
iterations. -/
def contentFixLoop (jsonText : List Char) : Nat → Nat → List Char → Except String (List Char)
  | 0, _, fixedJson => .ok fixedJson
  | fuel + 1, lastIndex, fixedJson =>
    match execContent jsonText lastIndex with
    | none => .ok fixedJson
    | some (next, originalMatch, originalContent) =>
      match replaceFirst fixedJson originalMatch (contentMember (escapeQuotes originalContent)) with
      | .error e => .error e
      | .ok fixed => contentFixLoop jsonText fuel next fixed

/-- `parseJsonWithContentFix(jsonText)`. -/
def parseJsonWithContentFix (jsonText : List Char) : Except String Json :=
  match contentFixLoop jsonText jsonText.length 0 jsonText with
  | .error e => .error e
  | .ok fixedJson => jsonParse (cleanJsonString fixedJson)

/-! ## Completion of truncated text -/

/-- State of the brace-counting scan. -/
structure Scan where
  braceCount : Int
  bracketCount : Int
  inString : Bool
  escapeNext : Bool
deriving DecidableEq, Repr

/-- One iteration of the scan loop. -/
def scanStep (st : Scan) (c : Char) : Scan :=
  if st.escapeNext then { st with escapeNext := false }
  else if c = '\\' then { st with escapeNext := true }
  else if c = '"' then { st with inString := !st.inString }
  else if !st.inString then
    if c = '{' then { st with braceCount := st.braceCount + 1 }
    else if c = '}' then { st with braceCount := st.braceCount - 1 }
    else if c = '[' then { st with bracketCount := st.bracketCount + 1 }
    else if c = ']' then { st with bracketCount := st.bracketCount - 1 }
    else st
  else st

/-- The scan over the whole text. -/
def scan (text : List Char) : Scan :=
  text.foldl scanStep { braceCount := 0, bracketCount := 0, inString := false,
                        escapeNext := false }

/-- The two `while` loops: first every missing `]`, then every missing `}`. -/
def closers (st : Scan) : List Char :=
  List.replicate st.bracketCount.toNat ']' ++ List.replicate st.braceCount.toNat '}'

/-- The completion step of `parseLargeJsonResponse`: when the last character
of the trimmed text is not `}`, the closers computed by the scan are appended. -/
def completeTruncated (jsonText : List Char) : List Char :=
  if (Js.trim jsonText).getLast? ≠ some '}' then jsonText ++ closers (scan jsonText)
  else jsonText

/-- `parseLargeJsonResponse(jsonText)`. -/
def parseLargeJsonResponse (jsonText : List Char) : Except String Json :=
  let completed := completeTruncated jsonText
  let cleanedJson := cleanJsonString completed
  let finalJson := Js.trim
    ((replaceAll (commaBefore (fun c => c = '}' ∨ c = ']')) cleanedJson).filter
      (fun c => !isControl c))
  jsonParse finalJson

/-! ## Aggressive repair -/

/-- An identifier `[a-zA-Z_][a-zA-Z0-9_]*` at the start of the text. -/
def spanIdent : List Char → Option (List Char × List Char)
  | [] => none
  | c :: cs =>
    if Js.isWordChar c ∧ ¬ c.isDigit then
      some (c :: (cs.span Js.isWordChar).1, (cs.span Js.isWordChar).2)
    else none

/-- `([{,]\s*)([a-zA-Z_][a-zA-Z0-9_]*)\s*:` replaced by `$1"$2":`. -/
def quoteKeyAt : List Char → Option (List Char × List Char)
  | [] => none
  | c :: r =>
    if c = '{' ∨ c = ',' then
      match spanIdent (r.span Js.isSpace).2 with
      | some (ident, r2) =>
        match Js.trimStart r2 with
        | ':' :: r3 => some (c :: (r.span Js.isSpace).1 ++ '"' :: ident ++ ['"', ':'], r3)
        | _ => none
      | none => none
    else none

/-- `:\s*([a-zA-Z_][a-zA-Z0-9_]*)\s*([,}])` replaced by `:"$1"$2`. -/
def quoteValueAt : List Char → Option (List Char × List Char)
  | ':' :: r =>
    match spanIdent (Js.trimStart r) with
    | some (ident, r2) =>
      match Js.trimStart r2 with
      | d :: r3 => if d = ',' ∨ d = '}' then some (':' :: '"' :: ident ++ ['"', d], r3) else none
      | [] => none
    | none => none
  | _ => none

/-- The pattern `a\s*b` for two characters, replaced by `a,b`. -/
def betweenAt (a b : Char) : List Char → Option (List Char × List Char)
  | [] => none
  | c :: r =>
    if c = a then
      match Js.trimStart r with
      | d :: rest => if d = b then some ([a, ',', b], rest) else none
      | [] => none
    else none

/-- The pattern `"\s*"key":` replaced by `", "key":`. -/
def beforeKeyAt (key : String) : List Char → Option (List Char × List Char)
  | '"' :: r =>
    match Js.dropLiteral ('"' :: key.data ++ ['"', ':']) (Js.trimStart r) with
    | some rest => some ('"' :: ',' :: ' ' :: '"' :: key.data ++ ['"', ':'], rest)
    | none => none
  | _ => none

/-- The `while` loop of step 6 of `parseMalformedJson`: the pattern is
executed on `fixedJson`, which the body replaces. Every iteration moves
`lastIndex` forward by at least 12 and `lastIndex` never exceeds the length
of a string, so `maxStringLength` iterations are never completed; running out
of them stands for the `RangeError` of a string grown beyond that length. -/
def malformedContentLoop : Nat → List Char → Nat → Except String (List Char)
  | 0, _, _ => .error "Invalid string length"
  | fuel + 1, fixedJson, lastIndex =>
    match execContent fixedJson lastIndex with
    | none => .ok fixedJson
    | some (next, originalMatch, originalContent) =>
      match replaceFirst fixedJson originalMatch
          (contentMember (escapeQuotes (unescapeQuotes originalContent))) with
      | .error e => .error e
      | .ok fixed => malformedContentLoop fuel fixed next

/-- `"content":\s*([^"][^,}]*[^",\s])\s*([,}])` replaced by
`"content": "$1"$2`, with the backtracking order of the pattern: `\s*` from
its longest match down, then `[^,}]*` from its longest match down. -/
def looseContentAt (s : List Char) : Option (List Char × List Char) :=
  match Js.dropLiteral "\"content\":".data s with
  | none => none
  | some r =>
    (List.range ((r.takeWhile Js.isSpace).length + 1)).reverse.findSome? (fun k =>
      match r.drop k with
      | [] => none
      | a :: body =>
        if a = '"' then none
        else
          (List.range ((body.takeWhile (fun c => c ≠ ',' ∧ c ≠ '}')).length + 1)).reverse.findSome?
            (fun n =>
              match body.drop n with
              | [] => none
              | b :: after =>
                if b = '"' ∨ b = ',' ∨ Js.isSpace b then none
                else
                  match Js.trimStart after with
                  | [] => none
                  | d :: rest =>
                    if d = ',' ∨ d = '}' then
                      some ("\"content\": \"".data ++ (a :: body.take n) ++ [b, '"', d], rest)
                    else none))

/-- `parseMalformedJson(jsonText)`. -/
def parseMalformedJson (jsonText : List Char) : Except String Json :=
  let f1 := replaceAll quoteKeyAt jsonText
  let f2 := replaceAll quoteValueAt f1
  let f3 := replaceAll (betweenAt ']' '[') (replaceAll (betweenAt '}' '{') f2)
  let f4 := replaceAll (betweenAt '"' '"') f3
  let f5 := replaceAll (beforeKeyAt "content")
    (replaceAll (beforeKeyAt "path") (replaceAll (beforeKeyAt "type") f4))
  match malformedContentLoop maxStringLength f5 0 with
  | .error e => .error e
  | .ok f6 =>
    let f65 := replaceAll looseContentAt f6
    let f7 := replaceAll (commaBefore (fun c => c = '}' ∨ c = ']')) f65
    jsonParse (f7 ++ closers (scan f7))

/-! ## `parseAIResponse` -/

/-- The `strategies` array, each applied to `jsonText`. -/
def strategies : List (List Char → Except String Json) :=
  [ jsonParse,
    fun t => jsonParse (cleanJsonString t),
    parseJsonWithContentFix,
    parseLargeJsonResponse,
    parseMalformedJson ]

/-- The strategy loop: the first strategy that does not throw gives
`parsed`; the error of the last strategy is rethrown. -/
def runStrategies (jsonText : List Char) :
    List (List Char → Except String Json) → Except String Json
  | [] => .ok .null
  | [s] => s jsonText
  | s :: rest =>
    match s jsonText with
    | .ok v => .ok v
    | .error _ => runStrategies jsonText rest

/-- `['create_file', 'edit_file'].includes(action.type)`. -/
def needsContent (type : Option Json) : Bool :=
  match type with
  | some (.str s) => s = "create_file".data || s = "edit_file".data
  | _ => false

/-- Text of `${action.type}` for a type that passed `includes`. -/
def typeText (type : Option Json) : String :=
  match type with
  | some (.str s) => String.mk s
  | _ => ""

/-- Body of the `for (const action of parsed.actions)` loop. -/
def validateAction (action : Json) : Except String Unit :=
  match getProp action "type" with
  | .error e => .error e
  | .ok type =>
    if !truthy type then .error "Invalid action: missing type or path"
    else
      match getProp action "path" with
      | .error e => .error e
      | .ok path =>
        if !truthy path then .error "Invalid action: missing type or path"
        else
          match getProp action "content" with
          | .error e => .error e
          | .ok content =>
            if needsContent type && !truthy content then
              .error ("Invalid action: " ++ typeText type ++ " requires content")
            else .ok ()

/-- The loop over the actions: the first violation throws. -/
def validateActions : List Json → Except String Unit
  | [] => .ok ()
  | a :: rest =>
    match validateAction a with
    | .error e => .error e
    | .ok _ => validateActions rest

/-- The block `Validate required fields` of `parseAIResponse`. -/
def validateParsed (parsed : Json) : Except String Unit :=
  match getProp parsed "analysis" with
  | .error e => .error e
  | .ok analysis =>
    if !truthy analysis then .error "Missing analysis field in AI response"
    else
      match getProp parsed "actions" with
      | .error e => .error e
      | .ok (some (.arr actions)) => validateActions actions
      | .ok _ => .error "Missing or invalid actions array in AI response"

/-- The `try` block of `parseAIResponse` for a string response. -/
def parseText (aiResponse : List Char) : Except String Json :=
  match runStrategies (extractJsonText aiResponse) strategies with
  | .error e => .error e
  | .ok parsed =>
    match validateParsed parsed with
    | .error e => .error e
    | .ok _ => .ok parsed

/-- `generateFallbackActions(userRequest)`: always the empty array. -/
def generateFallbackActions (_userRequest : List Char) : List Json := []

/-- The object returned by the `catch` block. -/
def fallbackResponse (message : String) (userRequest : List Char) : Json :=
  .obj [ ("analysis".data, .str ("Failed to parse AI response: ".data ++ message.data ++
            ". The AI response contained malformed JSON that could not be parsed.".data)),
         ("actions".data, .arr (generateFallbackActions userRequest)),
         ("explanation".data, .str ("AI response parsing failed due to malformed JSON. No files will be created automatically. Please try your request again or rephrase it.".data)) ]

/-- The `try` block of `parseAIResponse` on any response value: an object
with a truthy `analysis` is returned as it is; a string goes through the
strategies and the validation; anything else falls out of the `try` block
(`undefined`, here `none`). -/
def parseAIResponseTry (aiResponse : Json) : Except String (Option Json) :=
  match aiResponse with
  | .null => .error "Cannot read properties of null (reading 'analysis')"
  | .obj members => if truthy (lookup "analysis".data members) then .ok (some aiResponse) else .ok none
  | .str text =>
    match parseText text with
    | .error e => .error e
    | .ok parsed => .ok (some parsed)
  | _ => .ok none

/-- `parseAIResponse(aiResponse)`: the `try` block, and the `catch` block
that turns every exception into the fallback response. The result is
`.error` only if an exception leaves the function. -/
def parseAIResponse (aiResponse : Json) : Except String (Option Json) :=
  match parseAIResponseTry aiResponse with
  | .ok r => .ok r
  | .error message =>
    .ok (some (fallbackResponse message
      (match aiResponse with
        | .str text => text
        | _ => "Unknown request".data)))

/-! ## `JSON.stringify` -/

/-- Lower-case hexadecimal digit. -/
def hexDigit (n : Nat) : Char :=
  if n < 10 then Char.ofNat (48 + n) else Char.ofNat (87 + n)

/-- `QuoteJSONString` on one character: the two-character escapes, `\u00XX`
for the other control characters, the character itself otherwise. -/
def escapeChar (c : Char) : List Char :=
  if c = '"' then ['\\', '"']
  else if c = '\\' then ['\\', '\\']
  else if c = Char.ofNat 8 then ['\\', 'b']
  else if c = Char.ofNat 12 then ['\\', 'f']
  else if c = '\n' then ['\\', 'n']
  else if c = '\r' then ['\\', 'r']
  else if c = '\t' then ['\\', 't']
  else if c.toNat < 32 then ['\\', 'u', '0', '0', hexDigit (c.toNat / 16), hexDigit (c.toNat % 16)]
  else [c]

/-- The characters between the quotes of a serialised string. -/
def escapeString (s : List Char) : List Char := (s.map escapeChar).flatten

/-- `"..."` for a string. -/
def quoteString (s : List Char) : List Char := '"' :: escapeString s ++ ['"']

mutual
/-- `JSON.stringify(value)` without indentation, for values made of strings,
booleans, `null`, arrays and objects. (A number is written as its
mantissa and decimal exponent; the shortest-digits rendering of doubles is
outside the model and no statement below involves a number.) -/
def jsonStringify : Json → List Char
  | .null => "null".data
  | .bool true => "true".data
  | .bool false => "false".data
  | .num negative m e =>
    (if negative then ['-'] else []) ++ Js.ofNat m ++ 'e' :: Js.ofInt e
  | .str s => quoteString s
  | .arr xs => '[' :: stringifyElements xs ++ [']']
  | .obj members => '{' :: stringifyMembers members ++ ['}']
/-- The elements of an array, separated by commas. -/
def stringifyElements : List Json → List Char
  | [] => []
  | [x] => jsonStringify x
  | x :: y :: rest => jsonStringify x ++ ',' :: stringifyElements (y :: rest)
/-- The members of an object, separated by commas. -/
def stringifyMembers : List (List Char × Json) → List Char
  | [] => []
  | [(k, v)] => quoteString k ++ ':' :: jsonStringify v
  | (k, v) :: kv :: rest =>
    quoteString k ++ ':' :: jsonStringify v ++ ',' :: stringifyMembers (kv :: rest)
end

mutual
/-- The value contains no number. -/
def numFree : Json → Bool
  | .num _ _ _ => false
  | .arr xs => numFreeList xs
  | .obj members => numFreeMembers members
  | _ => true
/-- No element contains a number. -/
def numFreeList : List Json → Bool
  | [] => true
  | x :: rest => numFree x && numFreeList rest
/-- No member value contains a number. -/
def numFreeMembers : List (List Char × Json) → Bool
  | [] => true
  | (_, v) :: rest => numFree v && numFreeMembers rest
end

mutual
/-- Nesting of parser calls needed to read back the serialisation of a
value. -/
def parseCost : Json → Nat
  | .arr xs => 1 + elementsCost xs
  | .obj members => 1 + membersCost members
  | _ => 1
/-- Nesting needed for the elements of an array. -/
def elementsCost : List Json → Nat
  | [] => 0
  | x :: rest => 1 + max (parseCost x) (elementsCost rest)
/-- Nesting needed for the members of an object. -/
def membersCost : List (List Char × Json) → Nat
  | [] => 0
  | (_, v) :: rest => 1 + max (parseCost v) (membersCost rest)
end

/-- A response whose serialisation is wrapped in a `json` code fence with
prose before and after. -/
def fenced (before : List Char) (v : Json) (after : List Char) : List Char :=
  before ++ fence ++ "json\n".data ++ jsonStringify v ++ '\n' :: fence ++ after

/-- A small well-formed response. -/
def sampleResponse : Json :=
  .obj [ ("analysis".data, .str "x".data), ("actions".data, .arr []),
         ("explanation".data, .str "none".data) ]

/-! ## Statements about parsed responses -/

/-- The shape that the validation block of `parseAIResponse` enforces: an
object with a truthy `analysis`, an array `actions`, and in every action a
truthy `type`, a truthy `path` and, for `create_file` and `edit_file`, a
truthy `content` (truthy excludes the absent member, `null`, `false`, `0`
and the empty string). -/
def Validated (v : Json) : Prop :=
  ∃ members actions, v = .obj members ∧
    truthy (lookup "analysis".data members) = true ∧
    lookup "actions".data members = some (.arr actions) ∧
    ∀ a ∈ actions, ∃ fields, a = .obj fields ∧
      truthy (lookup "type".data fields) = true ∧
      truthy (lookup "path".data fields) = true ∧
      (needsContent (lookup "type".data fields) = true →
        truthy (lookup "content".data fields) = true)

/-- The truncated response of the specification: two `}` and one `]` are
missing. -/
def truncatedExample : List Char :=
  "\x7b\"analysis\":\"x\",\"actions\":[\x7b\"type\":\"create_file\",\"path\":\"a.js\",\"content\":\"1\"".data

/-- The response the truncated example was cut from. -/
def truncatedExampleValue : Json :=
  .obj [ ("analysis".data, .str "x".data),
         ("actions".data, .arr [ .obj [ ("type".data, .str "create_file".data),
                                        ("path".data, .str "a.js".data),
                                        ("content".data, .str "1".data) ] ]) ]

/-- A well-formed response whose content holds quotes, braces, a code fence
and commas before closing brackets. -/
def trickyResponse : Json :=
  .obj [ ("analysis".data, .str "x".data),
         ("actions".data, .arr [ .obj [ ("type".data, .str "create_file".data),
                                        ("path".data, .str "a.js".data),
                                        ("content".data,
                                          .str "f(\"\x7b,\x7d\"); // ```json [1,]\n".data) ] ]),
         ("explanation".data, .str "e".data) ]

/-- The `explanation` string of a returned response. -/
def explanationOf (r : Except String (Option Json)) : Option (List Char) :=
  match r with
  | .ok (some (.obj members)) =>
    match lookup "explanation".data members with
    | some (.str s) => some s
    | _ => none
  | _ => none

/-! ## `processRequest` -/

/-- The collaborators of one `processRequest` call, each given by its
outcome. `prepare` stands for steps 1 to 3 and the prompt construction (the
`relevantFiles` of the retrieved context, or the exception they raise);
`aiService` is `options.aiService` (absent, or the outcome of racing it
against the 120 s timer: the resolved value, or the message of the rejection,
which for the timer is `AI service timeout - response too large or slow`);
`approved` is what the confirmation request resolves to; `updateSession` is
step 8. Step 7 (`updateIndexForChanges`) catches its own errors and touches
the index only, so it does not appear. -/
structure Pipeline where
  userRequest : List Char
  modelName : List Char
  prepare : Except String (List String)
  aiService : Option (Except String Json)
  approved : Bool
  updateSession : Except String Unit

/-- The message of the timer that `callAIService` races the provider
against. -/
def timeoutMessage : String := "AI service timeout - response too large or slow"

/-- `callAIService(systemPrompt, userRequest, options)`: the provider's
value, or one of the two structured fallback responses. It never throws. -/
def callAIService (p : Pipeline) : Json :=
  match p.aiService with
  | none =>
    .obj [ ("analysis".data, .str ("AI analysis of: ".data ++ p.userRequest)),
           ("actions".data, .arr []),
           ("explanation".data,
             .str ("AI processed request with ".data ++ p.modelName ++ " model".data)) ]
  | some (.ok response) => response
  | some (.error message) =>
    .obj [ ("analysis".data, .str ("Failed to get AI analysis: ".data ++ message.data)),
           ("actions".data, .arr (generateFallbackActions p.userRequest)),
           ("explanation".data, .str
             "AI service unavailable. Generated basic actions based on request analysis.".data) ]

/-- `generateAIResponse(...)` after the prompt has been built: the `catch`
around `callAIService` is never entered. -/
def generateAIResponse (p : Pipeline) : Json := callAIService p

/-- An action object whose `type` and `path` are strings and whose `content`
is a string or absent, as the typed actions of the safety manager. -/
def toAction (a : Json) : Option SafetyManager.Action :=
  match a with
  | .obj fields =>
    match lookup "type".data fields, lookup "path".data fields, lookup "content".data fields with
    | some (.str t), some (.str path), some (.str c) =>
      some { type := String.mk t, path := String.mk path, content := some (String.mk c) }
    | some (.str t), some (.str path), none =>
      some { type := String.mk t, path := String.mk path, content := none }
    | _, _, _ => none
  | _ => none

/-- The typed actions of an `actions` array, when every element is one. -/
def toActions : List Json → Option (List SafetyManager.Action)
  | [] => some []
  | a :: rest =>
    match toAction a, toActions rest with
    | some x, some xs => some (x :: xs)
    | _, _ => none

/-- `executeOperationsWithDiff(actions, context)`: the results of
`executeActionsSafely`, or, when that throws, one failed result per action. -/
def executeOperationsWithDiff {σ : Type} (env : SafetyManager.Env σ)
    (m : SafetyManager.Manager) (w : σ) (actions : List SafetyManager.Action)
    (relevantFiles : List String) (approved : Bool) :
    (SafetyManager.Manager × σ) × List SafetyManager.ActionResult :=
  match SafetyManager.executeActionsSafely env m w actions (some relevantFiles) approved with
  | (st, .ok results) => (st, results)
  | (st, .error e) =>
    (st, actions.map (fun a =>
      { action := a, executed := false, result := none, error := some e,
        timestamp := env.isoNow st.2 }))

/-- The fields of the object returned by `processRequest` that do not depend
on the clock or on counters. -/
structure ProcessResult where
  success : Bool
  analysis : Option Json
  actions : List SafetyManager.ActionResult
  explanation : Option Json
  error : Option String

/-- Outcome of the model: the returned object, or `unmodelled` when the
parsed `actions` are not typed actions (an array with an element that is not
an object with string `type` and `path`, or a value that is neither an array
nor absent). -/
inductive Outcome where
  | returned (r : ProcessResult)
  | unmodelled

/-- The object of the `catch` block of `processRequest`. -/
def failure (message : String) : Outcome :=
  .returned { success := false, analysis := none, actions := [], explanation := none,
              error := some message }

/-- `processRequest(userRequest, currentFile, options)`, steps 4 to 8 on the
outcome of the preparation. -/
def processRequest {σ : Type} (env : SafetyManager.Env σ) (m : SafetyManager.Manager) (w : σ)
    (p : Pipeline) : (SafetyManager.Manager × σ) × Outcome :=
  match p.prepare with
  | .error e => ((m, w), failure e)
  | .ok relevantFiles =>
    match parseAIResponse (generateAIResponse p) with
    | .error e => ((m, w), failure e)
    | .ok none => ((m, w), failure "Cannot read properties of undefined (reading 'actions')")
    | .ok (some parsed) =>
      match getProp parsed "actions", getProp parsed "analysis", getProp parsed "explanation" with
      | .ok actions, .ok analysis, .ok explanation =>
        match actions with
        | none => ((m, w), failure "Cannot read properties of undefined (reading 'map')")
        | some (.arr items) =>
          match toActions items with
          | none => ((m, w), .unmodelled)
          | some typed =>
            let out := executeOperationsWithDiff env m w typed relevantFiles p.approved
            match p.updateSession with
            | .error e => (out.1, failure e)
            | .ok _ =>
              (out.1, .returned { success := true, analysis := analysis, actions := out.2,
                                  explanation := explanation, error := none })
        | some _ => ((m, w), .unmodelled)
      | .error e, _, _ => ((m, w), failure e)
      | _, .error e, _ => ((m, w), failure e)
      | _, _, .error e => ((m, w), failure e)

/-- A request whose provider call runs into the 120 s timeout, every other
collaborator succeeding. -/
def timedOutRequest : Pipeline :=
  { userRequest := "add a button".data, modelName := "default".data,
    prepare := .ok ["a.txt"], aiService := some (.error timeoutMessage),
    approved := true, updateSession := .ok () }

/-- The `success` flag of an outcome. -/
def Outcome.success? : Outcome → Option Bool
  | .returned r => some r.success
  | .unmodelled => none

/-- The `error` message of an outcome. -/
def Outcome.error? : Outcome → Option String
  | .returned r => r.error
  | .unmodelled => none

/-- The `analysis` string of an outcome. -/
def Outcome.analysis? : Outcome → Option (List Char)
  | .returned r =>
    match r.analysis with
    | some (.str s) => some s
    | _ => none
  | .unmodelled => none

/-- The number of action results of an outcome. -/
def Outcome.actionCount? : Outcome → Option Nat
  | .returned r => some r.actions.length
  | .unmodelled => none

end Agent

namespace Agent

/-- A response cut off inside a string literal: one object and one array are
still open, and so is the string `"b`. -/
def cutInsideString : List Char := "\x7b\"a\": [\"b".data

/-- A response cut off right after a backslash that stands outside any
string literal. -/
def cutAfterBackslash : List Char := "[1,\\".data

/-- A text whose last character is a blank that follows a `}`; one bracket is
unclosed. -/
def cutBeforeBlank : List Char := "[\x7b\x7d ".data

/-- A response cut off between two array elements. -/
def cutBetweenElements : List Char := "\x7b\"a\": [1, 2".data

end Agent

namespace Agent

/-- A structured response whose `actions` member is a string, not an array. -/
def actionsNotArray : Json :=
  .obj [ ("analysis".data, .str "done".data), ("actions".data, .str "none".data) ]

/-- A structured response whose only action is a `create_file` without
`content`. -/
def createWithoutContent : Json :=
  .obj [ ("analysis".data, .str "done".data),
         ("actions".data, .arr [ .obj [ ("type".data, .str "create_file".data),
                                        ("path".data, .str "new.txt".data) ] ]) ]

/-- A request whose provider hands back the structured response
`createWithoutContent`. -/
def structuredRequest : Pipeline :=
  { userRequest := "add a file".data, modelName := "default".data,
    prepare := .ok ["new.txt"], aiService := some (.ok createWithoutContent),
    approved := true, updateSession := .ok () }

/-- The `executed` flags of the action results of an outcome. -/
def Outcome.executed? : Outcome → Option (List Bool)
  | .returned r => some (r.actions.map (fun a => a.executed))
  | .unmodelled => none

end Agent

namespace SafetyManager

/-- World in which the three files created by `sampleStack` exist. -/
def historyWorld : MemFs :=
  { files := [("ws/x.txt", "1"), ("ws/y.txt", "2"), ("ws/z.txt", "3")], dirs := [],
    unwritable := [], clock := 5 }

/-- Manager of the workspace `ws` whose undo history is `sampleStack`
(`x.txt` created first, `z.txt` last). -/
def historyManager : Manager :=
  { Manager.new memEnv "ws" with undoStack := sampleStack }

end SafetyManager

namespace SafetyManager

/-- `executeActionWithBackup(action)` followed, when it did not throw, by
`undoLastAction()`. -/
def executeThenUndo {σ : Type} (env : Env σ) (m : Manager) (w : σ) (action : Action) :
    (Manager × σ) × Except String (Option UndoResult) :=
  match executeActionWithBackup env m w action with
  | (st, .ok _) => undoLastAction env st.1 st.2
  | (st, .error e) => (st, .error e)

/-- Undo history of ten file creations `f0.txt` to `f9.txt`, none with a
backup: the stack is at its capacity. -/
def fullStack : List UndoEntry :=
  (List.range 10).map (fun i =>
    { action := ⟨"create_file", "f" ++ toString i ++ ".txt", some ""⟩, backup := none,
      timestamp := toString i })

/-- Manager of the workspace `ws` whose undo stack is `fullStack`. -/
def fullManager : Manager :=
  { Manager.new memEnv "ws" with undoStack := fullStack }

/-- The action `edit_file` that overwrites `a.txt` with `new`. -/
def editSample : Action := ⟨"edit_file", "a.txt", some "new"⟩

/-- World in which `ws/a.txt` exists with content `old` and the path of its
backup copy refuses writes. -/
def refusedWorld : MemFs :=
  { files := [("ws/a.txt", "old")], dirs := [],
    unwritable := ["ws/.ai-backups/a.txt_5.backup"], clock := 5 }

end SafetyManager

namespace Js

/-- `s.includes(sub)`. -/
def includes (s sub : List Char) : Bool :=
  s.tails.any (fun t => (dropLiteral sub t).isSome)

/-- `s.endsWith(suffix)`. -/
def endsWith (s suffix : List Char) : Bool :=
  decide (s.drop (s.length - suffix.length) = suffix)

/-- Line terminators, the characters that `.` of a regular expression without
the `s` flag does not match. -/
def isLineTerminator (c : Char) : Bool :=
  c.toNat = 10 ∨ c.toNat = 13 ∨ c.toNat = 0x2028 ∨ c.toNat = 0x2029

end Js

namespace Indexer.Enhanced

/-! ## Ignore patterns of `EnhancedCodebaseIndexer` -/

/-- `this.ignorePatterns` as the constructor sets it. -/
def ignorePatterns : List (List Char) :=
  [ "node_modules".data, ".git".data, ".vscode".data, ".idea".data, "dist".data, "build".data,
    "coverage".data, ".next".data, ".nuxt".data, ".cache".data, "tmp".data, "temp".data,
    ".DS_Store".data, "Thumbs.db".data, "*.log".data, "*.lock".data, "package-lock.json".data,
    "yarn.lock".data, "pnpm-lock.yaml".data, ".env.local".data, ".env.production".data,
    ".env.staging".data, "*.min.js".data, "*.min.css".data, "*.bundle.js".data,
    "*.chunk.js".data, "*.map".data, "*.d.ts".data, "*.generated.*".data ]

/-- Element of the regular expression built from a pattern: `.` (any
character but a line terminator), `.*`, or a literal character. -/
inductive Atom where
  | any
  | anyStar
  | lit (c : Char)
deriving DecidableEq, Repr

/-- `new RegExp(pattern.replace(/\*/g, '.*'))` for a pattern made of `*`, `.`
and characters that are no regular-expression operators (true of every entry
of `ignorePatterns`): each `*` has become `.*`, each `.` of the pattern is the
unescaped any-character, everything else is literal. -/
def toRegex (pattern : List Char) : List Atom :=
  pattern.map (fun c => if c = '*' then .anyStar else if c = '.' then .any else .lit c)

/-- `.*` followed by the continuation `k`: `k` succeeds here or after some
characters that are no line terminators. -/
def starThen (k : List Char → Bool) : List Char → Bool
  | [] => k []
  | c :: cs => k (c :: cs) || (!Js.isLineTerminator c && starThen k cs)

/-- The expression matches a prefix of the text. -/
def matchHere : List Atom → List Char → Bool
  | [], _ => true
  | .any :: rest, text =>
    match text with
    | c :: cs => !Js.isLineTerminator c && matchHere rest cs
    | [] => false
  | .anyStar :: rest, text => starThen (matchHere rest) text
  | .lit a :: rest, text =>
    match text with
    | c :: cs => c = a && matchHere rest cs
    | [] => false

/-- `regex.test(text)` for an expression without anchors: a match may start
at any position. -/
def regexTest (regex : List Atom) (text : List Char) : Bool :=
  text.tails.any (matchHere regex)

/-- The body of the loop of `shouldIgnore` for one pattern. -/
def patternHits (normalizedPath pattern : List Char) : Bool :=
  if pattern.contains '*' then regexTest (toRegex pattern) normalizedPath
  else Js.includes normalizedPath (Js.toLowerCase pattern)

/-- `shouldIgnore(filePath)`. -/
def shouldIgnore (filePath : List Char) : Bool :=
  let normalizedPath := Js.toLowerCase (filePath.map (fun c => if c = '\\' then '/' else c))
  ignorePatterns.any (patternHits normalizedPath)

/-- The patterns of `ignorePatterns` on whose account `shouldIgnore` would
return `true` for the path. -/
def hittingPatterns (filePath : List Char) : List (List Char) :=
  ignorePatterns.filter
    (patternHits (Js.toLowerCase (filePath.map (fun c => if c = '\\' then '/' else c))))

end Indexer.Enhanced

namespace Js

/-! ## `crypto.createHash('md5').update(text).digest('hex')` -/

/-- UTF-8 bytes of one character. -/
def utf8Bytes (c : Char) : List Nat :=
  let n := c.toNat
  if n < 0x80 then [n]
  else if n < 0x800 then [0xC0 + n / 64, 0x80 + n % 64]
  else if n < 0x10000 then [0xE0 + n / 4096, 0x80 + n / 64 % 64, 0x80 + n % 64]
  else [0xF0 + n / 262144, 0x80 + n / 4096 % 64, 0x80 + n / 64 % 64, 0x80 + n % 64]

/-- The per-round shift amounts of MD5. -/
def md5Shifts : List Nat :=
  [ 7, 12, 17, 22, 7, 12, 17, 22, 7, 12, 17, 22, 7, 12, 17, 22,
    5, 9, 14, 20, 5, 9, 14, 20, 5, 9, 14, 20, 5, 9, 14, 20,
    4, 11, 16, 23, 4, 11, 16, 23, 4, 11, 16, 23, 4, 11, 16, 23,
    6, 10, 15, 21, 6, 10, 15, 21, 6, 10, 15, 21, 6, 10, 15, 21 ]

/-- The per-round constants of MD5, `floor (2^32 * |sin (i + 1)|)`. -/
def md5Constants : List Nat :=
  [ 0xd76aa478, 0xe8c7b756, 0x242070db, 0xc1bdceee, 0xf57c0faf, 0x4787c62a, 0xa8304613,
    0xfd469501, 0x698098d8, 0x8b44f7af, 0xffff5bb1, 0x895cd7be, 0x6b901122, 0xfd987193,
    0xa679438e, 0x49b40821, 0xf61e2562, 0xc040b340, 0x265e5a51, 0xe9b6c7aa, 0xd62f105d,
    0x02441453, 0xd8a1e681, 0xe7d3fbc8, 0x21e1cde6, 0xc33707d6, 0xf4d50d87, 0x455a14ed,
    0xa9e3e905, 0xfcefa3f8, 0x676f02d9, 0x8d2a4c8a, 0xfffa3942, 0x8771f681, 0x6d9d6122,
    0xfde5380c, 0xa4beea44, 0x4bdecfa9, 0xf6bb4b60, 0xbebfbc70, 0x289b7ec6, 0xeaa127fa,
    0xd4ef3085, 0x04881d05, 0xd9d4d039, 0xe6db99e5, 0x1fa27cf8, 0xc4ac5665, 0xf4292244,
    0x432aff97, 0xab9423a7, 0xfc93a039, 0x655b59c3, 0x8f0ccc92, 0xffeff47d, 0x85845dd1,
    0x6fa87e4f, 0xfe2ce6e0, 0xa3014314, 0x4e0811a1, 0xf7537e82, 0xbd3af235, 0x2ad7d2bb,
    0xeb86d391 ]

/-- Rotation of a 32-bit word to the left. -/
def rotl32 (x c : Nat) : Nat := (x <<< c ||| x >>> (32 - c)) % 4294967296

/-- The four state words of MD5. -/
structure Md5State where
  a : Nat
  b : Nat
  c : Nat
  d : Nat
deriving DecidableEq, Repr

/-- One of the 64 operations on a block of sixteen words. -/
def md5Step (block : List Nat) (st : Md5State) (i : Nat) : Md5State :=
  let nb := st.b ^^^ 0xffffffff
  let nd := st.d ^^^ 0xffffffff
  let f :=
    if i < 16 then (st.b &&& st.c) ||| (nb &&& st.d)
    else if i < 32 then (st.d &&& st.b) ||| (nd &&& st.c)
    else if i < 48 then st.b ^^^ st.c ^^^ st.d
    else st.c ^^^ (st.b ||| nd)
  let g :=
    if i < 16 then i
    else if i < 32 then (5 * i + 1) % 16
    else if i < 48 then (3 * i + 5) % 16
    else (7 * i) % 16
  let sum := (f + st.a + md5Constants.getD i 0 + block.getD g 0) % 4294967296
  { a := st.d, b := (st.b + rotl32 sum (md5Shifts.getD i 0)) % 4294967296, c := st.b, d := st.c }

/-- A little-endian word from four bytes. -/
def wordOfBytes (bs : List Nat) : Nat :=
  bs.getD 0 0 + 256 * bs.getD 1 0 + 65536 * bs.getD 2 0 + 16777216 * bs.getD 3 0

/-- The sixteen words of a block of 64 bytes. -/
def wordsOfBlock (block : List Nat) : List Nat :=
  (List.range 16).map (fun j => wordOfBytes ((block.drop (4 * j)).take 4))

/-- The state after one block. -/
def md5Block (st : Md5State) (block : List Nat) : Md5State :=
  let r := (List.range 64).foldl (md5Step (wordsOfBlock block)) st
  { a := (st.a + r.a) % 4294967296, b := (st.b + r.b) % 4294967296,
    c := (st.c + r.c) % 4294967296, d := (st.d + r.d) % 4294967296 }

/-- The state after all blocks of the padded message (`n` blocks of 64
bytes). -/
def md5Blocks : Nat → Md5State → List Nat → Md5State
  | 0, st, _ => st
  | n + 1, st, bytes => md5Blocks n (md5Block st (bytes.take 64)) (bytes.drop 64)

/-- The message followed by `0x80`, zeros up to 56 modulo 64, and the bit
length as eight little-endian bytes. -/
def md5Pad (bytes : List Nat) : List Nat :=
  let len := bytes.length
  let zeros := (119 - len % 64) % 64
  bytes ++ [0x80] ++ List.replicate zeros 0 ++
    (List.range 8).map (fun j => (8 * len) / 256 ^ j % 256)

/-- Two lower-case hexadecimal digits of a byte. -/
def hexByte (b : Nat) : List Char :=
  [(Nat.toDigits 16 (b / 16)).getD 0 '0', (Nat.toDigits 16 (b % 16)).getD 0 '0']

/-- Little-endian hexadecimal form of a word. -/
def hexWord (x : Nat) : List Char :=
  hexByte (x % 256) ++ hexByte (x / 256 % 256) ++ hexByte (x / 65536 % 256) ++
    hexByte (x / 16777216 % 256)

/-- The hexadecimal MD5 digest of a text (its bytes are its UTF-8 form). -/
def md5 (text : List Char) : List Char :=
  let padded := md5Pad (text.flatMap utf8Bytes)
  let st := md5Blocks (padded.length / 64)
    { a := 0x67452301, b := 0xefcdab89, c := 0x98badcfe, d := 0x10325476 } padded
  hexWord st.a ++ hexWord st.b ++ hexWord st.c ++ hexWord st.d

end Js

namespace Js

/-! ## `Map` objects and paths -/

/-- `map.get(key)` on a `Map` kept as the list of its entries in insertion
order. -/
def mapGet {κ α : Type} [DecidableEq κ] (m : List (κ × α)) (key : κ) : Option α :=
  (m.find? (fun kv => kv.1 = key)).map Prod.snd

/-- `map.set(key, value)`: an existing entry keeps its position. -/
def mapSet {κ α : Type} [DecidableEq κ] (m : List (κ × α)) (key : κ) (value : α) :
    List (κ × α) :=
  if m.any (fun kv => kv.1 = key) then m.map (fun kv => if kv.1 = key then (key, value) else kv)
  else m ++ [(key, value)]

/-- `map.delete(key)`. -/
def mapDelete {κ α : Type} [DecidableEq κ] (m : List (κ × α)) (key : κ) : List (κ × α) :=
  m.filter (fun kv => kv.1 ≠ key)

/-- `path.join(a, b)` on POSIX for two normalised, non-empty paths without
`.` and `..` segments, `a` without trailing and `b` without leading slash. -/
def pathJoin (a b : List Char) : List Char := a ++ '/' :: b

/-- `path.basename(p)` on POSIX for a path without trailing slash. -/
def basename (p : List Char) : List Char := (p.reverse.takeWhile (fun c => c ≠ '/')).reverse

/-- `path.extname(name)` on POSIX for a name without slash: the part from the
last dot on, unless there is no dot, the last dot is the first character, or
the name is `..`. -/
def extname (name : List Char) : List Char :=
  let ext := ('.' :: (name.reverse.takeWhile (fun c => c ≠ '.')).reverse)
  if ¬ name.contains '.' then []
  else if ext.length = name.length then []
  else if name = ['.', '.'] then []
  else ext

end Js

namespace Indexer

/-! ## The index of `CodebaseIndexer` -/

/-- The disk as the indexer reads it during one call: the text of every
readable file under its full path, the directories, and the clock. -/
structure World where
  files : List (List Char × List Char)
  dirs : List (List Char)
  clock : Nat
deriving DecidableEq, Repr

/-- `fs.readFile(fullPath, 'utf8')`. -/
def World.readFile (w : World) (fullPath : List Char) : Except String (List Char) :=
  match Js.mapGet w.files fullPath with
  | some content => .ok content
  | none =>
    if w.dirs.contains fullPath then .error "EISDIR: illegal operation on a directory, read"
    else .error "ENOENT: no such file or directory"

/-- `fs.pathExists(fullPath)`. -/
def World.pathExists (w : World) (fullPath : List Char) : Bool :=
  (Js.mapGet w.files fullPath).isSome || w.dirs.contains fullPath

/-- `(await fs.stat(fullPath)).size` of a file: the length of its UTF-8
form. -/
def World.size (w : World) (fullPath : List Char) : Nat :=
  match Js.mapGet w.files fullPath with
  | some content => (content.flatMap Js.utf8Bytes).length
  | none => 0

/-- Argument of `processFile`; `size` is absent when `updateIndex` builds it. -/
structure FileInfo where
  fullPath : List Char
  relativePath : List Char
  name : List Char
  size : Option Nat
deriving DecidableEq, Repr

/-- Value of the `files` map: `{ ...fileInfo, content, hash, lastModified,
language }`. -/
structure FileRecord where
  info : FileInfo
  content : List Char
  hash : List Char
  lastModified : Nat
  language : List Char
deriving DecidableEq, Repr

/-- `this.index` without the dependency graph (which `buildDependencyGraph`
alone writes, one entry per key of `files`). -/
structure Index where
  files : List (List Char × FileRecord)
  chunks : List (List Char × List Chunk)
  embeddings : List (List Char × Embedding)
  fileHashes : List (List Char × List Char)
  lastIndexed : List (List Char × Nat)
deriving DecidableEq, Repr

/-- The indexer object. -/
structure CodebaseIndexer where
  workspacePath : List Char
  index : Index
  chunkSize : Nat
deriving DecidableEq, Repr

/-- The constructor: `new CodebaseIndexer(workspacePath)`. -/
def CodebaseIndexer.new (workspacePath : List Char) : CodebaseIndexer :=
  { workspacePath := workspacePath
    index := { files := [], chunks := [], embeddings := [], fileHashes := [], lastIndexed := [] }
    chunkSize := 500 }

/-- The table `languageMap` of `detectLanguage`. -/
def languageMap : List (String × String) :=
  [ (".js", "javascript"), (".jsx", "javascript"), (".ts", "typescript"),
    (".tsx", "typescript"), (".py", "python"), (".java", "java"), (".cpp", "cpp"), (".c", "c"),
    (".h", "c"), (".hpp", "cpp"), (".css", "css"), (".scss", "scss"), (".less", "less"),
    (".html", "html"), (".htm", "html"), (".json", "json"), (".xml", "xml"),
    (".yaml", "yaml"), (".yml", "yaml"), (".md", "markdown"), (".txt", "text"),
    (".sh", "shell"), (".bash", "shell"), (".zsh", "shell"), (".fish", "shell"),
    (".ps1", "powershell"), (".bat", "batch"), (".cmd", "batch"), (".vue", "vue"),
    (".svelte", "svelte"), (".php", "php"), (".rb", "ruby"), (".go", "go"), (".rs", "rust"),
    (".swift", "swift"), (".kt", "kotlin"), (".scala", "scala") ]

/-- `detectLanguage(filename)`: `languageMap[ext] || 'text'`. -/
def detectLanguage (filename : List Char) : List Char :=
  match languageMap.find? (fun kv => kv.1.data = Js.toLowerCase (Js.extname filename)) with
  | some kv => kv.2.data
  | none => "text".data

/-- `processFile(fileInfo)`: nothing happens when the file cannot be read
(the `catch` only logs) or when its MD5 digest equals the stored one;
otherwise the record, the chunks, the digest and the time are stored. -/
def processFile (w : World) (ix : CodebaseIndexer) (fileInfo : FileInfo) : CodebaseIndexer :=
  match w.readFile fileInfo.fullPath with
  | .error _ => ix
  | .ok content =>
    let hash := Js.md5 content
    if Js.mapGet ix.index.fileHashes fileInfo.relativePath = some hash then ix
    else
      { ix with index :=
        { files := Js.mapSet ix.index.files fileInfo.relativePath
            { info := fileInfo, content := content, hash := hash, lastModified := w.clock,
              language := detectLanguage fileInfo.name }
          chunks := Js.mapSet ix.index.chunks fileInfo.relativePath
            (generateChunks ix.chunkSize content fileInfo.relativePath)
          embeddings := ix.index.embeddings
          fileHashes := Js.mapSet ix.index.fileHashes fileInfo.relativePath hash
          lastIndexed := Js.mapSet ix.index.lastIndexed fileInfo.relativePath w.clock } }

/-- `generateEmbeddings()`: one `embeddings.set(chunk.id, ...)` per stored
chunk; no entry is ever deleted. -/
def generateEmbeddings (ix : CodebaseIndexer) : CodebaseIndexer :=
  { ix with index :=
    { files := ix.index.files
      chunks := ix.index.chunks
      embeddings := (ix.index.chunks.flatMap Prod.snd).foldl
        (fun e c => Js.mapSet e c.id (createSimpleEmbedding c.content)) ix.index.embeddings
      fileHashes := ix.index.fileHashes
      lastIndexed := ix.index.lastIndexed } }

/-- `indexCodebase()`, given the list `files` that `scanFileTree()` returned:
every file is processed, then the dependency graph (not part of `Index`) and
the embeddings are built. -/
def indexCodebase (w : World) (ix : CodebaseIndexer) (files : List FileInfo) :
    CodebaseIndexer :=
  generateEmbeddings (files.foldl (processFile w) ix)

/-- `updateIndex(changedFiles)`. -/
def updateIndex (w : World) (ix : CodebaseIndexer) (changedFiles : List (List Char)) :
    CodebaseIndexer :=
  generateEmbeddings (changedFiles.foldl (fun i filePath =>
    processFile w i
      { fullPath := Js.pathJoin i.workspacePath filePath, relativePath := filePath,
        name := Js.basename filePath, size := none }) ix)

/-- `getLanguageStats()`: the counts are kept in a plain object, with the
statement form of `createSimpleEmbedding`. -/
def getLanguageStats (ix : CodebaseIndexer) : List (List Char × Freq) :=
  (ix.index.files.map (fun kv => kv.2.language)).foldl addWord []

/-- Object returned by `getIndexStats()`. -/
structure IndexStats where
  totalFiles : Nat
  totalChunks : Nat
  totalEmbeddings : Nat
  languages : List (List Char × Freq)
  lastIndexed : List (List Char × Nat)
deriving DecidableEq, Repr

/-- `getIndexStats()`: the three totals are the `size` of the maps `files`,
`chunks` and `embeddings`. -/
def getIndexStats (ix : CodebaseIndexer) : IndexStats :=
  { totalFiles := ix.index.files.length
    totalChunks := ix.index.chunks.length
    totalEmbeddings := ix.index.embeddings.length
    languages := getLanguageStats ix
    lastIndexed := ix.index.lastIndexed }

/-- The part of the index that `semanticSearch` reads. -/
def CodebaseIndexer.searchIndex (ix : CodebaseIndexer) : SearchIndex :=
  { chunks := ix.index.chunks, embeddings := ix.index.embeddings }

end Indexer

namespace Indexer

/-- Workspace `ws` whose only file `a.js` holds the single line `x`. -/
def firstWorld : World :=
  { files := [("ws/a.js".data, "x".data)], dirs := ["ws".data], clock := 100 }

/-- The same workspace later, `a.js` now holding the two lines `x` and `y`. -/
def secondWorld : World :=
  { files := [("ws/a.js".data, "x\ny".data)], dirs := ["ws".data], clock := 200 }

/-- What `scanFileTree()` returns for `firstWorld`. -/
def firstScan : List FileInfo :=
  [ { fullPath := "ws/a.js".data, relativePath := "a.js".data, name := "a.js".data,
      size := some 1 } ]

/-- The indexer after `indexCodebase()` in `firstWorld` and
`updateIndex(['a.js'])` in `secondWorld`. -/
def reindexed : CodebaseIndexer :=
  updateIndex secondWorld (indexCodebase firstWorld (CodebaseIndexer.new "ws".data) firstScan)
    ["a.js".data]

/-- The ids of the chunks stored for all files. -/
def chunkIds (ix : CodebaseIndexer) : List (List Char) :=
  (ix.index.chunks.flatMap Prod.snd).map (fun c => c.id)

end Indexer

namespace Indexer.Enhanced

/-! ## The index of `EnhancedCodebaseIndexer` -/

/-- The lists of strings in the object returned by
`extractInlineDocumentation` (its `readme` and `intent` members are left
out). -/
structure Documentation where
  comments : List (List Char)
  docstrings : List (List Char)
  jsdoc : List (List Char)
  parameters : List (List Char)
  returns : List (List Char)
  throws : List (List Char)
  examples : List (List Char)
  crossReferences : List (List Char)
deriving DecidableEq, Repr

/-- Argument of `processFile`, as `scanFileTree` and
`updateIndexForChangedFiles` build it. Its `lastModified` member (the file's
modification time) is left out: `processFile` overwrites it before anything
reads it. -/
structure FileInfo where
  fullPath : List Char
  relativePath : List Char
  name : List Char
  size : Nat
  isDocumentation : Bool
  language : List Char
  category : List Char
deriving DecidableEq, Repr

/-- Value of the `files` map (without its `complexity` member). -/
structure FileRecord where
  fullPath : List Char
  relativePath : List Char
  name : List Char
  size : Nat
  isDocumentation : Bool
  content : List Char
  hash : List Char
  lastModified : Nat
  language : List Char
  category : List Char
  documentation : Documentation
  imports : List (List Char)
  exports : List (List Char)
deriving DecidableEq, Repr

/-- Chunk of the enhanced indexer: the fields of `Indexer.Chunk` and the
metadata that the embeddings and the search read (the boolean flags and the
complexity of `metadata` are left out). `intent` is `metadata.intent`. -/
structure Chunk where
  base : Indexer.Chunk
  language : List Char
  category : List Char
  purpose : List Char
  functions : List (List Char)
  classes : List (List Char)
  documentation : Documentation
  intent : List (List Char)
  hasCrossReferences : Bool
deriving DecidableEq, Repr

/-- The text-analysis methods of the class, all of them pure functions of
their arguments built from regular expressions and keyword tables. They are
parameters of the model: every statement below holds whatever they return. -/
structure Analysis where
  isDocumentationFile : List Char → Bool
  categorizeFile : List Char → List Char → List Char
  extractInlineDocumentation : List Char → List Char → Documentation
  extractImports : List Char → List Char → List (List Char)
  extractExports : List Char → List Char → List (List Char)
  isSemanticBoundary : List Char → List Char → Bool
  analyzeChunkIntentCategories : List Char → Documentation → List (List Char)
  analyzeChunkIntentPurpose : List Char → Documentation → List Char
  extractFunctions : List Char → List Char → List (List Char)
  extractClasses : List Char → List Char → List (List Char)
  inferPurpose : FileRecord → List Char

/-- Value of the `dependencyGraph` map (`related` and `dependsOn` are always
empty and left out). -/
structure Dependencies where
  imports : List (List Char)
  exports : List (List Char)
  references : List (List Char)
  usedBy : List (List Char)
deriving DecidableEq, Repr

/-- Value of the `embeddings` map: the members that `searchSemantic` and its
callers read. `semanticVector` lists the own keys of the plain object. -/
structure Entry where
  id : List Char
  content : List Char
  filePath : List Char
  startLine : Nat
  endLine : Nat
  purpose : List Char
  functions : List (List Char)
  classes : List (List Char)
  intent : List (List Char)
  documentation : Documentation
  hasCrossReferences : Bool
  semanticVector : List (List Char × Freq)
  dependencies : Option Dependencies
deriving DecidableEq, Repr

/-- `this.index` without the maps `documentation` and `crossReferences`
(written by `extractDocumentation` only, respectively never). The value of
`semanticContext` is reduced to its `purpose`. -/
structure Index where
  files : List (List Char × FileRecord)
  chunks : List (List Char × List Chunk)
  embeddings : List (List Char × Entry)
  dependencyGraph : List (List Char × Dependencies)
  fileHashes : List (List Char × List Char)
  lastIndexed : List (List Char × Nat)
  semanticContext : List (List Char × List Char)
deriving DecidableEq, Repr

/-- The indexer object. -/
structure EnhancedCodebaseIndexer where
  workspacePath : List Char
  index : Index
  maxChunkSize : Nat
deriving DecidableEq, Repr

/-- The constructor: `new EnhancedCodebaseIndexer(workspacePath)`. -/
def EnhancedCodebaseIndexer.new (workspacePath : List Char) : EnhancedCodebaseIndexer :=
  { workspacePath := workspacePath
    index := { files := [], chunks := [], embeddings := [], dependencyGraph := [],
               fileHashes := [], lastIndexed := [], semanticContext := [] }
    maxChunkSize := 300 }

/-- `detectLanguage(filename)`: the table of the basic indexer extended by
three entries. -/
def detectLanguage (filename : List Char) : List Char :=
  match (Indexer.languageMap ++ [(".sql", "sql"), (".graphql", "graphql"),
      (".gql", "graphql")]).find?
      (fun kv => kv.1.data = Js.toLowerCase (Js.extname filename)) with
  | some kv => kv.2.data
  | none => "text".data

/-- `createChunk(content, fileInfo, startLine, endLine)` with its metadata. -/
def createChunk (an : Analysis) (content : List Char) (fileInfo : FileInfo)
    (startLine endLine : Int) : Chunk :=
  let documentation := an.extractInlineDocumentation content fileInfo.language
  { base := Indexer.createChunk content fileInfo.relativePath startLine endLine
    language := fileInfo.language
    category := fileInfo.category
    purpose := an.analyzeChunkIntentPurpose content documentation
    functions := an.extractFunctions content fileInfo.language
    classes := an.extractClasses content fileInfo.language
    documentation := documentation
    intent := an.analyzeChunkIntentCategories content documentation
    hasCrossReferences := decide (documentation.crossReferences.length > 0) }

/-- The guarded push of `generateSemanticChunks`. -/
def pushChunk (an : Analysis) (cur : List Char) (fileInfo : FileInfo) (start i : Nat) :
    List Chunk :=
  if (Js.trim cur).length > 0 then [createChunk an cur fileInfo start ((i : Int) - 1)] else []

/-- The `for` loop and the final push of `generateSemanticChunks`. -/
def generateSemanticChunksLoop (an : Analysis) (maxChunkSize : Nat) (fileInfo : FileInfo) :
    List (List Char) → Nat → List Char → Nat → List Chunk
  | [], i, cur, start => pushChunk an cur fileInfo start i
  | line :: rest, i, cur, start =>
    if (an.isSemanticBoundary line fileInfo.language = true ∧ cur.length > 0) ∨
        cur.length + (line ++ ['\n']).length > maxChunkSize
    then
      pushChunk an cur fileInfo start i ++
        generateSemanticChunksLoop an maxChunkSize fileInfo rest (i + 1) (line ++ ['\n']) i
    else
      generateSemanticChunksLoop an maxChunkSize fileInfo rest (i + 1)
        (cur ++ (line ++ ['\n'])) start

/-- `generateSemanticChunks(content, fileInfo)`. -/
def generateSemanticChunks (an : Analysis) (maxChunkSize : Nat) (content : List Char)
    (fileInfo : FileInfo) : List Chunk :=
  generateSemanticChunksLoop an maxChunkSize fileInfo (Js.splitLines content) 0 [] 0

end Indexer.Enhanced

namespace Indexer.Enhanced

/-- `processFile(fileInfo)`: as in the basic indexer the file is skipped when
it cannot be read or when its digest equals the stored one. The record keeps
`fileInfo` with `language` recomputed from the name. -/
def processFile (an : Analysis) (w : World) (ix : EnhancedCodebaseIndexer)
    (fileInfo : FileInfo) : EnhancedCodebaseIndexer :=
  match w.readFile fileInfo.fullPath with
  | .error _ => ix
  | .ok content =>
    let hash := Js.md5 content
    if Js.mapGet ix.index.fileHashes fileInfo.relativePath = some hash then ix
    else
      { ix with index :=
        { files := Js.mapSet ix.index.files fileInfo.relativePath
            { fullPath := fileInfo.fullPath, relativePath := fileInfo.relativePath,
              name := fileInfo.name, size := fileInfo.size,
              isDocumentation := fileInfo.isDocumentation, content := content, hash := hash,
              lastModified := w.clock, language := detectLanguage fileInfo.name,
              category := fileInfo.category,
              documentation := an.extractInlineDocumentation content fileInfo.language,
              imports := an.extractImports content fileInfo.language,
              exports := an.extractExports content fileInfo.language }
          chunks := Js.mapSet ix.index.chunks fileInfo.relativePath
            (generateSemanticChunks an ix.maxChunkSize content fileInfo)
          embeddings := ix.index.embeddings
          dependencyGraph := ix.index.dependencyGraph
          fileHashes := Js.mapSet ix.index.fileHashes fileInfo.relativePath hash
          lastIndexed := Js.mapSet ix.index.lastIndexed fileInfo.relativePath w.clock
          semanticContext := ix.index.semanticContext } }

/-- `extractEnhancedDependencies(fileInfo)`. -/
def extractEnhancedDependencies (files : List (List Char × FileRecord)) (fileInfo : FileRecord) :
    Dependencies :=
  let others := files.filter (fun kv => kv.1 ≠ fileInfo.relativePath)
  { imports := fileInfo.imports
    exports := fileInfo.exports
    references := (others.filter (fun kv =>
      kv.2.exports.any (fun exp => Js.includes fileInfo.content exp))).map Prod.fst
    usedBy := (others.filter (fun kv =>
      fileInfo.exports.any (fun exp => Js.includes kv.2.content exp))).map Prod.fst }

/-- `buildEnhancedDependencyGraph()`: one `set` per key of `files`. -/
def buildEnhancedDependencyGraph (ix : EnhancedCodebaseIndexer) : EnhancedCodebaseIndexer :=
  { ix with index :=
    { files := ix.index.files
      chunks := ix.index.chunks
      embeddings := ix.index.embeddings
      dependencyGraph := ix.index.files.foldl
        (fun g kv => Js.mapSet g kv.1 (extractEnhancedDependencies ix.index.files kv.2))
        ix.index.dependencyGraph
      fileHashes := ix.index.fileHashes
      lastIndexed := ix.index.lastIndexed
      semanticContext := ix.index.semanticContext } }

/-- `generateSemanticContext()`: one `set` per key of `files`. -/
def generateSemanticContext (an : Analysis) (ix : EnhancedCodebaseIndexer) :
    EnhancedCodebaseIndexer :=
  { ix with index :=
    { files := ix.index.files
      chunks := ix.index.chunks
      embeddings := ix.index.embeddings
      dependencyGraph := ix.index.dependencyGraph
      fileHashes := ix.index.fileHashes
      lastIndexed := ix.index.lastIndexed
      semanticContext := ix.index.files.foldl
        (fun g kv => Js.mapSet g kv.1 (an.inferPurpose kv.2)) ix.index.semanticContext } }

/-- The statement `vector[key] = (vector[key] || 0) + weight` on a plain
object: `__proto__` never becomes an own key, `constructor` and every entry
that already is a string turn into a string, every other key adds up. -/
def addWeight (weight : Nat) (v : List (List Char × Freq)) (key : List Char) :
    List (List Char × Freq) :=
  if key = "__proto__".data then v
  else
    match v.find? (fun kv => kv.1 = key) with
    | some _ =>
      v.map (fun kv =>
        if kv.1 = key then
          (kv.1, match kv.2 with
            | .count n => .count (n + weight)
            | .text => .text)
        else kv)
    | none =>
      if key = "constructor".data then v ++ [(key, .text)]
      else v ++ [(key, .count weight)]

/-- The words of a text that `createSemanticVector` counts:
`text.toLowerCase().split(/\s+/)` restricted to `word.length > 2`. -/
def longWords (text : List Char) : List (List Char) :=
  (Js.splitSpaces (Js.toLowerCase text)).filter (fun word => word.length > 2)

/-- `createSemanticVector(chunk)`. -/
def createSemanticVector (chunk : Chunk) : List (List Char × Freq) :=
  let v1 := chunk.functions.foldl (addWeight 3) []
  let v2 := chunk.classes.foldl (addWeight 4) v1
  let v3 := (chunk.documentation.comments.flatMap longWords).foldl (addWeight 1) v2
  let v4 := (chunk.documentation.jsdoc.flatMap longWords).foldl (addWeight 2) v3
  let v5 := chunk.intent.foldl (addWeight 2) v4
  addWeight 3 v5 chunk.purpose

/-- The object stored by `generateEnhancedEmbeddings` for one chunk of the
file `filePath`. -/
def entryOf (ix : EnhancedCodebaseIndexer) (filePath : List Char) (chunk : Chunk) : Entry :=
  { id := chunk.base.id
    content := chunk.base.content
    filePath := chunk.base.filePath
    startLine := chunk.base.startLine
    endLine := chunk.base.endLine
    purpose :=
      if chunk.purpose ≠ [] then chunk.purpose
      else
        match Js.mapGet ix.index.semanticContext filePath with
        | some p => if p ≠ [] then p else "unknown".data
        | none => "unknown".data
    functions := chunk.functions
    classes := chunk.classes
    intent := chunk.intent
    documentation := chunk.documentation
    hasCrossReferences := chunk.hasCrossReferences
    semanticVector := createSemanticVector chunk
    dependencies := Js.mapGet ix.index.dependencyGraph filePath }

/-- `generateEnhancedEmbeddings()`: one `embeddings.set(chunk.id, ...)` per
stored chunk. -/
def generateEnhancedEmbeddings (ix : EnhancedCodebaseIndexer) : EnhancedCodebaseIndexer :=
  { ix with index :=
    { files := ix.index.files
      chunks := ix.index.chunks
      embeddings := (ix.index.chunks.flatMap (fun kv => kv.2.map (fun c => (kv.1, c)))).foldl
        (fun e pc => Js.mapSet e pc.2.base.id (entryOf ix pc.1 pc.2)) ix.index.embeddings
      dependencyGraph := ix.index.dependencyGraph
      fileHashes := ix.index.fileHashes
      lastIndexed := ix.index.lastIndexed
      semanticContext := ix.index.semanticContext } }

end Indexer.Enhanced

namespace Indexer.Enhanced

/-- The body of the loop of `updateIndexForChangedFiles` for one path: an
existing path is processed, for a missing one the entries under the key
`filePath` are deleted from seven maps, `embeddings` among them. -/
def updateStep (an : Analysis) (w : World) (ix : EnhancedCodebaseIndexer)
    (filePath : List Char) : EnhancedCodebaseIndexer :=
  let fullPath := Js.pathJoin ix.workspacePath filePath
  if w.pathExists fullPath then
    processFile an w ix
      { fullPath := fullPath, relativePath := filePath, name := Js.basename filePath,
        size := w.size fullPath,
        isDocumentation := an.isDocumentationFile (Js.basename filePath),
        language := detectLanguage (Js.basename filePath),
        category := an.categorizeFile filePath (Js.basename filePath) }
  else
    { ix with index :=
      { files := Js.mapDelete ix.index.files filePath
        chunks := Js.mapDelete ix.index.chunks filePath
        embeddings := Js.mapDelete ix.index.embeddings filePath
        dependencyGraph := Js.mapDelete ix.index.dependencyGraph filePath
        fileHashes := Js.mapDelete ix.index.fileHashes filePath
        lastIndexed := Js.mapDelete ix.index.lastIndexed filePath
        semanticContext := Js.mapDelete ix.index.semanticContext filePath } }

/-- `updateIndexForChangedFiles(changedFiles)`. -/
def updateIndexForChangedFiles (an : Analysis) (w : World) (ix : EnhancedCodebaseIndexer)
    (changedFiles : List (List Char)) : EnhancedCodebaseIndexer :=
  generateEnhancedEmbeddings (generateSemanticContext an
    (buildEnhancedDependencyGraph (changedFiles.foldl (updateStep an w) ix)))

/-- `updateIndex(changedFiles)`. -/
def updateIndex (an : Analysis) (w : World) (ix : EnhancedCodebaseIndexer)
    (changedFiles : List (List Char)) : EnhancedCodebaseIndexer :=
  updateIndexForChangedFiles an w ix changedFiles

/-- `calculateVectorSimilarity(queryWords, semanticVector)`; `none` stands for
the string that `similarity` becomes once an entry that is a string, or the
inherited member `constructor` or `__proto__`, is added to it. -/
def calculateVectorSimilarity (queryWords : List (List Char))
    (semanticVector : List (List Char × Freq)) : Option Nat :=
  queryWords.foldl (fun acc word =>
    match acc with
    | none => none
    | some s =>
      match semanticVector.find? (fun kv => kv.1 = word) with
      | some (_, .count n) => some (s + n)
      | some (_, .text) => none
      | none =>
        if word = "constructor".data ∨ word = "__proto__".data then none else some s) (some 0)

/-- `list.some(s => s.toLowerCase().includes(queryLower))`. -/
def someIncludes (list : List (List Char)) (queryLower : List Char) : Bool :=
  list.any (fun s => Js.includes (Js.toLowerCase s) queryLower)

/-- The sum of the bonuses that `searchSemantic` adds for matches in the
content and the metadata of an entry. -/
def matchBonus (queryLower : List Char) (e : Entry) : Nat :=
  (if Js.includes (Js.toLowerCase e.content) queryLower then 15 else 0) +
  (if someIncludes e.functions queryLower then 8 else 0) +
  (if someIncludes e.classes queryLower then 8 else 0) +
  (if e.purpose ≠ [] ∧ Js.includes (Js.toLowerCase e.purpose) queryLower then 6 else 0) +
  (if someIncludes e.intent queryLower then 4 else 0) +
  (if someIncludes e.documentation.jsdoc queryLower then 5 else 0) +
  (if someIncludes e.documentation.comments queryLower then 3 else 0) +
  (if someIncludes e.documentation.parameters queryLower then 4 else 0) +
  (if e.hasCrossReferences = true ∧ someIncludes e.documentation.crossReferences queryLower
    then 3 else 0)

/-- The `score` of an entry in `searchSemantic`; `none` is `NaN`, the result
of multiplying a vector similarity that is a string by 10. -/
def scoreOf (queryLower : List Char) (queryWords : List (List Char)) (e : Entry) : Option Nat :=
  match calculateVectorSimilarity queryWords e.semanticVector with
  | none => none
  | some v => some (matchBonus queryLower e + v * 10)

/-- Element of the result of `searchSemantic` (without `snippet` and
`matchType`). -/
structure Hit where
  chunkId : List Char
  score : Nat
  embedding : Entry
deriving DecidableEq, Repr

/-- `searchSemantic(query, options)`: every entry of the embeddings map with
a score above 0, sorted by descending score (stable), cut to `options.limit`
when that is given and not 0. -/
def searchSemantic (ix : EnhancedCodebaseIndexer) (query : List Char) (limit : Option Nat) :
    List Hit :=
  let queryLower := Js.toLowerCase query
  let queryWords := (Js.splitSpaces queryLower).filter (fun word => word.length > 2)
  let results := ix.index.embeddings.filterMap (fun kv =>
    match scoreOf queryLower queryWords kv.2 with
    | some s => if s > 0 then some { chunkId := kv.1, score := s, embedding := kv.2 } else none
    | none => none)
  let sorted := results.insertionSort (fun a b => a.score ≥ b.score)
  match limit with
  | some (n + 1) => sorted.take (n + 1)
  | _ => sorted

/-- `getLanguageStats()`. -/
def getLanguageStats (ix : EnhancedCodebaseIndexer) : List (List Char × Freq) :=
  (ix.index.files.map (fun kv => kv.2.language)).foldl addWord []

/-- `getCategoryStats()`. -/
def getCategoryStats (ix : EnhancedCodebaseIndexer) : List (List Char × Freq) :=
  (ix.index.files.map (fun kv => kv.2.category)).foldl addWord []

/-- Object returned by `getIndexStats()` (without `documentation` and
`lastIndexed`). -/
structure IndexStats where
  totalFiles : Nat
  totalChunks : Nat
  totalEmbeddings : Nat
  languages : List (List Char × Freq)
  categories : List (List Char × Freq)
deriving DecidableEq, Repr

/-- `getIndexStats()`: the totals are the `size` of the maps. -/
def getIndexStats (ix : EnhancedCodebaseIndexer) : IndexStats :=
  { totalFiles := ix.index.files.length
    totalChunks := ix.index.chunks.length
    totalEmbeddings := ix.index.embeddings.length
    languages := getLanguageStats ix
    categories := getCategoryStats ix }

end Indexer.Enhanced

namespace Indexer.Enhanced

/-- The workspace `ws` after `a.js` has been deleted. -/
def goneWorld : World := { files := [], dirs := ["ws".data], clock := 300 }

/-- What `updateIndexForChangedFiles` hands to `processFile` for `a.js` in
`firstWorld`. -/
def sampleInfo (an : Analysis) : FileInfo :=
  { fullPath := "ws/a.js".data, relativePath := "a.js".data, name := "a.js".data, size := 1,
    isDocumentation := an.isDocumentationFile "a.js".data, language := "javascript".data,
    category := an.categorizeFile "a.js".data "a.js".data }

/-- A fresh enhanced indexer after `updateIndex(['a.js'])` in `firstWorld`,
where `a.js` holds the line `x`. -/
def indexedOnce (an : Analysis) : EnhancedCodebaseIndexer :=
  updateIndex an firstWorld (EnhancedCodebaseIndexer.new "ws".data) ["a.js".data]

/-- The same indexer after `a.js` was deleted and `updateIndex(['a.js'])` ran
again. -/
def afterDeletion (an : Analysis) : EnhancedCodebaseIndexer :=
  updateIndex an goneWorld (indexedOnce an) ["a.js".data]

end Indexer.Enhanced

namespace Indexer

/-- A text of two lines of 300 characters each: longer than one chunk of
either indexer. -/
def twoChunkText : List Char :=
  List.replicate 300 'a' ++ '\n' :: List.replicate 300 'b'

/-- Workspace `ws` whose only file `a.js` holds `twoChunkText`. -/
def longWorld : World :=
  { files := [("ws/a.js".data, twoChunkText)], dirs := ["ws".data], clock := 100 }

/-- A fresh basic indexer after `updateIndex(['a.js'])` in `longWorld`. -/
def longIndexed : CodebaseIndexer :=
  updateIndex longWorld (CodebaseIndexer.new "ws".data) ["a.js".data]

/-- A fresh enhanced indexer after `updateIndex(['a.js'])` in `longWorld`. -/
def Enhanced.longIndexed (an : Enhanced.Analysis) : Enhanced.EnhancedCodebaseIndexer :=
  Enhanced.updateIndex an longWorld (Enhanced.EnhancedCodebaseIndexer.new "ws".data)
    ["a.js".data]

end Indexer

namespace Indexer

/-- A word-frequency table as `createSimpleEmbedding` builds it from words
other than `constructor`: distinct keys, every entry a count of at least 1. -/
def Counted (v : List (List Char × Freq)) : Prop :=
  (v.map Prod.fst).Nodup ∧ ∀ kv ∈ v, ∃ n, 1 ≤ n ∧ kv.2 = .count n

/-- The count stored under a word, 0 when there is none. -/
def countOf (v : List (List Char × Freq)) (word : List Char) : Nat :=
  match v.find? (fun kv => kv.1 = word) with
  | some (_, .count n) => n
  | _ => 0

/-- The sum of the squared counts over the keys of a table. -/
def sumSquares (v : List (List Char × Freq)) : Nat :=
  ((v.map Prod.fst).map (fun w => countOf v w * countOf v w)).sum

/-- The value `dot / (sqrt a * sqrt b)` lies in `[0, 1]`, decided in exact
arithmetic: `dot² ≤ a b` with `a b > 0`. -/
def Similarity.inUnitInterval : Similarity → Bool
  | .zero => true
  | .ratio d a b => decide (0 < a * b ∧ d * d ≤ a * b)
  | .nan => false

/-- The value `dot / (sqrt a * sqrt b)` is exactly 1: `dot² = a b` with
`a b > 0`. -/
def Similarity.isOne : Similarity → Bool
  | .ratio d a b => decide (0 < a * b ∧ d * d = a * b)
  | _ => false

/-- The similarity with the two magnitudes exchanged: the same real number. -/
def Similarity.swap : Similarity → Similarity
  | .ratio d a b => .ratio d b a
  | s => s

/-- The magnitude is a number of at least 1. -/
def Magnitude.atLeastOne : Magnitude → Bool
  | .sqrt s => decide (1 ≤ s)
  | .nan => false

/-- The text has a word that counts and no word `constructor`: among the
tokens of `text.toLowerCase().split(/\s+/)` none is `constructor` and at
least one is not `__proto__`. -/
def PlainText (text : List Char) : Prop :=
  "constructor".data ∉ Js.splitSpaces (Js.toLowerCase text) ∧
  ∃ t ∈ Js.splitSpaces (Js.toLowerCase text), t ≠ "__proto__".data

end Indexer

/-! # Part II: theorems -/

namespace Indexer

/-! ## Similarity (C16) and search (C17) -/

/-- C16 (evaluation at the failing input). The texts `" x"` and `" y"` are
non-empty and share no word, but `split(/\s+/)` gives both the empty token,
which becomes a common key: the similarity is `1 / (sqrt 2 * sqrt 2)`, not 0. -/
theorem similarity_leading_space :
    wordsOf " x".data = ["x".data] ∧ wordsOf " y".data = ["y".data] ∧
    commonWords (createSimpleEmbedding " x".data) (createSimpleEmbedding " y".data) = [[]] ∧
    calculateSimilarity (createSimpleEmbedding " x".data) (createSimpleEmbedding " y".data)
      = .ratio 1 2 2 := by
  decide

/-- What the early return does guarantee: embeddings without a common key
have similarity exactly the literal 0, whatever their magnitudes (no
division takes place). -/
theorem calculateSimilarity_no_common_key (e1 e2 : Embedding)
    (h : ∀ w ∈ e1.vector.map Prod.fst, w ∉ e2.vector.map Prod.fst) :
    calculateSimilarity e1 e2 = .zero := by
  have hc : commonWords e1 e2 = [] := by
    unfold commonWords
    apply List.filter_eq_nil_iff.2
    intro w hw
    have hn := h w hw
    intro hcon
    exact hn (List.elem_iff.1 hcon)
  unfold calculateSimilarity
  simp [hc]

/-- Instance of the previous lemma on the texts `x` and `y`. -/
theorem calculateSimilarity_no_common_key_witness :
    calculateSimilarity (createSimpleEmbedding "x".data) (createSimpleEmbedding "y".data)
      = .zero :=
  calculateSimilarity_no_common_key _ _ (by decide)

/-- C17 (evaluation at the failing input). A file named `a:b.js` with content
`hello world` is indexed as one chunk with id `a:b.js:0-0` and one
embedding; the search looks the chunk up under `chunkId.split(':')[0]`, that
is `a`, finds nothing and returns no result although the index holds a chunk
matching the query. -/
theorem semanticSearch_colon_path :
    colonIndex.chunks.map (fun kv => kv.2.map (fun c => (c.id, c.content))) =
      [[("a:b.js:0-0".data, "hello world".data)]] ∧
    colonIndex.embeddings.map Prod.fst = ["a:b.js:0-0".data] ∧
    findChunk colonIndex "a:b.js:0-0".data = none ∧
    semanticSearch colonIndex "hello".data 10 = [] := by
  decide

/-! ## Chunk content (C19) -/

theorem stripSpaces_append (a b : List Char) :
    stripSpaces (a ++ b) = stripSpaces a ++ stripSpaces b := by
  simp [stripSpaces]

theorem stripSpaces_dropWhile (l : List Char) :
    stripSpaces (l.dropWhile Js.isSpace) = stripSpaces l := by
  induction l with
  | nil => rfl
  | cons c cs ih =>
    cases h : Js.isSpace c
    · simp [List.dropWhile, h]
    · simp only [List.dropWhile, h, ih]
      simp [stripSpaces, h]

theorem stripSpaces_trim (l : List Char) : stripSpaces (Js.trim l) = stripSpaces l := by
  have hrev : ∀ x : List Char, stripSpaces x.reverse = (stripSpaces x).reverse := by
    intro x; simp [stripSpaces, List.filter_reverse]
  unfold Js.trim Js.trimEnd Js.trimStart
  rw [hrev, stripSpaces_dropWhile, hrev, List.reverse_reverse, stripSpaces_dropWhile]

theorem stripSpaces_of_trim_empty (l : List Char) (h : ¬ (Js.trim l).length > 0) :
    stripSpaces l = [] := by
  have hnil : Js.trim l = [] := by
    cases ht : Js.trim l with
    | nil => rfl
    | cons c cs => rw [ht] at h; simp at h
  rw [← stripSpaces_trim, hnil]
  rfl

theorem splitLines_ne_nil (s : List Char) : Js.splitLines s ≠ [] := by
  cases s with
  | nil => simp [Js.splitLines]
  | cons c cs =>
    unfold Js.splitLines
    split_ifs
    · simp
    · split <;> simp

theorem flatten_splitLines (s : List Char) :
    ((Js.splitLines s).map (fun l => l ++ ['\n'])).flatten = s ++ ['\n'] := by
  induction s with
  | nil => rfl
  | cons c cs ih =>
    unfold Js.splitLines
    split_ifs with hc
    · simp [ih, hc]
    · cases hs : Js.splitLines cs with
      | nil => exact absurd hs (splitLines_ne_nil cs)
      | cons l ls =>
        rw [hs] at ih
        simp only [List.map_cons, List.flatten_cons, List.cons_append] at ih ⊢
        rw [ih]

theorem generateChunksLoop_content (filePath : List Char) (chunkSize : Nat)
    (lines : List (List Char)) :
    ∀ (i : Nat) (cur : List Char) (start : Nat),
      stripSpaces ((generateChunksLoop filePath chunkSize lines i cur start).map
          Chunk.content).flatten =
        stripSpaces (cur ++ (lines.map (fun l => l ++ ['\n'])).flatten) := by
  induction lines with
  | nil =>
    intro i cur start
    unfold generateChunksLoop
    split_ifs with h
    · simp [stripSpaces_trim]
    · simp only [List.map_nil, List.flatten_nil, List.append_nil,
        stripSpaces_of_trim_empty cur h]
      rfl
  | cons line rest ih =>
    intro i cur start
    unfold generateChunksLoop
    split_ifs with h
    · simp only [List.map_cons, List.flatten_cons, stripSpaces_append, ih, stripSpaces_trim]
    · rw [ih]
      simp only [List.map_cons, List.flatten_cons, List.append_assoc]

/-- C19. Concatenating, in order, the contents of the chunks produced by
`CodebaseIndexer.generateChunks` gives the file content up to whitespace: the
two texts are equal once every whitespace character is deleted. -/
theorem generateChunks_content (chunkSize : Nat) (content filePath : List Char) :
    stripSpaces ((generateChunks chunkSize content filePath).map Chunk.content).flatten =
      stripSpaces content := by
  unfold generateChunks
  rw [generateChunksLoop_content, flatten_splitLines, List.nil_append, stripSpaces_append]
  simp [stripSpaces, Js.isSpace]

/-! ## Chunk ids and ranges (C20, C18) -/

theorem digitChar_decode (k : Nat) (hk : k < 10) :
    (Nat.digitChar k).toNat - 48 = k ∧ Nat.digitChar k ≠ '-' := by
  interval_cases k <;> decide

theorem toDigitsCore_decode (f : Nat) :
    ∀ (n : Nat) (ds : List Char), n < f →
      ∃ pre, Nat.toDigitsCore 10 f n ds = pre ++ ds ∧ decodeDecimal pre = n ∧
        ∀ c ∈ pre, c ≠ '-' := by
  induction f with
  | zero => intro n ds h; omega
  | succ f ih =>
    intro n ds h
    have hd := digitChar_decode (n % 10) (Nat.mod_lt _ (by decide))
    unfold Nat.toDigitsCore
    simp only []
    split_ifs with h0
    · refine ⟨[Nat.digitChar (n % 10)], rfl, ?_, ?_⟩
      · simp only [decodeDecimal, List.foldl_cons, List.foldl_nil, hd.1]
        omega
      · intro c hc
        rw [List.mem_singleton.1 hc]; exact hd.2
    · obtain ⟨pre, h1, h2, h3⟩ := ih (n / 10) (Nat.digitChar (n % 10) :: ds) (by omega)
      refine ⟨pre ++ [Nat.digitChar (n % 10)], ?_, ?_, ?_⟩
      · rw [h1]; simp
      · unfold decodeDecimal at h2 ⊢
        rw [List.foldl_append, h2]
        simp only [List.foldl_cons, List.foldl_nil, hd.1]
        omega
      · intro c hc
        rcases List.mem_append.1 hc with h | h
        · exact h3 c h
        · rw [List.mem_singleton.1 h]; exact hd.2

theorem ofNat_decode (n : Nat) : decodeDecimal (Js.ofNat n) = n ∧ ∀ c ∈ Js.ofNat n, c ≠ '-' := by
  obtain ⟨pre, h1, h2, h3⟩ := toDigitsCore_decode (n + 1) n [] (by omega)
  unfold Js.ofNat Nat.toDigits
  rw [h1, List.append_nil]
  exact ⟨h2, h3⟩

theorem append_dash_inj (l1 : List Char) :
    ∀ (l2 r1 r2 : List Char), (∀ c ∈ l1, c ≠ '-') → (∀ c ∈ l2, c ≠ '-') →
      l1 ++ '-' :: r1 = l2 ++ '-' :: r2 → l1 = l2 := by
  induction l1 with
  | nil =>
    intro l2 r1 r2 _ h2 h
    cases l2 with
    | nil => rfl
    | cons c cs =>
      simp only [List.nil_append, List.cons_append, List.cons.injEq] at h
      exact absurd h.1.symm (h2 c (List.mem_cons_self _ _))
  | cons a as ih =>
    intro l2 r1 r2 h1 h2 h
    cases l2 with
    | nil =>
      simp only [List.nil_append, List.cons_append, List.cons.injEq] at h
      exact absurd h.1 (h1 a (List.mem_cons_self _ _))
    | cons c cs =>
      simp only [List.cons_append, List.cons.injEq] at h
      rw [h.1, ih cs r1 r2 (fun x hx => h1 x (List.mem_cons_of_mem _ hx))
        (fun x hx => h2 x (List.mem_cons_of_mem _ hx)) h.2]

theorem chunkId_first_inj (path : List Char) (a b : Nat) (x y : Int)
    (h : chunkId path (a : Int) x = chunkId path (b : Int) y) : a = b := by
  unfold chunkId at h
  have h1 := List.append_cancel_left h
  simp only [List.cons.injEq, true_and] at h1
  have ha := ofNat_decode a
  have hb := ofNat_decode b
  have : Js.ofNat a = Js.ofNat b := append_dash_inj _ _ _ _ ha.2 hb.2 h1
  rw [← ha.1, ← hb.1, this]

theorem WellRanged.ids_nodup {path : List Char} {lo hi : Nat} {cs : List Chunk}
    (h : WellRanged path lo hi cs) : (cs.map Chunk.id).Nodup := by
  unfold List.Nodup
  rw [List.pairwise_map]
  refine List.Pairwise.imp_of_mem ?_ h.2
  intro c1 c2 h1 h2 hlt hid
  obtain ⟨e1, l1, s1, _⟩ := h.1 c1 h1
  obtain ⟨e2, l2, s2, _⟩ := h.1 c2 h2
  rw [e1, e2] at hid
  have c1s : ((c1.startLine : Int) - 1) = ((c1.startLine - 1 : Nat) : Int) := by omega
  have c2s : ((c2.startLine : Int) - 1) = ((c2.startLine - 1 : Nat) : Int) := by omega
  rw [c1s, c2s] at hid
  have := chunkId_first_inj path _ _ _ _ hid
  omega

theorem trim_nil : Js.trim [] = [] := rfl

theorem length_pos_of_trim {cur : List Char} (h : (Js.trim cur).length > 0) :
    0 < cur.length := by
  by_contra hc
  have : cur = [] := List.length_eq_zero.1 (by omega)
  rw [this, trim_nil] at h
  simp at h

theorem generateChunksLoop_wellRanged (filePath : List Char) (chunkSize : Nat)
    (lines : List (List Char)) :
    ∀ (i : Nat) (cur : List Char) (start : Nat), start ≤ i → (0 < cur.length → start < i) →
      WellRanged filePath start (i + lines.length)
        (generateChunksLoop filePath chunkSize lines i cur start) := by
  induction lines with
  | nil =>
    intro i cur start h1 h2
    unfold generateChunksLoop
    split_ifs with h
    · have := h2 (length_pos_of_trim h)
      refine ⟨?_, List.pairwise_singleton _ _⟩
      intro c hc
      rw [List.mem_singleton.1 hc]
      refine ⟨?_, ?_, ?_, ?_⟩
      · simp only []; congr 1; omega
      · simp
      · simp only []; omega
      · simp
    · exact ⟨by simp, List.Pairwise.nil⟩
  | cons line rest ih =>
    intro i cur start h1 h2
    unfold generateChunksLoop
    split_ifs with h
    · have hlt := h2 h.2
      have hrec := ih (i + 1) (line ++ ['\n']) i (by omega) (by intro _; omega)
      refine ⟨?_, ?_⟩
      · intro c hc
        rcases List.mem_cons.1 hc with hc | hc
        · rw [hc]
          refine ⟨?_, ?_, ?_, ?_⟩
          · simp only []; congr 1; omega
          · simp
          · simp only []; omega
          · simp only [List.length_cons]; omega
        · obtain ⟨e, l, s, u⟩ := hrec.1 c hc
          refine ⟨e, by omega, s, ?_⟩
          simp only [List.length_cons]; omega
      · refine List.pairwise_cons.2 ⟨?_, hrec.2⟩
        intro c hc
        have := (hrec.1 c hc).2.1
        simp only []; omega
    · have hrec := ih (i + 1) (cur ++ (line ++ ['\n'])) start (by omega) (by intro _; omega)
      refine ⟨?_, hrec.2⟩
      intro c hc
      obtain ⟨e, l, s, u⟩ := hrec.1 c hc
      refine ⟨e, l, s, ?_⟩
      simp only [List.length_cons]; omega

theorem generateSemanticChunksLoop_wellRanged (isBoundary : List Char → Bool)
    (maxChunkSize : Nat) (filePath : List Char) (lines : List (List Char)) :
    ∀ (i : Nat) (cur : List Char) (start : Nat), start ≤ i → (0 < cur.length → start < i) →
      WellRanged filePath start (i + lines.length)
        (generateSemanticChunksLoop isBoundary maxChunkSize filePath lines i cur start) := by
  have hone : ∀ (i : Nat) (cur : List Char) (start hi : Nat), start ≤ i →
      (0 < cur.length → start < i) → i ≤ hi →
      WellRanged filePath start hi (pushChunk cur filePath start i) := by
    intro i cur start hi h1 h2 h3
    unfold pushChunk
    split_ifs with h
    · have := h2 (length_pos_of_trim h)
      refine ⟨?_, List.pairwise_singleton _ _⟩
      intro c hc
      rw [List.mem_singleton.1 hc]
      unfold createChunk
      refine ⟨?_, ?_, ?_, ?_⟩
      · simp only []; congr 1 <;> omega
      · simp only []; omega
      · simp only []; omega
      · simp only []; omega
    · exact ⟨by simp, List.Pairwise.nil⟩
  induction lines with
  | nil =>
    intro i cur start h1 h2
    unfold generateSemanticChunksLoop
    exact hone i cur start _ h1 h2 (by simp)
  | cons line rest ih =>
    intro i cur start h1 h2
    unfold generateSemanticChunksLoop
    split_ifs with h
    · have hhead := hone i cur start i h1 h2 (le_refl _)
      have hrec := ih (i + 1) (line ++ ['\n']) i (by omega) (by intro _; omega)
      refine ⟨?_, ?_⟩
      · intro c hc
        rcases List.mem_append.1 hc with hc | hc
        · obtain ⟨e, l, s, u⟩ := hhead.1 c hc
          refine ⟨e, l, s, ?_⟩
          simp only [List.length_cons]; omega
        · obtain ⟨e, l, s, u⟩ := hrec.1 c hc
          refine ⟨e, by omega, s, ?_⟩
          simp only [List.length_cons]; omega
      · refine List.pairwise_append.2 ⟨hhead.2, hrec.2, ?_⟩
        intro c1 hc1 c2 hc2
        have a := (hhead.1 c1 hc1).2.2.2
        have b := (hrec.1 c2 hc2).2.1
        omega
    · have hrec := ih (i + 1) (cur ++ (line ++ ['\n'])) start (by omega) (by intro _; omega)
      refine ⟨?_, hrec.2⟩
      intro c hc
      obtain ⟨e, l, s, u⟩ := hrec.1 c hc
      refine ⟨e, l, s, ?_⟩
      simp only [List.length_cons]; omega

/-- C20 (counterexample). The single chunk of the one-line file `abc` records
`startLine = endLine = 1`, but its id is `f.js:0-0`, not `f.js:1-1`: the id
is built from the 0-based indices. The same holds for `createChunk`. -/
theorem chunk_id_not_from_recorded_lines :
    (generateChunks 500 "abc".data "f.js".data).map
        (fun c => (c.id, c.startLine, c.endLine)) = [("f.js:0-0".data, 1, 1)] ∧
    (generateChunks 500 "abc".data "f.js".data).map
        (fun c => decide (c.id = chunkId c.filePath c.startLine c.endLine)) = [false] ∧
    (createChunk "abc".data "f.js".data 0 0).id = "f.js:0-0".data ∧
    (createChunk "abc".data "f.js".data 0 0).startLine = 1 ∧
    (createChunk "abc".data "f.js".data 0 0).endLine = 1 := by
  decide

/-- C20 (amended). In both indexers every chunk's id is
`path:(startLine - 1)-(endLine - 1)`, built from the 0-based indices of the
chunk's first and last line, and the ids of the chunks of one file are
pairwise distinct. -/
theorem chunk_ids (chunkSize maxChunkSize : Nat) (isBoundary : List Char → Bool)
    (content filePath : List Char) :
    (∀ c ∈ generateChunks chunkSize content filePath,
      c.id = chunkId filePath ((c.startLine : Int) - 1) ((c.endLine : Int) - 1)) ∧
    ((generateChunks chunkSize content filePath).map Chunk.id).Nodup ∧
    (∀ c ∈ generateSemanticChunks isBoundary maxChunkSize content filePath,
      c.id = chunkId filePath ((c.startLine : Int) - 1) ((c.endLine : Int) - 1)) ∧
    ((generateSemanticChunks isBoundary maxChunkSize content filePath).map Chunk.id).Nodup := by
  have h1 := generateChunksLoop_wellRanged filePath chunkSize (Js.splitLines content) 0 [] 0
    (le_refl _) (by simp)
  have h2 := generateSemanticChunksLoop_wellRanged isBoundary maxChunkSize filePath
    (Js.splitLines content) 0 [] 0 (le_refl _) (by simp)
  exact ⟨fun c hc => (h1.1 c hc).1, h1.ids_nodup, fun c hc => (h2.1 c hc).1, h2.ids_nodup⟩

theorem trim_pos_of_nonspace (s : List Char) (h : ∃ ch ∈ s, Js.isSpace ch = false) :
    (Js.trim s).length > 0 := by
  by_contra hn
  have hs := stripSpaces_of_trim_empty s hn
  obtain ⟨ch, hmem, hch⟩ := h
  have : ch ∈ stripSpaces s := by
    unfold stripSpaces
    exact List.mem_filter.2 ⟨hmem, by simp [hch]⟩
  rw [hs] at this
  simp at this

theorem pushChunk_covers (cur filePath : List Char) (start i : Nat) (hlt : start < i)
    (h : ∃ ch ∈ cur, Js.isSpace ch = false) :
    ∃ c ∈ pushChunk cur filePath start i, c.startLine = start + 1 ∧ c.endLine = i := by
  refine ⟨createChunk cur filePath start ((i : Int) - 1), ?_, ?_, ?_⟩
  · unfold pushChunk
    rw [if_pos (trim_pos_of_nonspace cur h)]
    exact List.mem_singleton.2 rfl
  · unfold createChunk; simp only []; omega
  · unfold createChunk; simp only []; omega

theorem nonspace_in_pending (pending : List (List Char)) (k : Nat) (line : List Char)
    (hk : pending[k]? = some line) (h : ∃ ch ∈ line, Js.isSpace ch = false) :
    ∃ ch ∈ (pending.map (fun l => l ++ ['\n'])).flatten, Js.isSpace ch = false := by
  obtain ⟨ch, hmem, hch⟩ := h
  refine ⟨ch, ?_, hch⟩
  rw [List.mem_flatten]
  refine ⟨line ++ ['\n'], ?_, List.mem_append_left _ hmem⟩
  exact List.mem_map.2 ⟨line, List.getElem?_mem hk, rfl⟩

theorem generateSemanticChunksLoop_covers (isBoundary : List Char → Bool)
    (maxChunkSize : Nat) (filePath : List Char) (rest : List (List Char)) :
    ∀ (i : Nat) (cur : List Char) (start : Nat) (pending : List (List Char)),
      cur = (pending.map (fun l => l ++ ['\n'])).flatten → i = start + pending.length →
      ∀ (k : Nat) (line : List Char), (pending ++ rest)[k]? = some line →
        (∃ ch ∈ line, Js.isSpace ch = false) →
        ∃ c ∈ generateSemanticChunksLoop isBoundary maxChunkSize filePath rest i cur start,
          c.startLine ≤ start + k + 1 ∧ start + k + 1 ≤ c.endLine := by
  induction rest with
  | nil =>
    intro i cur start pending hcur hi k line hk hline
    rw [List.append_nil] at hk
    have hklt : k < pending.length := by
      by_contra hge
      rw [List.getElem?_eq_none (by omega)] at hk
      simp at hk
    obtain ⟨c, hc, hs, he⟩ := pushChunk_covers cur filePath start i (by omega)
      (hcur ▸ nonspace_in_pending pending k line hk hline)
    unfold generateSemanticChunksLoop
    exact ⟨c, hc, by omega, by omega⟩
  | cons line0 rest ih =>
    intro i cur start pending hcur hi k line hk hline
    unfold generateSemanticChunksLoop
    split_ifs with hcut
    · by_cases hklt : k < pending.length
      · rw [List.getElem?_append_left hklt] at hk
        obtain ⟨c, hc, hs, he⟩ := pushChunk_covers cur filePath start i (by omega)
          (hcur ▸ nonspace_in_pending pending k line hk hline)
        exact ⟨c, List.mem_append_left _ hc, by omega, by omega⟩
      · rw [List.getElem?_append_right (by omega)] at hk
        obtain ⟨c, hc, hs, he⟩ := ih (i + 1) (line0 ++ ['\n']) i [line0] (by simp) (by simp)
          (k - pending.length) line (by simpa using hk) hline
        exact ⟨c, List.mem_append_right _ hc, by omega, by omega⟩
    · exact ih (i + 1) (cur ++ (line0 ++ ['\n'])) start (pending ++ [line0])
        (by rw [hcur]; simp) (by simp; omega) k line (by simpa using hk) hline

/-- C18 (counterexample). For the two-line file whose first line is empty and
whose second line is `import x`, the only chunk covers line 2 alone: the
first chunk does not start at line 1 and the chunks do not span all lines. -/
theorem semanticChunks_skip_blank_lines :
    (Js.splitLines "\nimport x".data).length = 2 ∧
    (generateSemanticChunks isSemanticBoundaryJs 300 "\nimport x".data "f.js".data).map
        (fun c => (c.startLine, c.endLine)) = [(2, 2)] := by
  decide

/-- C18 (amended). The chunks of `generateSemanticChunks` have 1-based
inclusive line ranges that lie within the file, ascend and do not overlap,
and every line that contains a non-whitespace character lies in the range of
some chunk (whitespace-only stretches may be skipped, so the ranges need not
be contiguous nor start at line 1 nor end at the last line). -/
theorem semanticChunks_ranges (isBoundary : List Char → Bool) (maxChunkSize : Nat)
    (content filePath : List Char) :
    (∀ c ∈ generateSemanticChunks isBoundary maxChunkSize content filePath,
      1 ≤ c.startLine ∧ c.startLine ≤ c.endLine ∧
        c.endLine ≤ (Js.splitLines content).length) ∧
    (generateSemanticChunks isBoundary maxChunkSize content filePath).Pairwise
      (fun c1 c2 => c1.endLine < c2.startLine) ∧
    (∀ (k : Nat) (line : List Char), (Js.splitLines content)[k]? = some line →
      (∃ ch ∈ line, Js.isSpace ch = false) →
      ∃ c ∈ generateSemanticChunks isBoundary maxChunkSize content filePath,
        c.startLine ≤ k + 1 ∧ k + 1 ≤ c.endLine) := by
  have h := generateSemanticChunksLoop_wellRanged isBoundary maxChunkSize filePath
    (Js.splitLines content) 0 [] 0 (le_refl _) (by simp)
  refine ⟨?_, h.2, ?_⟩
  · intro c hc
    obtain ⟨_, a, b, d⟩ := h.1 c hc
    exact ⟨by omega, b, by omega⟩
  · intro k line hk hline
    obtain ⟨c, hc, hs, he⟩ := generateSemanticChunksLoop_covers isBoundary maxChunkSize
      filePath (Js.splitLines content) 0 [] 0 [] rfl rfl k line (by simpa using hk) hline
    exact ⟨c, hc, by omega, by omega⟩

end Indexer

namespace SafetyManager

/-! ## Validation (C6, C7, C8) -/

theorem isFileInScope_eq_false_iff (scopedFiles : List String) (p : String) :
    isFileInScope scopedFiles p = false ↔ (scopedFiles ≠ [] ∧ p ∉ scopedFiles) := by
  cases scopedFiles with
  | nil => simp [isFileInScope]
  | cons x xs => simp [isFileInScope]

theorem validateStep_valid (bn : String → String) (sc : List String) (v : Validation)
    (a : Action) : (validateStep bn sc v a).valid = v.valid := by
  unfold validateStep
  simp only []
  split_ifs <;> rfl

theorem validateStep_scopedViolations (bn : String → String) (sc : List String)
    (v : Validation) (a : Action) :
    (validateStep bn sc v a).scopedViolations =
      v.scopedViolations ++ (if isFileInScope sc a.path then [] else [a.path]) := by
  unfold validateStep
  simp only []
  split_ifs <;> simp_all

theorem validateStep_requiresConfirmation (bn : String → String) (sc : List String)
    (v : Validation) (a : Action) :
    (validateStep bn sc v a).requiresConfirmation = true ↔
      (v.requiresConfirmation = true ∨ needsConfirmation bn sc a) := by
  unfold validateStep needsConfirmation
  rw [← isFileInScope_eq_false_iff]
  simp only []
  split_ifs <;> simp_all []

theorem foldl_validateStep_valid (bn : String → String) (sc : List String)
    (actions : List Action) (v : Validation) :
    (actions.foldl (validateStep bn sc) v).valid = v.valid := by
  induction actions generalizing v with
  | nil => rfl
  | cons a rest ih => rw [List.foldl_cons, ih, validateStep_valid]

theorem foldl_validateStep_scopedViolations (bn : String → String) (sc : List String)
    (actions : List Action) (v : Validation) :
    (actions.foldl (validateStep bn sc) v).scopedViolations =
      v.scopedViolations ++
        (actions.filter (fun a => !isFileInScope sc a.path)).map Action.path := by
  induction actions generalizing v with
  | nil => simp
  | cons a rest ih =>
    rw [List.foldl_cons, ih, validateStep_scopedViolations]
    cases h : isFileInScope sc a.path <;> simp [List.filter_cons, h]

theorem foldl_validateStep_requiresConfirmation (bn : String → String) (sc : List String)
    (actions : List Action) (v : Validation) :
    (actions.foldl (validateStep bn sc) v).requiresConfirmation = true ↔
      (v.requiresConfirmation = true ∨ ∃ a ∈ actions, needsConfirmation bn sc a) := by
  induction actions generalizing v with
  | nil => simp
  | cons a rest ih =>
    rw [List.foldl_cons, ih, validateStep_requiresConfirmation]
    simp only [List.mem_cons, exists_eq_or_imp]
    tauto

theorem validateActions_fields (bn : String → String) (sc : List String)
    (actions : List Action) :
    (validateActions bn sc actions).valid =
        (actions.foldl (validateStep bn sc) Validation.init).valid ∧
    (validateActions bn sc actions).requiresConfirmation =
        (actions.foldl (validateStep bn sc) Validation.init).requiresConfirmation ∧
    (validateActions bn sc actions).scopedViolations =
        (actions.foldl (validateStep bn sc) Validation.init).scopedViolations ∧
    (validateActions bn sc actions).warnings =
        (actions.foldl (validateStep bn sc) Validation.init).warnings := by
  unfold validateActions
  simp only []
  split_ifs <;> simp

theorem validateActions_valid_eq (bn : String → String) (sc : List String)
    (actions : List Action) : (validateActions bn sc actions).valid = true := by
  rw [(validateActions_fields bn sc actions).1, foldl_validateStep_valid]
  rfl

/-- C6. `validateActions` sets `requiresConfirmation` exactly when some action
has a path outside a non-empty scope set, or is a `delete_file`, or has a
critical basename; an action whose only peculiarity is content longer than
10000 characters yields one warning and no confirmation requirement. -/
theorem validateActions_requiresConfirmation_iff (basename : String → String)
    (scopedFiles : List String) (actions : List Action) :
    ((validateActions basename scopedFiles actions).requiresConfirmation = true ↔
      ∃ a ∈ actions, (scopedFiles ≠ [] ∧ a.path ∉ scopedFiles) ∨ a.type = "delete_file" ∨
        basename a.path ∈ criticalFiles) ∧
    (∀ a : Action, largeContent a = true → isFileInScope scopedFiles a.path = true →
      a.type ≠ "delete_file" → basename a.path ∉ criticalFiles →
      (validateActions basename scopedFiles [a]).requiresConfirmation = false ∧
      (validateActions basename scopedFiles [a]).warnings =
        ["Large content change in " ++ a.path ++ " (" ++
          toString ((a.content.getD "").length) ++ " characters)"]) := by
  refine ⟨?_, ?_⟩
  · rw [(validateActions_fields basename scopedFiles actions).2.1,
      foldl_validateStep_requiresConfirmation]
    simp [Validation.init, needsConfirmation]
  · intro a hl hs hd hc
    rw [(validateActions_fields basename scopedFiles [a]).2.1,
      (validateActions_fields basename scopedFiles [a]).2.2.2]
    simp [validateStep, Validation.init, hl, hs, hd, hc]

/-- C7. `scopedViolations` lists, in action order, the paths of exactly the
actions whose path is outside a non-empty scope set (so it is empty for the
empty scope set); with scope `{a.js}` and actions on `a.js` and `b.js` it is
`["b.js"]` and `requiresConfirmation` is set. -/
theorem validateActions_scopedViolations (basename : String → String)
    (scopedFiles : List String) (actions : List Action) :
    (validateActions basename scopedFiles actions).scopedViolations =
      (actions.filter (fun a => decide (scopedFiles ≠ [] ∧ a.path ∉ scopedFiles))).map
        Action.path ∧
    (validateActions basename [] actions).scopedViolations = [] ∧
    (validateActions memEnv.basename ["a.js"]
        [⟨"edit_file", "a.js", some "1"⟩, ⟨"edit_file", "b.js", some "2"⟩]).scopedViolations
      = ["b.js"] ∧
    (validateActions memEnv.basename ["a.js"]
        [⟨"edit_file", "a.js", some "1"⟩, ⟨"edit_file", "b.js", some "2"⟩]).requiresConfirmation
      = true := by
  have key : ∀ sc : List String,
      (validateActions basename sc actions).scopedViolations =
        (actions.filter (fun a => decide (sc ≠ [] ∧ a.path ∉ sc))).map Action.path := by
    intro sc
    rw [(validateActions_fields basename sc actions).2.2.1,
      foldl_validateStep_scopedViolations]
    simp only [Validation.init, List.nil_append]
    congr 1
    apply List.filter_congr
    intro a _
    cases h : isFileInScope sc a.path
    · simpa using (isFileInScope_eq_false_iff sc a.path).1 h
    · have : ¬ (sc ≠ [] ∧ a.path ∉ sc) := by
        rw [← isFileInScope_eq_false_iff, h]; simp
      simpa using this
  refine ⟨key scopedFiles, ?_, by decide, by decide⟩
  rw [key []]
  simp

/-- C8. `validateActions` always returns `valid = true`, also for a batch
with scope violations and a pushed `errors` entry, so `executeActionsSafely`
never raises `Action validation failed`: the only errors it raises are the
cancellation and the `TypeError` of the diff step. -/
theorem validateActions_valid {σ : Type} (env : Env σ) (m : Manager) (w : σ)
    (scopedFiles : List String) (actions : List Action) (relevantFiles : Option (List String))
    (approved : Bool) :
    (validateActions env.basename scopedFiles actions).valid = true ∧
    (∀ msg, (executeActionsSafely env m w actions relevantFiles approved).2 = .error msg →
      msg = "User cancelled the operation" ∨
      msg = "Cannot read properties of undefined (reading 'split')") ∧
    ((validateActions memEnv.basename ["a.js"] [⟨"edit_file", "b.js", some "2"⟩]).valid = true ∧
     (validateActions memEnv.basename ["a.js"] [⟨"edit_file", "b.js", some "2"⟩]).scopedViolations
        = ["b.js"] ∧
     (validateActions memEnv.basename ["a.js"] [⟨"edit_file", "b.js", some "2"⟩]).errors
        = ["1 files are outside the current scope"] ∧
     (validateActions memEnv.basename ["a.js"]
        [⟨"edit_file", "b.js", some "2"⟩]).requiresConfirmation = true) := by
  have hv : ∀ sc : List String, (validateActions env.basename sc actions).valid = true :=
    fun sc => validateActions_valid_eq env.basename sc actions
  refine ⟨hv scopedFiles, ?_, by decide⟩
  intro msg h
  unfold executeActionsSafely at h
  simp only [hv, Bool.not_true, Bool.false_eq_true, if_false] at h
  split_ifs at h <;> simp_all

/-! ## Execution (C9, C10) -/

theorem executeActionWithBackup_ok {σ : Type} (env : Env σ) (m : Manager) (w : σ) (a : Action)
    (st : Manager × σ) (r : ActionResult)
    (h : executeActionWithBackup env m w a = (st, .ok r)) :
    r.action = a ∧ r.executed = true ∧ r.error = none := by
  unfold executeActionWithBackup at h
  simp only [] at h
  split at h
  · simp at h
  · simp only [Prod.mk.injEq, Except.ok.injEq] at h
    obtain ⟨_, rfl⟩ := h
    simp

theorem executeLoop_length {σ : Type} (env : Env σ) (actions : List Action) :
    ∀ (m : Manager) (w : σ), (executeLoop env m w actions).2.length = actions.length := by
  induction actions with
  | nil => intro m w; rfl
  | cons a rest ih => intro m w; simp [executeLoop, ih]

theorem executeLoop_get {σ : Type} (env : Env σ) (actions : List Action) :
    ∀ (m : Manager) (w : σ) (i : Nat) (a : Action), actions[i]? = some a →
      ∃ r, (executeLoop env m w actions).2[i]? = some r ∧ r.action = a ∧
        r.executed =
          (executeActionWithBackup env (executeLoop env m w (actions.take i)).1.1
            (executeLoop env m w (actions.take i)).1.2 a).2.toBool ∧
        (r.executed = false → r.error.isSome = true) := by
  induction actions with
  | nil => intro m w i a h; simp at h
  | cons b rest ih =>
    intro m w i a h
    cases i with
    | zero =>
      simp only [List.getElem?_cons_zero, Option.some.injEq] at h
      subst h
      simp only [List.take_zero, executeLoop, List.getElem?_cons_zero]
      refine ⟨_, rfl, ?_⟩
      cases hx : executeActionWithBackup env m w b with
      | mk st res =>
        cases res with
        | ok r =>
          have := executeActionWithBackup_ok env m w b st r hx
          simp [this.1, this.2.1, Except.toBool]
        | error e => simp [Except.toBool]
    | succ j =>
      simp only [List.getElem?_cons_succ] at h
      obtain ⟨r, h1, h2, h3, h4⟩ := ih (executeActionWithBackup env m w b).1.1
        (executeActionWithBackup env m w b).1.2 j a h
      refine ⟨r, ?_, h2, ?_, h4⟩
      · simpa [executeLoop] using h1
      · rw [h3]; simp [executeLoop]

/-- Partial-failure isolation for batches whose `edit_file` actions all
carry content (so that the diff preview does not throw): when confirmation is
not required or was approved, `executeActionsSafely` returns normally with
exactly one result per input action, in input order; result `i` carries
action `i`, is `executed: true` exactly when `executeActionWithBackup`
succeeded on action `i` in the state reached after the first `i` actions, and
otherwise is `executed: false` with an error. On such batches a failure never
stops the later actions and nothing is thrown. -/
theorem executeActionsSafely_partial_failure {σ : Type} (env : Env σ) (m : Manager) (w : σ)
    (actions : List Action) (relevantFiles : Option (List String)) (approved : Bool)
    (hdiff : diffThrows actions = false)
    (hconfirm : (validateActions env.basename (scopeFor m relevantFiles).scopedFiles
        actions).requiresConfirmation = false ∨ approved = true) :
    ∃ results, (executeActionsSafely env m w actions relevantFiles approved).2 = .ok results ∧
      results.length = actions.length ∧
      ∀ (i : Nat) (a : Action), actions[i]? = some a →
        ∃ r, results[i]? = some r ∧ r.action = a ∧
          r.executed =
            (executeActionWithBackup env
              (executeLoop env (scopeFor m relevantFiles) w (actions.take i)).1.1
              (executeLoop env (scopeFor m relevantFiles) w (actions.take i)).1.2 a).2.toBool ∧
          (r.executed = false → r.error.isSome = true) := by
  have hv := validateActions_valid_eq env.basename (scopeFor m relevantFiles).scopedFiles actions
  refine ⟨(executeLoop env (scopeFor m relevantFiles) w actions).2, ?_,
    executeLoop_length env actions _ _, executeLoop_get env actions _ _⟩
  unfold executeActionsSafely
  simp only [hv, hdiff, Bool.not_true, Bool.false_eq_true, if_false]
  rcases hconfirm with h | h
  · simp [h]
  · simp [h]

/-- Instance of the isolation lemma: a batch of three actions whose second
targets an unwritable path gives three results marked true, false, true. -/
theorem executeActionsSafely_partial_failure_witness :
    (diffThrows [⟨"create_file", "c.txt", some "1"⟩, ⟨"create_file", "b.txt", some "2"⟩,
        ⟨"edit_file", "a.txt", some "3"⟩] = false) ∧
    (∃ results, (executeActionsSafely memEnv (Manager.new memEnv "ws") sampleWorld
        [⟨"create_file", "c.txt", some "1"⟩, ⟨"create_file", "b.txt", some "2"⟩,
          ⟨"edit_file", "a.txt", some "3"⟩] none true).2 = .ok results ∧
      results.length = 3) ∧
    ((executeActionsSafely memEnv (Manager.new memEnv "ws") sampleWorld
        [⟨"create_file", "c.txt", some "1"⟩, ⟨"create_file", "b.txt", some "2"⟩,
          ⟨"edit_file", "a.txt", some "3"⟩] none true).2.toOption.map
        (fun rs => rs.map (fun r => (r.executed, r.error.isSome)))
      = some [(true, false), (false, true), (true, false)]) := by
  refine ⟨by decide, ?_, by decide⟩
  obtain ⟨results, h1, h2, _⟩ := executeActionsSafely_partial_failure memEnv
    (Manager.new memEnv "ws") sampleWorld
    [⟨"create_file", "c.txt", some "1"⟩, ⟨"create_file", "b.txt", some "2"⟩,
      ⟨"edit_file", "a.txt", some "3"⟩] none true (by decide) (Or.inr rfl)
  exact ⟨results, h1, h2⟩

/-- C10. When validation requires confirmation and the confirmation resolves
to denied, `executeActionsSafely` raises `User cancelled the operation` (unless
the diff step already threw, which also executes nothing); in either case the
world (every file, folder and backup) and the undo stack are exactly what
they were before the call. -/
theorem executeActionsSafely_denied {σ : Type} (env : Env σ) (m : Manager) (w : σ)
    (actions : List Action) (relevantFiles : Option (List String))
    (hreq : (validateActions env.basename (scopeFor m relevantFiles).scopedFiles
        actions).requiresConfirmation = true) :
    (diffThrows actions = false →
      (executeActionsSafely env m w actions relevantFiles false).2 =
        .error "User cancelled the operation") ∧
    (∃ msg, (executeActionsSafely env m w actions relevantFiles false).2 = .error msg) ∧
    (executeActionsSafely env m w actions relevantFiles false).1.2 = w ∧
    (executeActionsSafely env m w actions relevantFiles false).1.1.undoStack = m.undoStack := by
  have hv := validateActions_valid_eq env.basename (scopeFor m relevantFiles).scopedFiles actions
  have hs : (scopeFor m relevantFiles).undoStack = m.undoStack := by
    unfold scopeFor setScopedFiles; cases relevantFiles <;> rfl
  unfold executeActionsSafely
  simp only [hv, hreq, Bool.not_true, Bool.false_eq_true, if_false, if_true, Bool.not_false]
  cases hd : diffThrows actions <;> simp [hs]

/-- Witness for C10: deleting a file needs confirmation; once denied, the
sample world and the empty undo stack are untouched. -/
theorem executeActionsSafely_denied_witness :
    (validateActions memEnv.basename (scopeFor (Manager.new memEnv "ws") none).scopedFiles
        [⟨"delete_file", "a.txt", none⟩]).requiresConfirmation = true ∧
    (executeActionsSafely memEnv (Manager.new memEnv "ws") sampleWorld
        [⟨"delete_file", "a.txt", none⟩] none false).2 = .error "User cancelled the operation" ∧
    (executeActionsSafely memEnv (Manager.new memEnv "ws") sampleWorld
        [⟨"delete_file", "a.txt", none⟩] none false).1.2 = sampleWorld :=
  ⟨by decide,
   (executeActionsSafely_denied memEnv (Manager.new memEnv "ws") sampleWorld
      [⟨"delete_file", "a.txt", none⟩] none (by decide)).1 (by decide),
   (executeActionsSafely_denied memEnv (Manager.new memEnv "ws") sampleWorld
      [⟨"delete_file", "a.txt", none⟩] none (by decide)).2.2.1⟩

/-! ## The undo stack (C12, C13, C14) -/

theorem addToUndoStack_length_le (m : Manager) (a : Action) (b : Option Backup) (ts : String)
    (h : m.undoStack.length ≤ m.maxUndoSteps) :
    (addToUndoStack m a b ts).undoStack.length ≤ m.maxUndoSteps ∧
    (addToUndoStack m a b ts).maxUndoSteps = m.maxUndoSteps := by
  unfold addToUndoStack
  refine ⟨?_, rfl⟩
  simp only []
  split_ifs with hlen
  · simp only [List.length_tail, List.length_append, List.length_singleton]; omega
  · simpa using hlen

theorem undoLastAction_stack {σ : Type} (env : Env σ) (m : Manager) (w : σ) :
    (undoLastAction env m w).1.1.undoStack.length ≤ m.undoStack.length ∧
    (undoLastAction env m w).1.1.maxUndoSteps = m.maxUndoSteps := by
  unfold undoLastAction
  cases h : m.undoStack.getLast? <;> simp

theorem undoActionByIndex_stack {σ : Type} (env : Env σ) (m : Manager) (w : σ) (i : Int) :
    (undoActionByIndex env m w i).1.1.undoStack.length ≤ m.undoStack.length ∧
    (undoActionByIndex env m w i).1.1.maxUndoSteps = m.maxUndoSteps := by
  unfold undoActionByIndex
  split_ifs
  · simp
  · cases h : m.undoStack.get? i.toNat
    · simp
    · refine ⟨?_, rfl⟩
      simp only [List.length_eraseIdx]
      split_ifs <;> omega

theorem applyOp_invariant {σ : Type} (env : Env σ) (st : Manager × σ) (op : StackOp)
    (h : st.1.undoStack.length ≤ st.1.maxUndoSteps) :
    (applyOp env st op).1.undoStack.length ≤ (applyOp env st op).1.maxUndoSteps ∧
    (applyOp env st op).1.maxUndoSteps = st.1.maxUndoSteps := by
  cases op with
  | add a b ts =>
    have := addToUndoStack_length_le st.1 a b ts h
    simp only [applyOp]
    exact ⟨this.2 ▸ this.1, this.2⟩
  | undoLast =>
    have := undoLastAction_stack env st.1 st.2
    simp only [applyOp]
    exact ⟨by rw [this.2]; exact le_trans this.1 h, this.2⟩
  | undoByIndex i =>
    have := undoActionByIndex_stack env st.1 st.2 i
    simp only [applyOp]
    exact ⟨by rw [this.2]; exact le_trans this.1 h, this.2⟩
  | clear => simp [applyOp, clearUndoStack]

theorem foldl_applyOp_invariant {σ : Type} (env : Env σ) (ops : List StackOp) :
    ∀ st : Manager × σ, st.1.undoStack.length ≤ st.1.maxUndoSteps →
      (ops.foldl (applyOp env) st).1.undoStack.length ≤ st.1.maxUndoSteps := by
  induction ops with
  | nil => intro st h; exact h
  | cons op rest ih =>
    intro st h
    have := applyOp_invariant env st op h
    rw [List.foldl_cons, ← this.2]
    exact ih _ this.1

/-- C12. Starting from the empty stack of a fresh manager, after any sequence
of `addToUndoStack`, `undoLastAction`, `undoActionByIndex` and
`clearUndoStack` calls the undo stack holds at most 10 entries; and a push on
a stack of length 10 yields its entries 2..10 in order followed by the new
entry. -/
theorem undoStack_bounded {σ : Type} (env : Env σ) (workspacePath : String) (w : σ)
    (ops : List StackOp) :
    (ops.foldl (applyOp env) (Manager.new env workspacePath, w)).1.undoStack.length ≤ 10 ∧
    (∀ (m : Manager) (a : Action) (b : Option Backup) (ts : String),
      m.maxUndoSteps = 10 → m.undoStack.length = 10 →
      (addToUndoStack m a b ts).undoStack =
        m.undoStack.tail ++ [{ action := a, backup := b, timestamp := ts }]) := by
  refine ⟨?_, ?_⟩
  · exact foldl_applyOp_invariant env ops (Manager.new env workspacePath, w)
      (by simp [Manager.new])
  · intro m a b ts hmax hlen
    unfold addToUndoStack
    simp only [List.length_append, List.length_singleton, hmax, hlen]
    cases hs : m.undoStack with
    | nil => rw [hs] at hlen; simp at hlen
    | cons x xs => simp

theorem undoActionByIndex_inRange {σ : Type} (env : Env σ) (m : Manager) (w : σ) (index : Int)
    (h0 : 0 ≤ index) (h1 : index < (m.undoStack.length : Int)) :
    (undoActionByIndex env m w index).1.1.undoStack = m.undoStack.eraseIdx index.toNat ∧
    ∃ e, m.undoStack[index.toNat]? = some e ∧
      (undoActionByIndex env m w index).1.2 = (restoreEntry env m w e).1 ∧
      (undoActionByIndex env m w index).2 = (restoreEntry env m w e).2 := by
  have hlt : index.toNat < m.undoStack.length := by omega
  have hget : m.undoStack.get? index.toNat = some (m.undoStack[index.toNat]) := by
    simp [List.getElem?_eq_getElem hlt]
  unfold undoActionByIndex
  rw [if_neg (by omega), hget]
  exact ⟨rfl, m.undoStack[index.toNat], List.getElem?_eq_getElem hlt, rfl, rfl⟩

/-- C13. For an index inside `0 .. length - 1`, `undoActionByIndex` leaves
the stack with exactly the entry at that position removed (the others
unchanged, in order) and restores that entry; for any other index it raises
`Invalid action index` and leaves the stack and the world unchanged. -/
theorem undoActionByIndex_frame {σ : Type} (env : Env σ) (m : Manager) (w : σ) (index : Int) :
    (0 ≤ index ∧ index < (m.undoStack.length : Int) →
      (undoActionByIndex env m w index).1.1.undoStack = m.undoStack.eraseIdx index.toNat ∧
      ∃ e, m.undoStack[index.toNat]? = some e ∧
        (undoActionByIndex env m w index).1.2 = (restoreEntry env m w e).1 ∧
        (undoActionByIndex env m w index).2 = (restoreEntry env m w e).2) ∧
    (¬ (0 ≤ index ∧ index < (m.undoStack.length : Int)) →
      (undoActionByIndex env m w index).2 = .error "Invalid action index" ∧
      (undoActionByIndex env m w index).1 = (m, w)) := by
  refine ⟨?_, ?_⟩
  · rintro ⟨h0, h1⟩
    exact undoActionByIndex_inRange env m w index h0 h1
  · intro h
    unfold undoActionByIndex
    rw [if_pos (by omega)]
    exact ⟨rfl, rfl⟩

theorem restoreEntry_congr {σ : Type} (env : Env σ) (m1 m2 : Manager) (w : σ) (e : UndoEntry)
    (h : m1.workspacePath = m2.workspacePath) :
    restoreEntry env m1 w e = restoreEntry env m2 w e := by
  unfold restoreEntry
  rw [h]

theorem restoreAt_congr {σ : Type} (env : Env σ) (m1 m2 : Manager) (s1 s2 : List UndoEntry)
    (h : m1.workspacePath = m2.workspacePath) (l : List Int) :
    ∀ w : σ, (∀ j ∈ l, s1.get? j.toNat = s2.get? j.toNat) →
      restoreAt env m1 s1 w l = restoreAt env m2 s2 w l := by
  induction l with
  | nil => intro w _; rfl
  | cons i rest ih =>
    intro w hs
    have hi := hs i (List.mem_cons_self _ _)
    have hrest : ∀ j ∈ rest, s1.get? j.toNat = s2.get? j.toNat :=
      fun j hj => hs j (List.mem_cons_of_mem _ hj)
    unfold restoreAt
    rw [hi]
    cases s2.get? i.toNat with
    | none => exact ih w hrest
    | some e =>
      simp only []
      rw [restoreEntry_congr env m1 m2 w e h]; exact ih _ hrest

theorem withoutPositions_all {α : Type} (xs : List α) :
    ∀ (k : Nat) (idxs : List Int), (∀ j ∈ idxs, j < (k : Int)) →
      withoutPositions k xs idxs = xs := by
  induction xs with
  | nil => intro k idxs _; rfl
  | cons x rest ih =>
    intro k idxs h
    have hk : ¬ ((k : Int) ∈ idxs) := fun hm => lt_irrefl _ (h _ hm)
    unfold withoutPositions
    rw [if_neg hk, ih (k + 1) idxs (fun j hj => by have := h j hj; push_cast; omega)]

theorem withoutPositions_congr {α : Type} (xs : List α) :
    ∀ (k : Nat) (l1 l2 : List Int), (∀ j, j ∈ l1 ↔ j ∈ l2) →
      withoutPositions k xs l1 = withoutPositions k xs l2 := by
  induction xs with
  | nil => intro k l1 l2 _; rfl
  | cons x rest ih =>
    intro k l1 l2 h
    unfold withoutPositions
    rw [ih (k + 1) l1 l2 h]
    by_cases hk : (k : Int) ∈ l1
    · rw [if_pos hk, if_pos ((h _).1 hk)]
    · rw [if_neg hk, if_neg (fun hm => hk ((h _).2 hm))]

theorem withoutPositions_eraseIdx {α : Type} (t : List α) :
    ∀ (k d : Nat) (rest : List Int), d < t.length → (∀ j ∈ rest, j < ((k + d : Nat) : Int)) →
      withoutPositions k (t.eraseIdx d) rest =
        withoutPositions k t (((k + d : Nat) : Int) :: rest) := by
  induction t with
  | nil => intro k d rest hd _; simp at hd
  | cons x xs ih =>
    intro k d rest hd hrest
    cases d with
    | zero =>
      simp only [List.eraseIdx_cons_zero, Nat.add_zero] at hrest ⊢
      rw [withoutPositions_all xs k rest hrest]
      unfold withoutPositions
      rw [if_pos (List.mem_cons_self _ _)]
      rw [withoutPositions_all xs (k + 1) _ (by
        intro j hj
        rcases List.mem_cons.1 hj with h | h
        · rw [h]; push_cast; omega
        · have := hrest j h; push_cast; omega)]
    | succ d' =>
      have hd' : d' < xs.length := by simpa using hd
      have hshift : k + (d' + 1) = (k + 1) + d' := by omega
      have hrest' : ∀ j ∈ rest, j < (((k + 1) + d' : Nat) : Int) := by
        intro j hj; rw [← hshift]; exact hrest j hj
      have hne : ¬ ((k : Int) = ((k + (d' + 1) : Nat) : Int)) := by push_cast; omega
      simp only [List.eraseIdx_cons_succ]
      unfold withoutPositions
      rw [ih (k + 1) d' rest hd' hrest', ← hshift]
      by_cases hk : (k : Int) ∈ rest
      · rw [if_pos hk, if_pos (List.mem_cons_of_mem _ hk)]
      · rw [if_neg hk, if_neg (by
          intro hm
          rcases List.mem_cons.1 hm with h | h
          · exact hne h
          · exact hk h)]

theorem undoLoop_descending {σ : Type} (env : Env σ) (l : List Int) :
    ∀ (m : Manager) (w : σ), l.Pairwise (fun a b => b < a) →
      (∀ i ∈ l, 0 ≤ i ∧ i < (m.undoStack.length : Int)) →
      (undoLoop env m w l).1.1.undoStack = withoutPositions 0 m.undoStack l ∧
      (undoLoop env m w l).1.2 = restoreAt env m m.undoStack w l ∧
      (undoLoop env m w l).2.map MultiUndoResult.index = l := by
  induction l with
  | nil =>
    intro m w _ _
    exact ⟨(withoutPositions_all m.undoStack 0 [] (by simp)).symm, rfl, rfl⟩
  | cons i rest ih =>
    intro m w hp hv
    obtain ⟨hi0, hi1⟩ := hv i (List.mem_cons_self _ _)
    have hlt : i.toNat < m.undoStack.length := by omega
    have hrestlt : ∀ j ∈ rest, j < i := (List.pairwise_cons.1 hp).1
    obtain ⟨hstack, e, hget, hw, _⟩ := undoActionByIndex_inRange env m w i hi0 hi1
    have hwp : (undoActionByIndex env m w i).1.1.workspacePath = m.workspacePath := by
      unfold undoActionByIndex
      rw [if_neg (by omega)]
      cases m.undoStack.get? i.toNat <;> rfl
    have hv' : ∀ j ∈ rest, 0 ≤ j ∧
        j < ((undoActionByIndex env m w i).1.1.undoStack.length : Int) := by
      intro j hj
      have h1 := (hv j (List.mem_cons_of_mem _ hj)).1
      have h2 := hrestlt j hj
      rw [hstack, List.length_eraseIdx, if_pos hlt]
      omega
    obtain ⟨ih1, ih2, ih3⟩ := ih (undoActionByIndex env m w i).1.1
      (undoActionByIndex env m w i).1.2 (List.pairwise_cons.1 hp).2 hv'
    have hcast : ((0 + i.toNat : Nat) : Int) = i := by
      rw [Nat.zero_add]; exact Int.toNat_of_nonneg hi0
    refine ⟨?_, ?_, ?_⟩
    · simp only [undoLoop]
      rw [ih1, hstack, withoutPositions_eraseIdx m.undoStack 0 i.toNat rest hlt
        (by rw [hcast]; exact hrestlt), hcast]
    · simp only [undoLoop]
      rw [ih2, hw]
      have hget' : m.undoStack.get? i.toNat = some e := by simpa using hget
      conv_rhs => unfold restoreAt; rw [hget']
      apply restoreAt_congr env _ _ _ _ hwp
      intro j hj
      have h1 := (hv j (List.mem_cons_of_mem _ hj)).1
      have h2 := hrestlt j hj
      rw [hstack]
      simp only [List.get?_eq_getElem?]
      rw [List.getElem?_eraseIdx]
      rw [if_pos (by omega)]
    · simp only [undoLoop, List.map_cons, ih3]
      cases (undoActionByIndex env m w i).2 <;> rfl

/-- C14. For distinct valid indices given in any order, `undoMultipleActions`
removes from the stack exactly the entries that sat at those positions of
the original stack (the others stay, in their original order), restores
those original entries one after the other in descending index order, and
returns one result per index. -/
theorem undoMultipleActions_exact {σ : Type} (env : Env σ) (m : Manager) (w : σ)
    (indices : List Int) (hdistinct : indices.Nodup)
    (hvalid : ∀ i ∈ indices, 0 ≤ i ∧ i < (m.undoStack.length : Int)) :
    (undoMultipleActions env m w indices).1.1.undoStack =
      withoutPositions 0 m.undoStack indices ∧
    (undoMultipleActions env m w indices).1.2 =
      restoreAt env m m.undoStack w (indices.insertionSort (· ≥ ·)) ∧
    (undoMultipleActions env m w indices).2.length = indices.length ∧
    (undoMultipleActions env m w indices).2.map MultiUndoResult.index =
      indices.insertionSort (· ≥ ·) := by
  have hperm := List.perm_insertionSort (· ≥ ·) indices
  have hsorted : (indices.insertionSort (· ≥ ·)).Pairwise (fun a b => b < a) := by
    have h1 : (indices.insertionSort (· ≥ ·)).Pairwise (· ≥ ·) :=
      List.sorted_insertionSort (· ≥ ·) indices
    have h2 : (indices.insertionSort (· ≥ ·)).Pairwise (· ≠ ·) :=
      (hperm.nodup_iff.2 hdistinct)
    exact (h1.and h2).imp (fun h => lt_of_le_of_ne h.1 (Ne.symm h.2))
  have hv : ∀ i ∈ indices.insertionSort (· ≥ ·), 0 ≤ i ∧ i < (m.undoStack.length : Int) :=
    fun i hi => hvalid i (hperm.mem_iff.1 hi)
  obtain ⟨h1, h2, h3⟩ := undoLoop_descending env _ m w hsorted hv
  refine ⟨?_, h2, ?_, h3⟩
  · unfold undoMultipleActions
    rw [h1]
    exact withoutPositions_congr _ _ _ _ (fun j => hperm.mem_iff)
  · have := congrArg List.length h3
    rw [List.length_map, hperm.length_eq] at this
    exact this

/-- Witness for C14: undoing positions 0 and 2 (given as `[0, 2]`) of a
three-entry stack leaves exactly the middle entry. -/
theorem undoMultipleActions_exact_witness :
    ([0, 2] : List Int).Nodup ∧
    (undoMultipleActions memEnv { Manager.new memEnv "ws" with undoStack := sampleStack }
        sampleWorld [0, 2]).1.1.undoStack =
      [{ action := ⟨"create_file", "y.txt", some "2"⟩, backup := none, timestamp := "2" }] ∧
    (undoMultipleActions memEnv { Manager.new memEnv "ws" with undoStack := sampleStack }
        sampleWorld [0, 2]).2.length = 2 := by
  have h := undoMultipleActions_exact memEnv
    { Manager.new memEnv "ws" with undoStack := sampleStack } sampleWorld [0, 2]
    (by decide) (by decide)
  exact ⟨by decide, h.1.trans (by decide), h.2.2.1⟩

/-! ## Undo reversibility (C11) -/

/-- C11 (evaluation at the failing input). On the sample world, where
`a.txt` holds `old`, the batch `[create_file a.txt "new"]` executes
successfully and `undoLastAction` succeeds, yet afterwards `a.txt` does not
exist: `create_file` takes no backup, and its undo removes the file. -/
theorem undo_create_over_existing_loses_content :
    sampleWorld.lookup "ws/a.txt" = some "old" ∧
    (executeActionsSafely memEnv (Manager.new memEnv "ws") sampleWorld
        [⟨"create_file", "a.txt", some "new"⟩] none true).2.toOption.map
        (fun rs => rs.map ActionResult.executed) = some [true] ∧
    (undoLastAction memEnv
        (executeActionsSafely memEnv (Manager.new memEnv "ws") sampleWorld
          [⟨"create_file", "a.txt", some "new"⟩] none true).1.1
        (executeActionsSafely memEnv (Manager.new memEnv "ws") sampleWorld
          [⟨"create_file", "a.txt", some "new"⟩] none true).1.2).2.toOption =
      some (some { success := true, action := "deleted", path := "a.txt" }) ∧
    (undoLastAction memEnv
        (executeActionsSafely memEnv (Manager.new memEnv "ws") sampleWorld
          [⟨"create_file", "a.txt", some "new"⟩] none true).1.1
        (executeActionsSafely memEnv (Manager.new memEnv "ws") sampleWorld
          [⟨"create_file", "a.txt", some "new"⟩] none true).1.2).1.2.lookup "ws/a.txt" = none := by
  decide

/-- The undo of a `create_folder` entry, and of an `edit_file` entry that
found no file to back up, changes nothing: the folder or file created by the
action stays. -/
theorem restoreEntry_without_backup_noop {σ : Type} (env : Env σ) (m : Manager) (w : σ)
    (e : UndoEntry) (hb : e.backup = none) (ht : e.action.type ≠ "create_file") :
    restoreEntry env m w e = (w, .ok none) := by
  unfold restoreEntry
  rw [hb]
  simp [ht]

/-- Instance of the previous lemma: undoing a `create_folder`. -/
theorem restoreEntry_without_backup_noop_witness :
    restoreEntry memEnv (Manager.new memEnv "ws") sampleWorld
      { action := ⟨"create_folder", "src", none⟩, backup := none, timestamp := "5" } =
      (sampleWorld, .ok none) :=
  restoreEntry_without_backup_noop memEnv (Manager.new memEnv "ws") sampleWorld
    { action := ⟨"create_folder", "src", none⟩, backup := none, timestamp := "5" } rfl
    (by decide)

end SafetyManager

namespace Agent

/-! ## The parser's fallback and validation (C1, C2, C3) -/

theorem runStrategies_ok (t : List Char) (l : List (List Char → Except String Json)) :
    ∀ p, l ≠ [] → runStrategies t l = .ok p → ∃ s ∈ l, s t = .ok p := by
  induction l with
  | nil => intro p h; exact absurd rfl h
  | cons s rest ih =>
    intro p _ h
    cases rest with
    | nil => exact ⟨s, List.mem_singleton.2 rfl, h⟩
    | cons s2 rest2 =>
      unfold runStrategies at h
      cases hs : s t with
      | ok v =>
        rw [hs] at h
        simp only [Except.ok.injEq] at h
        exact ⟨s, List.mem_cons_self _ _, by rw [hs, h]⟩
      | error e =>
        rw [hs] at h
        obtain ⟨s3, hm, h3⟩ := ih p (by simp) h
        exact ⟨s3, List.mem_cons_of_mem _ hm, h3⟩

theorem fallback_actions (message : String) (request : List Char) :
    getProp (fallbackResponse message request) "actions" = .ok (some (.arr [])) := rfl

theorem fallback_validated (message : String) (request : List Char) :
    Validated (fallbackResponse message request) := by
  refine ⟨_, [], rfl, ?_, rfl, ?_⟩
  · show truthy (some (Json.str _)) = true
    simp [truthy]
  · intro a ha
    simp at ha

theorem parseText_ok (text : List Char) (p : Json) (h : parseText text = .ok p) :
    (∃ s ∈ strategies, s (extractJsonText text) = .ok p) ∧ validateParsed p = .ok () := by
  unfold parseText at h
  cases hr : runStrategies (extractJsonText text) strategies with
  | error e => rw [hr] at h; simp at h
  | ok parsed =>
    rw [hr] at h
    simp only [] at h
    cases hv : validateParsed parsed with
    | error e => rw [hv] at h; simp at h
    | ok u =>
      rw [hv] at h
      simp only [Except.ok.injEq] at h
      subst h
      exact ⟨runStrategies_ok _ _ _ (by simp [strategies]) hr, hv⟩

theorem parseAIResponse_text (text : List Char) :
    (∃ p, parseText text = .ok p ∧ parseAIResponse (.str text) = .ok (some p)) ∨
    (∃ e, parseText text = .error e ∧
      parseAIResponse (.str text) = .ok (some (fallbackResponse e text))) := by
  cases h : parseText text with
  | ok p => exact Or.inl ⟨p, rfl, by simp only [parseAIResponse, parseAIResponseTry, h]⟩
  | error e => exact Or.inr ⟨e, rfl, by simp only [parseAIResponse, parseAIResponseTry, h]⟩

/-- C1. For every input string `parseAIResponse` returns a value (no
exception leaves it), and when no strategy yields a value that passes the
validation the returned `actions` is the empty array. -/
theorem parseAIResponse_never_throws (text : List Char) :
    ∃ v, parseAIResponse (.str text) = .ok (some v) ∧
      ((∀ s ∈ strategies, ∀ p, s (extractJsonText text) = .ok p → validateParsed p ≠ .ok ()) →
        getProp v "actions" = .ok (some (.arr []))) := by
  rcases parseAIResponse_text text with ⟨p, hp, hr⟩ | ⟨e, _, hr⟩
  · refine ⟨p, hr, ?_⟩
    intro hnone
    obtain ⟨⟨s, hs, hsp⟩, hv⟩ := parseText_ok text p hp
    exact absurd hv (hnone s hs p hsp)
  · exact ⟨_, hr, fun _ => fallback_actions e text⟩

theorem validateAction_ok (a : Json) (h : validateAction a = .ok ()) :
    ∃ fields, a = .obj fields ∧
      truthy (lookup "type".data fields) = true ∧
      truthy (lookup "path".data fields) = true ∧
      (needsContent (lookup "type".data fields) = true →
        truthy (lookup "content".data fields) = true) := by
  cases a with
  | obj fields =>
    refine ⟨fields, rfl, ?_⟩
    simp only [validateAction, getProp] at h
    by_cases ht : truthy (lookup "type".data fields) = true
    · by_cases hp : truthy (lookup "path".data fields) = true
      · refine ⟨ht, hp, ?_⟩
        intro hn
        by_contra hc
        simp [ht, hp, hn, hc] at h
      · simp [ht, hp] at h
    · simp [ht] at h
  | null => simp [validateAction, getProp] at h
  | bool b => simp [validateAction, getProp, truthy] at h
  | num n m e => simp [validateAction, getProp, truthy] at h
  | str s => simp [validateAction, getProp, truthy] at h
  | arr xs => simp [validateAction, getProp, truthy] at h

theorem validateActions_ok (actions : List Json) (h : validateActions actions = .ok ()) :
    ∀ a ∈ actions, validateAction a = .ok () := by
  induction actions with
  | nil => intro a ha; simp at ha
  | cons x rest ih =>
    unfold validateActions at h
    cases hx : validateAction x with
    | error e => rw [hx] at h; simp at h
    | ok u =>
      rw [hx] at h
      intro a ha
      rcases List.mem_cons.1 ha with rfl | hr
      · exact hx
      · exact ih h a hr

theorem validateParsed_ok (p : Json) (h : validateParsed p = .ok ()) : Validated p := by
  cases p with
  | obj members =>
    simp only [validateParsed, getProp] at h
    by_cases ha : truthy (lookup "analysis".data members) = true
    · simp only [ha, Bool.not_true, Bool.false_eq_true, if_false] at h
      cases hact : lookup "actions".data members with
      | none => rw [hact] at h; simp at h
      | some av =>
        rw [hact] at h
        cases av with
        | arr actions =>
          exact ⟨members, actions, rfl, ha, hact,
            fun a hm => validateAction_ok a (validateActions_ok actions h a hm)⟩
        | null => simp at h
        | bool b => simp at h
        | num n m e => simp at h
        | str s => simp at h
        | obj o => simp at h
    · simp [ha] at h
  | null => simp [validateParsed, getProp] at h
  | bool b => simp [validateParsed, getProp, truthy] at h
  | num n m e => simp [validateParsed, getProp, truthy] at h
  | str s => simp [validateParsed, getProp, truthy] at h
  | arr xs => simp [validateParsed, getProp, truthy] at h

/-- C3. For every input string the value returned by `parseAIResponse`,
whichever strategy produced it or the fallback, is an object with a
non-empty (truthy) `analysis` and an array `actions`, every action of which
has a non-empty `type` and `path` and, if it is a `create_file` or
`edit_file`, a non-empty `content`. -/
theorem parseAIResponse_validated (text : List Char) :
    ∃ v, parseAIResponse (.str text) = .ok (some v) ∧ Validated v := by
  rcases parseAIResponse_text text with ⟨p, hp, hr⟩ | ⟨e, _, hr⟩
  · exact ⟨p, hr, validateParsed_ok p (parseText_ok text p hp).2⟩
  · exact ⟨_, hr, fallback_validated e text⟩

set_option maxRecDepth 100000 in
/-- C2 (evaluation at the failing input). On the truncated example of the
specification the scan counts one open bracket and two open braces and the
completion appends `]}}`, all `]` first; the text therefore still does not
parse, all five strategies fail and `parseAIResponse` returns the fallback
with no action. With the closers in nesting order, `}]}`, the same text
parses to the original response. -/
theorem truncation_example_not_recovered :
    closers (scan truncatedExample) = "]\x7d\x7d".data ∧
    parseAIResponse (.str truncatedExample) =
      .ok (some (fallbackResponse "Unexpected token in JSON" truncatedExample)) ∧
    getProp (fallbackResponse "Unexpected token in JSON" truncatedExample) "actions" =
      .ok (some (.arr [])) ∧
    jsonParse (truncatedExample ++ "\x7d]\x7d".data) = .ok truncatedExampleValue :=
  ⟨by decide, by rfl, by rfl, by rfl⟩

/-! ## Round trip through `JSON.stringify` (C4, C5) -/

theorem parseStringBody_plain (c : Char) (rest : List Char) (h1 : c ≠ '"') (h2 : c ≠ '\\')
    (h3 : ¬ c.toNat < 32) :
    parseStringBody (c :: rest) = (parseStringBody rest).map (fun p => (c :: p.1, p.2)) := by
  rw [parseStringBody]
  · simp only [h3, if_false]
    cases parseStringBody rest with
    | none => rfl
    | some p => rfl
  all_goals simp_all

theorem parseStringBody_simple (e d : Char) (rest : List Char) (hu : e ≠ 'u')
    (hd : (if e = '"' then some '"' else if e = '\\' then some '\\' else if e = '/' then some '/'
      else if e = 'b' then some (Char.ofNat 8) else if e = 'f' then some (Char.ofNat 12)
      else if e = 'n' then some '\n' else if e = 'r' then some '\r'
      else if e = 't' then some '\t' else none) = some d) :
    parseStringBody ('\\' :: e :: rest) = (parseStringBody rest).map (fun p => (d :: p.1, p.2)) := by
  rw [parseStringBody]
  · simp only [hd]
    cases parseStringBody rest with
    | none => rfl
    | some p => rfl
  · intro a b c d' r h _
    exact hu h

theorem parseStringBody_unicode (a b : Char) (ch : Char) (rest : List Char)
    (h : unicodeEscape '0' '0' a b = some ch) :
    parseStringBody ('\\' :: 'u' :: '0' :: '0' :: a :: b :: rest) =
      (parseStringBody rest).map (fun p => (ch :: p.1, p.2)) := by
  rw [parseStringBody, h]
  cases parseStringBody rest with
  | none => rfl
  | some p => rfl

theorem unicodeEscape_control (n : Nat) (h : n < 32) :
    unicodeEscape '0' '0' (hexDigit (n / 16)) (hexDigit (n % 16)) = some (Char.ofNat n) := by
  interval_cases n <;> rfl

theorem parseStringBody_escapeChar (c : Char) (rest : List Char) :
    parseStringBody (escapeChar c ++ rest) =
      (parseStringBody rest).map (fun p => (c :: p.1, p.2)) := by
  unfold escapeChar
  split_ifs with h1 h2 h3 h4 h5 h6 h7 h8
  · subst h1; exact parseStringBody_simple '"' '"' rest (by decide) (by decide)
  · subst h2; exact parseStringBody_simple '\\' '\\' rest (by decide) (by decide)
  · subst h3; exact parseStringBody_simple 'b' _ rest (by decide) (by decide)
  · subst h4; exact parseStringBody_simple 'f' _ rest (by decide) (by decide)
  · subst h5; exact parseStringBody_simple 'n' _ rest (by decide) (by decide)
  · subst h6; exact parseStringBody_simple 'r' _ rest (by decide) (by decide)
  · subst h7; exact parseStringBody_simple 't' _ rest (by decide) (by decide)
  · have := parseStringBody_unicode _ _ _ rest (unicodeEscape_control c.toNat h8)
    simp only [List.cons_append, List.nil_append]
    rw [this]
    have hc : Char.ofNat c.toNat = c := by
      simp [Char.ofNat_toNat]
    rw [hc]
  · exact parseStringBody_plain c rest h1 h2 h8

theorem parseStringBody_escapeString (s : List Char) (rest : List Char) :
    parseStringBody (escapeString s ++ '"' :: rest) = some (s, rest) := by
  induction s with
  | nil => simp [escapeString, parseStringBody]
  | cons c cs ih =>
    have : escapeString (c :: cs) ++ '"' :: rest = escapeChar c ++ (escapeString cs ++ '"' :: rest) := by
      simp [escapeString]
    rw [this, parseStringBody_escapeChar, ih]
    rfl

theorem skipWs_cons_of_not_space (c : Char) (t : List Char) (h : isJsonSpace c = false) :
    skipWs (c :: t) = c :: t := by
  simp [skipWs, List.dropWhile, h]

theorem stringify_head (v : Json) (h : numFree v = true) :
    ∃ c t, jsonStringify v = c :: t ∧ isJsonSpace c = false ∧ c ≠ ']' := by
  cases v with
  | null => exact ⟨'n', _, rfl, by decide, by decide⟩
  | bool b =>
    cases b
    · exact ⟨'f', _, rfl, by decide, by decide⟩
    · exact ⟨'t', _, rfl, by decide, by decide⟩
  | num n m e => simp [numFree] at h
  | str s => exact ⟨'"', _, rfl, by decide, by decide⟩
  | arr xs => exact ⟨'[', stringifyElements xs ++ [']'], by rw [jsonStringify]; rfl, by decide, by decide⟩
  | obj ms =>
    exact ⟨'{', stringifyMembers ms ++ ['}'], by rw [jsonStringify]; rfl, by decide, by decide⟩

theorem parseValue_string (f : Nat) (s rest : List Char) :
    parseValue (f + 1) ('"' :: (escapeString s ++ '"' :: rest)) = some (.str s, rest) := by
  rw [parseValue, skipWs_cons_of_not_space _ _ (by decide)]
  simp only [parseStringBody_escapeString]
  rfl

theorem parseValue_open_bracket (f : Nat) (d : Char) (r : List Char)
    (hsp : isJsonSpace d = false) (hd : d ≠ ']') :
    parseValue (f + 1) ('[' :: d :: r) =
      (parseElements f (d :: r)).map (fun p => (.arr p.1, p.2)) := by
  rw [parseValue, skipWs_cons_of_not_space _ _ (by decide)]
  simp only [skipWs_cons_of_not_space _ _ hsp, if_neg hd]
  cases parseElements f (d :: r) with
  | none => rfl
  | some p => rfl

theorem parseValue_open_brace (f : Nat) (r : List Char) :
    parseValue (f + 1) ('{' :: '"' :: r) =
      (parseMembers f ('"' :: r)).map (fun p => (.obj p.1, p.2)) := by
  rw [parseValue, skipWs_cons_of_not_space _ _ (by decide)]
  simp only [skipWs_cons_of_not_space _ _ (by decide : isJsonSpace '"' = false)]
  cases parseMembers f ('"' :: r) with
  | none => rfl
  | some p => rfl

theorem parseElements_step (f : Nat) (s r : List Char) (v : Json) (d : Char)
    (hv : parseValue f s = some (v, d :: r)) (hsp : isJsonSpace d = false) :
    parseElements (f + 1) s =
      if d = ',' then (parseElements f r).map (fun p => (v :: p.1, p.2))
      else if d = ']' then some ([v], r) else none := by
  rw [parseElements, hv]
  simp only [skipWs_cons_of_not_space _ _ hsp]
  split_ifs
  · cases parseElements f r with
    | none => rfl
    | some p => rfl
  · rfl
  · rfl

theorem parseMembers_step (f : Nat) (k r : List Char) (v : Json) (d : Char) (r2 : List Char)
    (hv : parseValue f r = some (v, d :: r2)) (hsp : isJsonSpace d = false) :
    parseMembers (f + 1) ('"' :: (escapeString k ++ '"' :: ':' :: r)) =
      if d = ',' then (parseMembers f r2).map (fun p => ((k, v) :: p.1, p.2))
      else if d = '}' then some ([(k, v)], r2) else none := by
  rw [parseMembers, skipWs_cons_of_not_space _ _ (by decide)]
  simp only [parseStringBody_escapeString, if_true,
    skipWs_cons_of_not_space _ _ (by decide : isJsonSpace ':' = false), hv,
    skipWs_cons_of_not_space _ _ hsp]
  split_ifs
  · cases parseMembers f r2 with
    | none => rfl
    | some p => rfl
  · rfl
  · rfl

mutual
theorem parseValue_stringify : ∀ (v : Json), numFree v = true → ∀ (fuel : Nat),
    parseCost v ≤ fuel → ∀ rest, parseValue fuel (jsonStringify v ++ rest) = some (v, rest)
  | .null, _, fuel, hf, rest => by
    cases fuel with
    | zero => simp [parseCost] at hf
    | succ f => rfl
  | .bool b, _, fuel, hf, rest => by
    cases fuel with
    | zero => simp [parseCost] at hf
    | succ f => cases b <;> rfl
  | .num n m e, h, _, _, _ => by simp [numFree] at h
  | .str s, _, fuel, hf, rest => by
    cases fuel with
    | zero => simp [parseCost] at hf
    | succ f =>
      have hs : jsonStringify (.str s) ++ rest = '"' :: (escapeString s ++ '"' :: rest) := by
        simp [jsonStringify, quoteString]
      rw [hs, parseValue_string]
  | .arr xs, h, fuel, hf, rest => by
    cases fuel with
    | zero => simp [parseCost] at hf
    | succ f =>
      have hs : jsonStringify (.arr xs) ++ rest = '[' :: (stringifyElements xs ++ ']' :: rest) := by
        simp [jsonStringify]
      rw [hs]
      cases xs with
      | nil =>
        simp only [stringifyElements, List.nil_append]
        rw [parseValue, skipWs_cons_of_not_space _ _ (by decide)]
        simp only [skipWs_cons_of_not_space _ _ (by decide : isJsonSpace ']' = false)]
        rfl
      | cons x xs' =>
        have he := parseElements_stringify (x :: xs') (by simp) (by simpa [numFree] using h) f
          (by simp only [parseCost] at hf; omega) rest
        have hx : numFree x = true := by
          simp only [numFree, numFreeList, Bool.and_eq_true] at h; exact h.1
        obtain ⟨c, t, hc, hsp, hne⟩ := stringify_head x hx
        have hr : ∃ t', stringifyElements (x :: xs') ++ ']' :: rest = c :: t' := by
          cases xs' with
          | nil => exact ⟨t ++ ']' :: rest, by simp [stringifyElements, hc]⟩
          | cons y ys =>
            exact ⟨t ++ ',' :: (stringifyElements (y :: ys) ++ ']' :: rest),
              by simp [stringifyElements, hc]⟩
        obtain ⟨t', ht'⟩ := hr
        rw [ht'] at he ⊢
        rw [parseValue_open_bracket f c t' hsp hne, he]
        rfl
  | .obj ms, h, fuel, hf, rest => by
    cases fuel with
    | zero => simp [parseCost] at hf
    | succ f =>
      have hs : jsonStringify (.obj ms) ++ rest = '{' :: (stringifyMembers ms ++ '}' :: rest) := by
        simp [jsonStringify]
      rw [hs]
      cases ms with
      | nil =>
        simp only [stringifyMembers, List.nil_append]
        rw [parseValue, skipWs_cons_of_not_space _ _ (by decide)]
        simp only [skipWs_cons_of_not_space _ _ (by decide : isJsonSpace '}' = false)]
        rfl
      | cons kv ms' =>
        have he := parseMembers_stringify (kv :: ms') (by simp) (by simpa [numFree] using h) f
          (by simp only [parseCost] at hf; omega) rest
        have hr : ∃ t', stringifyMembers (kv :: ms') ++ '}' :: rest = '"' :: t' := by
          obtain ⟨k, v⟩ := kv
          cases ms' with
          | nil =>
            exact ⟨escapeString k ++ '"' :: ':' :: (jsonStringify v ++ '}' :: rest),
              by simp [stringifyMembers, quoteString]⟩
          | cons y ys =>
            exact ⟨escapeString k ++ '"' :: ':' :: (jsonStringify v ++
                ',' :: (stringifyMembers (y :: ys) ++ '}' :: rest)),
              by simp [stringifyMembers, quoteString]⟩
        obtain ⟨t', ht'⟩ := hr
        rw [ht'] at he ⊢
        rw [parseValue_open_brace, he]
        rfl
theorem parseElements_stringify : ∀ (xs : List Json), xs ≠ [] → numFreeList xs = true →
    ∀ (fuel : Nat), elementsCost xs ≤ fuel → ∀ rest,
      parseElements fuel (stringifyElements xs ++ ']' :: rest) = some (xs, rest)
  | [], hne, _, _, _, _ => absurd rfl hne
  | [x], _, h, fuel, hf, rest => by
    cases fuel with
    | zero => simp [elementsCost] at hf
    | succ f =>
      have hx : numFree x = true := by
        simp only [numFreeList, Bool.and_eq_true] at h; exact h.1
      have hv := parseValue_stringify x hx f (by simp only [elementsCost] at hf; omega)
        (']' :: rest)
      simp only [stringifyElements]
      rw [parseElements_step f _ _ _ _ hv (by decide)]
      rfl
  | x :: y :: ys, _, h, fuel, hf, rest => by
    cases fuel with
    | zero => simp [elementsCost] at hf
    | succ f =>
      have hx : numFree x = true := by
        simp only [numFreeList, Bool.and_eq_true] at h; exact h.1
      have hys : numFreeList (y :: ys) = true := by
        simp only [numFreeList, Bool.and_eq_true] at h ⊢; exact h.2
      have hv := parseValue_stringify x hx f (by simp only [elementsCost] at hf ⊢; omega)
        (',' :: (stringifyElements (y :: ys) ++ ']' :: rest))
      have he := parseElements_stringify (y :: ys) (by simp) hys f
        (by simp only [elementsCost] at hf ⊢; omega) rest
      have hs : stringifyElements (x :: y :: ys) ++ ']' :: rest =
          jsonStringify x ++ ',' :: (stringifyElements (y :: ys) ++ ']' :: rest) := by
        simp [stringifyElements]
      rw [hs, parseElements_step f _ _ _ _ hv (by decide), he]
      rfl
theorem parseMembers_stringify : ∀ (ms : List (List Char × Json)), ms ≠ [] →
    numFreeMembers ms = true → ∀ (fuel : Nat), membersCost ms ≤ fuel → ∀ rest,
      parseMembers fuel (stringifyMembers ms ++ '}' :: rest) = some (ms, rest)
  | [], hne, _, _, _, _ => absurd rfl hne
  | [(k, v)], _, h, fuel, hf, rest => by
    cases fuel with
    | zero => simp [membersCost] at hf
    | succ f =>
      have hx : numFree v = true := by
        simp only [numFreeMembers, Bool.and_eq_true] at h; exact h.1
      have hv := parseValue_stringify v hx f (by simp only [membersCost] at hf; omega)
        ('}' :: rest)
      have hs : stringifyMembers [(k, v)] ++ '}' :: rest =
          '"' :: (escapeString k ++ '"' :: ':' :: (jsonStringify v ++ '}' :: rest)) := by
        simp [stringifyMembers, quoteString]
      rw [hs, parseMembers_step f k _ v _ _ hv (by decide)]
      rfl
  | (k, v) :: kv :: ms', _, h, fuel, hf, rest => by
    cases fuel with
    | zero => simp [membersCost] at hf
    | succ f =>
      have hx : numFree v = true := by
        simp only [numFreeMembers, Bool.and_eq_true] at h; exact h.1
      have hms : numFreeMembers (kv :: ms') = true := by
        simp only [numFreeMembers, Bool.and_eq_true] at h ⊢; exact h.2
      have hv := parseValue_stringify v hx f (by simp only [membersCost] at hf ⊢; omega)
        (',' :: (stringifyMembers (kv :: ms') ++ '}' :: rest))
      have he := parseMembers_stringify (kv :: ms') (by simp) hms f
        (by simp only [membersCost] at hf ⊢; omega) rest
      have hs : stringifyMembers ((k, v) :: kv :: ms') ++ '}' :: rest =
          '"' :: (escapeString k ++ '"' :: ':' :: (jsonStringify v ++
            ',' :: (stringifyMembers (kv :: ms') ++ '}' :: rest))) := by
        simp [stringifyMembers, quoteString]
      rw [hs, parseMembers_step f k _ v _ _ hv (by decide), he]
      rfl
end

mutual
theorem parseCost_le : ∀ (v : Json), 1 ≤ (jsonStringify v).length ∧
    parseCost v ≤ (jsonStringify v).length
  | .null => by decide
  | .bool b => by cases b <;> decide
  | .num n m e => by
    simp only [parseCost, jsonStringify, List.length_append, List.length_cons]
    omega
  | .str s => by
    simp only [parseCost, jsonStringify, quoteString, List.length_append, List.length_cons,
      List.length_nil]
    omega
  | .arr xs => by
    have := elementsCost_le xs
    simp only [parseCost, jsonStringify, List.length_append, List.length_cons, List.length_nil]
    omega
  | .obj ms => by
    have := membersCost_le ms
    simp only [parseCost, jsonStringify, List.length_append, List.length_cons, List.length_nil]
    omega
theorem elementsCost_le : ∀ (xs : List Json),
    elementsCost xs ≤ (stringifyElements xs).length + 1
  | [] => by simp [elementsCost]
  | [x] => by
    have := parseCost_le x
    simp only [elementsCost, stringifyElements]
    omega
  | x :: y :: ys => by
    have h1 := parseCost_le x
    have h2 := elementsCost_le (y :: ys)
    simp only [stringifyElements, List.length_append, List.length_cons]
    rw [elementsCost]
    omega
theorem membersCost_le : ∀ (ms : List (List Char × Json)),
    membersCost ms ≤ (stringifyMembers ms).length + 1
  | [] => by simp [membersCost]
  | [(k, v)] => by
    have := parseCost_le v
    simp only [membersCost, stringifyMembers, quoteString, List.length_append, List.length_cons]
    omega
  | (k, v) :: kv :: ms' => by
    have h1 := parseCost_le v
    have h2 := membersCost_le (kv :: ms')
    simp only [stringifyMembers, quoteString, List.length_append, List.length_cons]
    rw [membersCost]
    omega
end

theorem jsonParse_stringify (v : Json) (h : numFree v = true) :
    jsonParse (jsonStringify v) = .ok v := by
  have hp := parseValue_stringify v h (2 * (jsonStringify v).length + 2)
    (by have := (parseCost_le v).2; omega) []
  rw [List.append_nil] at hp
  unfold jsonParse
  rw [hp]
  rfl

theorem upToLastBrace_none (post : List Char) (h : '}' ∉ post) : upToLastBrace post = none := by
  induction post with
  | nil => rfl
  | cons c cs ih =>
    have hc : c ≠ '}' := fun e => h (e ▸ List.mem_cons_self _ _)
    have := ih (fun hm => h (List.mem_cons_of_mem _ hm))
    simp [upToLastBrace, this, hc]

theorem upToLastBrace_wrapped (body post : List Char) (h : '}' ∉ post) :
    upToLastBrace (body ++ '}' :: post) = some (body ++ ['}']) := by
  induction body with
  | nil => simp [upToLastBrace, upToLastBrace_none post h]
  | cons c cs ih => simp [upToLastBrace, ih]

theorem matchObject_wrapped (pre body post : List Char) (hpre : '{' ∉ pre) (hpost : '}' ∉ post) :
    matchObject (pre ++ '{' :: (body ++ '}' :: post)) = some ('{' :: (body ++ ['}'])) := by
  have hd : (pre ++ '{' :: (body ++ '}' :: post)).dropWhile (fun c => c ≠ '{') =
      '{' :: (body ++ '}' :: post) := by
    induction pre with
    | nil => simp [List.dropWhile]
    | cons c cs ih =>
      have hc : c ≠ '{' := fun e => hpre (e ▸ List.mem_cons_self _ _)
      simp only [List.cons_append, List.dropWhile, hc, ne_eq, not_false_eq_true, decide_True]
      exact ih (fun hm => hpre (List.mem_cons_of_mem _ hm))
  unfold matchObject
  rw [hd]
  simp only [upToLastBrace_wrapped body post hpost, Option.map_some']

theorem validateAction_of (fields : List (List Char × Json))
    (h1 : truthy (lookup "type".data fields) = true)
    (h2 : truthy (lookup "path".data fields) = true)
    (h3 : needsContent (lookup "type".data fields) = true →
      truthy (lookup "content".data fields) = true) :
    validateAction (.obj fields) = .ok () := by
  simp only [validateAction, getProp, h1, h2, Bool.not_true, Bool.false_eq_true, if_false]
  by_cases hn : needsContent (lookup "type".data fields) = true
  · simp [hn, h3 hn]
  · simp [hn]

theorem validateParsed_of (v : Json) (h : Validated v) : validateParsed v = .ok () := by
  obtain ⟨members, actions, rfl, ha, hact, hall⟩ := h
  simp only [validateParsed, getProp, ha, hact, Bool.not_true, Bool.false_eq_true, if_false]
  clear hact
  induction actions with
  | nil => rfl
  | cons a rest ih =>
    obtain ⟨fields, rfl, h1, h2, h3⟩ := hall _ (List.mem_cons_self _ _)
    unfold validateActions
    rw [validateAction_of fields h1 h2 h3]
    exact ih (fun b hb => hall b (List.mem_cons_of_mem _ hb))

theorem parseText_of_object (text : List Char) (v : Json) (hv : Validated v)
    (hn : numFree v = true) (he : extractJsonText text = jsonStringify v) :
    parseAIResponse (.str text) = .ok (some v) := by
  have hr : runStrategies (extractJsonText text) strategies = .ok v := by
    rw [he]
    simp only [strategies, runStrategies, jsonParse_stringify v hn]
  simp only [parseAIResponse, parseAIResponseTry, parseText, hr, validateParsed_of v hv]

/-- C4. For every well-formed response object (validated shape, made of
strings, booleans, `null`, arrays and objects), parsing its serialisation
returns that same object, whatever characters its strings contain. -/
theorem parseAIResponse_roundtrip (v : Json) (hv : Validated v) (hn : numFree v = true) :
    parseAIResponse (.str (jsonStringify v)) = .ok (some v) := by
  apply parseText_of_object _ v hv hn
  obtain ⟨members, _, rfl, _⟩ := hv
  have hs : jsonStringify (.obj members) = [] ++ '{' :: (stringifyMembers members ++ '}' :: []) := by
    rw [jsonStringify]; rfl
  unfold extractJsonText
  rw [hs, matchObject_wrapped [] _ [] (by simp) (by simp)]
  rfl

/-- Witness for C4: a response whose content holds quotes, braces, a code
fence and commas before closing brackets. -/
theorem parseAIResponse_roundtrip_witness :
    Validated trickyResponse ∧ numFree trickyResponse = true ∧
    parseAIResponse (.str (jsonStringify trickyResponse)) = .ok (some trickyResponse) :=
  have hv : Validated trickyResponse :=
    ⟨_, _, rfl, by decide, rfl, fun a ha => by
      rw [List.mem_singleton.1 ha]
      exact ⟨_, rfl, by decide, by decide, fun _ => by decide⟩⟩
  ⟨hv, by decide, parseAIResponse_roundtrip trickyResponse hv (by decide)⟩

set_option maxRecDepth 100000 in
/-- C5, evaluation at a failing input: the well-formed response
`sampleResponse`, fenced, with the prose `Here {x}: ` before it. The fence
pattern captures exactly the serialisation, and that text alone parses back
to the response; but the object match then runs on the whole response,
starts at the brace of the prose and replaces the capture, no strategy can
parse that text, and `parseAIResponse` returns the fallback instead of the
response. -/
theorem fenced_with_braces_in_prose :
    Validated sampleResponse ∧
    matchFence (fenced "Here \x7bx\x7d: ".data sampleResponse " done".data) =
      some (jsonStringify sampleResponse) ∧
    parseAIResponse (.str (jsonStringify sampleResponse)) = .ok (some sampleResponse) ∧
    extractJsonText (fenced "Here \x7bx\x7d: ".data sampleResponse " done".data) =
      "\x7bx\x7d: ".data ++ fence ++ "json\n".data ++ jsonStringify sampleResponse ∧
    parseAIResponse (.str (fenced "Here \x7bx\x7d: ".data sampleResponse " done".data)) =
      .ok (some (fallbackResponse "Unexpected token in JSON"
        (fenced "Here \x7bx\x7d: ".data sampleResponse " done".data))) ∧
    parseAIResponse (.str (fenced "Here \x7bx\x7d: ".data sampleResponse " done".data)) ≠
      .ok (some sampleResponse) :=
  ⟨⟨_, _, rfl, by decide, rfl, fun a ha => by simp at ha⟩, by decide, by rfl, by decide, by rfl,
    fun h => absurd (congrArg explanationOf h) (by decide)⟩

/-- Fenced responses whose prose keeps clear of braces: for every well-formed
response object, when its serialisation is wrapped in a `json` code fence and
surrounded by prose such that no `{` occurs before the fence and no `}` after
it, the object match and the fence capture delimit the same object and
`parseAIResponse` returns the original object. -/
theorem parseAIResponse_fenced (v : Json) (hv : Validated v) (hn : numFree v = true)
    (before after : List Char) (hb : '{' ∉ before) (ha : '}' ∉ after) :
    parseAIResponse (.str (fenced before v after)) = .ok (some v) := by
  apply parseText_of_object _ v hv hn
  obtain ⟨members, _, rfl, _⟩ := hv
  have hs : fenced before (.obj members) after =
      (before ++ fence ++ "json\n".data) ++
        '{' :: (stringifyMembers members ++ '}' :: ('\n' :: fence ++ after)) := by
    unfold fenced
    rw [jsonStringify]
    simp
  have hpre : '{' ∉ before ++ fence ++ "json\n".data := by
    intro hm
    rcases List.mem_append.1 hm with h1 | h1
    · rcases List.mem_append.1 h1 with h2 | h2
      · exact hb h2
      · revert h2; decide
    · revert h1; decide
  have hpost : '}' ∉ '\n' :: fence ++ after := by
    intro hm
    rcases List.mem_cons.1 hm with h1 | h1
    · revert h1; decide
    · rcases List.mem_append.1 h1 with h2 | h2
      · revert h2; decide
      · exact ha h2
  unfold extractJsonText
  rw [hs, matchObject_wrapped _ _ _ hpre hpost, jsonStringify]
  rfl

/-- Instance of the fenced round trip: the sample response, fenced, between
two sentences without braces. -/
theorem parseAIResponse_fenced_witness :
    Validated sampleResponse ∧ numFree sampleResponse = true ∧
    parseAIResponse (.str (fenced "Here is the plan:\n".data sampleResponse "\nDone.".data)) =
      .ok (some sampleResponse) :=
  have hv : Validated sampleResponse :=
    ⟨_, _, rfl, by decide, rfl, fun a ha => by simp at ha⟩
  ⟨hv, by decide,
    parseAIResponse_fenced sampleResponse hv (by decide) _ _ (by decide) (by decide)⟩

end Agent

namespace Agent

/-! ## Provider failure in `processRequest` (C15) -/

/-- C15 (counterexample). With a provider call that runs into the timeout,
`processRequest` returns `success: true` and no `error`; the timeout message
only appears inside `analysis`. No file is touched. -/
theorem processRequest_timeout_reports_success :
    (processRequest SafetyManager.memEnv (SafetyManager.Manager.new SafetyManager.memEnv "ws")
        SafetyManager.sampleWorld timedOutRequest).2.success? = some true ∧
    (processRequest SafetyManager.memEnv (SafetyManager.Manager.new SafetyManager.memEnv "ws")
        SafetyManager.sampleWorld timedOutRequest).2.error? = none ∧
    (processRequest SafetyManager.memEnv (SafetyManager.Manager.new SafetyManager.memEnv "ws")
        SafetyManager.sampleWorld timedOutRequest).2.analysis? =
      some "Failed to get AI analysis: AI service timeout - response too large or slow".data ∧
    (processRequest SafetyManager.memEnv (SafetyManager.Manager.new SafetyManager.memEnv "ws")
        SafetyManager.sampleWorld timedOutRequest).1.2 = SafetyManager.sampleWorld := by
  decide

theorem executeOperationsWithDiff_nil {σ : Type} (env : SafetyManager.Env σ)
    (m : SafetyManager.Manager) (w : σ) (relevantFiles : List String) (approved : Bool) :
    executeOperationsWithDiff env m w [] relevantFiles approved =
      ((SafetyManager.setScopedFiles m relevantFiles, w), []) := by
  simp [executeOperationsWithDiff, SafetyManager.executeActionsSafely,
    SafetyManager.validateActions, SafetyManager.Validation.init, SafetyManager.diffThrows,
    SafetyManager.executeLoop, SafetyManager.scopeFor]

/-- C15 (amended). If the provider call fails or exceeds the timeout with
message `msg`, `callAIService` returns a fallback response and
`processRequest` applies no file mutation and leaves the undo stack as it
was; when the session update succeeds it returns `success: true` with
`analysis` equal to `Failed to get AI analysis: msg`, no executed action and
no `error` field (when the session update throws, it returns
`success: false` with that exception's message). -/
theorem processRequest_provider_failure {σ : Type} (env : SafetyManager.Env σ)
    (m : SafetyManager.Manager) (w : σ) (p : Pipeline) (relevantFiles : List String)
    (msg : String) (hprep : p.prepare = .ok relevantFiles)
    (hfail : p.aiService = some (.error msg)) :
    (processRequest env m w p).1.2 = w ∧
    (processRequest env m w p).1.1.undoStack = m.undoStack ∧
    (p.updateSession = .ok () →
      (processRequest env m w p).2 = .returned
        { success := true
          analysis := some (.str ("Failed to get AI analysis: ".data ++ msg.data))
          actions := []
          explanation := some (.str
            "AI service unavailable. Generated basic actions based on request analysis.".data)
          error := none }) ∧
    (∀ e, p.updateSession = .error e → (processRequest env m w p).2 = failure e) := by
  have hresp : generateAIResponse p =
      .obj [ ("analysis".data, .str ("Failed to get AI analysis: ".data ++ msg.data)),
             ("actions".data, .arr []),
             ("explanation".data, .str
               "AI service unavailable. Generated basic actions based on request analysis.".data) ] := by
    simp [generateAIResponse, callAIService, hfail, generateFallbackActions]
  have hparse : parseAIResponse (generateAIResponse p) = .ok (some (generateAIResponse p)) := by
    rw [hresp]
    simp [parseAIResponse, parseAIResponseTry, lookup, truthy]
  have hact : getProp (generateAIResponse p) "actions" = .ok (some (.arr [])) := by
    rw [hresp]; rfl
  have han : getProp (generateAIResponse p) "analysis" =
      .ok (some (.str ("Failed to get AI analysis: ".data ++ msg.data))) := by
    rw [hresp]; rfl
  have hex : getProp (generateAIResponse p) "explanation" = .ok (some (.str
      "AI service unavailable. Generated basic actions based on request analysis.".data)) := by
    rw [hresp]; rfl
  unfold processRequest
  simp only [hprep, hparse, hact, han, hex, toActions, executeOperationsWithDiff_nil]
  cases hu : p.updateSession with
  | error e => simp [SafetyManager.setScopedFiles]
  | ok u => simp [SafetyManager.setScopedFiles]

/-- Witness for C15 (amended): the timed-out request on the sample world. -/
theorem processRequest_provider_failure_witness :
    timedOutRequest.prepare = .ok ["a.txt"] ∧
    timedOutRequest.aiService = some (.error timeoutMessage) ∧
    (processRequest SafetyManager.memEnv (SafetyManager.Manager.new SafetyManager.memEnv "ws")
        SafetyManager.sampleWorld timedOutRequest).1.2 = SafetyManager.sampleWorld :=
  ⟨rfl, rfl,
    (processRequest_provider_failure SafetyManager.memEnv
      (SafetyManager.Manager.new SafetyManager.memEnv "ws") SafetyManager.sampleWorld
      timedOutRequest ["a.txt"] timeoutMessage rfl rfl).1⟩

end Agent

namespace Agent

/-! ## Completion of truncated JSON (C26) -/

theorem foldl_scanStep_brackets (n : Nat) (st : Scan) (hs : st.inString = false)
    (he : st.escapeNext = false) :
    (List.replicate n ']').foldl scanStep st =
      { st with bracketCount := st.bracketCount - n } := by
  induction n generalizing st with
  | zero => simp
  | succ n ih =>
    rw [List.replicate_succ, List.foldl_cons]
    have h1 : scanStep st ']' = { st with bracketCount := st.bracketCount - 1 } := by
      simp [scanStep, hs, he]
    rw [h1, ih _ (by exact hs) (by exact he)]
    simp only [Scan.mk.injEq, and_true, true_and]
    push_cast
    omega

theorem foldl_scanStep_braces (n : Nat) (st : Scan) (hs : st.inString = false)
    (he : st.escapeNext = false) :
    (List.replicate n '}').foldl scanStep st =
      { st with braceCount := st.braceCount - n } := by
  induction n generalizing st with
  | zero => simp
  | succ n ih =>
    rw [List.replicate_succ, List.foldl_cons]
    have h1 : scanStep st '}' = { st with braceCount := st.braceCount - 1 } := by
      simp [scanStep, hs, he]
    rw [h1, ih _ (by exact hs) (by exact he)]
    simp only [Scan.mk.injEq, and_true, true_and]
    push_cast
    omega

/-- C26, counterexample: the text `{"a": ["b` does not end with `}` and has
the non-negative tallies 1 and 1; the completion appends two closers, but
these land inside the open string literal, so the scan of the completed text
still finds one unclosed brace and one unclosed bracket. For the text `[1,`
followed by a backslash the appended closer is skipped as an escaped
character and one bracket stays unclosed. For the text `[{} ` (last character
a blank) the step looks at the trimmed text, sees `}` and appends nothing,
although one bracket is unclosed. -/
theorem completion_inside_string_unbalanced :
    (Js.trim cutInsideString).getLast? ≠ some '}' ∧
    (scan cutInsideString).braceCount = 1 ∧ (scan cutInsideString).bracketCount = 1 ∧
    (completeTruncated cutInsideString).length = cutInsideString.length + 2 ∧
    (scan (completeTruncated cutInsideString)).braceCount = 1 ∧
    (scan (completeTruncated cutInsideString)).bracketCount = 1 ∧
    (Js.trim cutAfterBackslash).getLast? ≠ some '}' ∧
    (scan cutAfterBackslash).braceCount = 0 ∧ (scan cutAfterBackslash).bracketCount = 1 ∧
    completeTruncated cutAfterBackslash = cutAfterBackslash ++ [']'] ∧
    (scan (completeTruncated cutAfterBackslash)).bracketCount = 1 ∧
    cutBeforeBlank.getLast? ≠ some '}' ∧
    (scan cutBeforeBlank).braceCount = 0 ∧ (scan cutBeforeBlank).bracketCount = 1 ∧
    completeTruncated cutBeforeBlank = cutBeforeBlank ∧
    (scan (completeTruncated cutBeforeBlank)).bracketCount = 1 := by
  decide

/-- The completion step on a text whose trimmed form does not end with `}`
and whose scan ends outside a string literal and not right after a
backslash: the closers computed by the scan are appended and bring both
tallies to zero. -/
theorem completeTruncated_closers (text : List Char)
    (hlast : (Js.trim text).getLast? ≠ some '}')
    (hbrace : 0 ≤ (scan text).braceCount) (hbracket : 0 ≤ (scan text).bracketCount)
    (hs : (scan text).inString = false) (he : (scan text).escapeNext = false) :
    completeTruncated text = text ++ closers (scan text) ∧
      (scan (completeTruncated text)).braceCount = 0 ∧
      (scan (completeTruncated text)).bracketCount = 0 := by
  have hc : completeTruncated text = text ++ closers (scan text) := by
    simp [completeTruncated, hlast]
  have hscan : scan (completeTruncated text) =
      { scan text with
        bracketCount := (scan text).bracketCount - ((scan text).bracketCount.toNat : Int)
        braceCount := (scan text).braceCount - ((scan text).braceCount.toNat : Int) } := by
    rw [hc]
    show List.foldl scanStep _ (text ++ closers (scan text)) = _
    rw [List.foldl_append]
    show List.foldl scanStep (scan text) (closers (scan text)) = _
    rw [closers, List.foldl_append, foldl_scanStep_brackets _ _ hs he,
      foldl_scanStep_braces _ _ (by exact hs) (by exact he)]
  refine ⟨hc, ?_, ?_⟩
  · rw [hscan]
    show (scan text).braceCount - ((scan text).braceCount.toNat : Int) = 0
    omega
  · rw [hscan]
    show (scan text).bracketCount - ((scan text).bracketCount.toNat : Int) = 0
    omega

/-- C26, amended: for every text whose trimmed form does not end with `}`,
whose tallies of unclosed braces and brackets are non-negative and whose scan
ends outside a string literal and not right after a backslash, the completion
step appends only characters `]` and `}`, exactly as many of each as the
tallies say, and the scan of the completed text finds zero unclosed braces
and zero unclosed brackets. -/
theorem completeTruncated_balanced (text : List Char)
    (hlast : (Js.trim text).getLast? ≠ some '}')
    (hbrace : 0 ≤ (scan text).braceCount) (hbracket : 0 ≤ (scan text).bracketCount)
    (hs : (scan text).inString = false) (he : (scan text).escapeNext = false) :
    ∃ added : List Char, completeTruncated text = text ++ added ∧
      (∀ c ∈ added, c = ']' ∨ c = '}') ∧
      added.count ']' = (scan text).bracketCount.toNat ∧
      added.count '}' = (scan text).braceCount.toNat ∧
      (scan (completeTruncated text)).braceCount = 0 ∧
      (scan (completeTruncated text)).bracketCount = 0 := by
  obtain ⟨hc, h1, h2⟩ := completeTruncated_closers text hlast hbrace hbracket hs he
  refine ⟨closers (scan text), hc, ?_, ?_, ?_, h1, h2⟩
  · intro c hc'
    unfold closers at hc'
    rcases List.mem_append.1 hc' with h | h
    · exact Or.inl (List.eq_of_mem_replicate h)
    · exact Or.inr (List.eq_of_mem_replicate h)
  · unfold closers
    rw [List.count_append, List.count_replicate_self, List.count_replicate]
    simp
  · unfold closers
    rw [List.count_append, List.count_replicate_self, List.count_replicate]
    simp

/-- Witness for C26: the text `{"a": [1, 2`. -/
theorem completeTruncated_balanced_witness :
    ∃ added : List Char, completeTruncated cutBetweenElements = cutBetweenElements ++ added ∧
      (∀ c ∈ added, c = ']' ∨ c = '}') ∧
      added.count ']' = 1 ∧ added.count '}' = 1 ∧
      (scan (completeTruncated cutBetweenElements)).braceCount = 0 ∧
      (scan (completeTruncated cutBetweenElements)).bracketCount = 0 :=
  completeTruncated_balanced cutBetweenElements (by decide) (by decide) (by decide)
    (by decide) (by decide)

end Agent

namespace Agent

/-! ## Structured responses bypass the validation (C29) -/

/-- C29: when `parseAIResponse` is given an object with a truthy `analysis`
member instead of a string, it returns that same object, whatever its other
members are: neither the parsing strategies nor the validation of `actions`
run on it. -/
theorem parseAIResponse_structured_passthrough (members : List (List Char × Json))
    (h : truthy (lookup "analysis".data members) = true) :
    parseAIResponse (.obj members) = .ok (some (.obj members)) := by
  simp [parseAIResponse, parseAIResponseTry, h]

/-- Witness for C29: the validation block rejects the response whose
`create_file` action has no `content`, yet `parseAIResponse` returns that
response as it is. -/
theorem parseAIResponse_structured_passthrough_witness :
    validateParsed createWithoutContent =
        .error "Invalid action: create_file requires content" ∧
      parseAIResponse createWithoutContent = .ok (some createWithoutContent) :=
  ⟨rfl, parseAIResponse_structured_passthrough _ rfl⟩

/-- A structured response whose `actions` member is not an array is rejected
by the validation block and returned as it is by `parseAIResponse`. -/
theorem actionsNotArray_passthrough :
    validateParsed actionsNotArray =
        .error "Missing or invalid actions array in AI response" ∧
      parseAIResponse actionsNotArray = .ok (some actionsNotArray) :=
  ⟨rfl, rfl⟩

/-- The `create_file` action without `content` reaches the safety manager:
`processRequest` reports success, the action result is marked as not
executed, and the attempt has left an empty file behind. -/
theorem createWithoutContent_reaches_execution :
    (processRequest SafetyManager.memEnv (SafetyManager.Manager.new SafetyManager.memEnv "ws")
        SafetyManager.sampleWorld structuredRequest).2.executed? = some [false] ∧
    (processRequest SafetyManager.memEnv (SafetyManager.Manager.new SafetyManager.memEnv "ws")
        SafetyManager.sampleWorld structuredRequest).2.success? = some true ∧
    (processRequest SafetyManager.memEnv (SafetyManager.Manager.new SafetyManager.memEnv "ws")
        SafetyManager.sampleWorld structuredRequest).1.2.lookup "ws/new.txt" = some "" := by
  decide

end Agent

namespace SafetyManager

/-! ## The undo history and its indices (C28) -/

/-- The entry at position `i` of `getUndoStackDetails()` describes the stack
entry at the same position `i` and carries the mirrored index
`length - i - 1`. -/
theorem getUndoStackDetails_getElem? (m : Manager) (i : Nat) :
    (getUndoStackDetails m)[i]? = (m.undoStack[i]?).map (fun e =>
      { index := (m.undoStack.length : Int) - (i : Int) - 1
        action := e.action, backup := e.backup, timestamp := e.timestamp
        canUndo := true }) := by
  unfold getUndoStackDetails
  rw [List.getElem?_map, List.getElem?_enum]
  cases m.undoStack[i]? <;> simp

/-- C28, evaluation of the code: with the history `x.txt`, `y.txt`, `z.txt`
(oldest first), `getUndoStackDetails` lists the entries oldest first and gives
the entry of `x.txt` the index 2; `undoActionByIndex(2)` then undoes the
creation of `z.txt`: it deletes `ws/z.txt`, keeps `ws/x.txt` and leaves the
entries of `x.txt` and `y.txt` on the stack. -/
theorem undo_details_index_mismatch :
    (getUndoStackDetails historyManager).map (fun d => (d.index, d.action.path)) =
        [(2, "x.txt"), (1, "y.txt"), (0, "z.txt")] ∧
    (undoActionByIndex memEnv historyManager historyWorld 2).2.toOption =
        some (some { success := true, action := "deleted", path := "z.txt" }) ∧
    (undoActionByIndex memEnv historyManager historyWorld 2).1.2.files =
        [("ws/x.txt", "1"), ("ws/y.txt", "2")] ∧
    (undoActionByIndex memEnv historyManager historyWorld 2).1.1.undoStack.map
        (fun e => e.action.path) = ["x.txt", "y.txt"] := by
  decide

end SafetyManager

namespace SafetyManager

/-! ## Execute, then undo (C27) -/

theorem find?_filter_ne_same (l : List (String × String)) (p : String) :
    (l.filter (fun kv => kv.1 ≠ p)).find? (fun kv => kv.1 = p) = none := by
  induction l with
  | nil => rfl
  | cons a l ih =>
    by_cases h : a.1 = p
    · rw [List.filter_cons_of_neg (by simpa using h)]
      exact ih
    · rw [List.filter_cons_of_pos (by simpa using h), List.find?_cons_of_neg _ (by simpa using h)]
      exact ih

theorem find?_filter_ne_other (l : List (String × String)) (p q : String) (h : q ≠ p) :
    (l.filter (fun kv => kv.1 ≠ p)).find? (fun kv => kv.1 = q) =
      l.find? (fun kv => kv.1 = q) := by
  induction l with
  | nil => rfl
  | cons a l ih =>
    by_cases h1 : a.1 = p
    · have h2 : a.1 ≠ q := fun h3 => h (h3.symm.trans h1)
      rw [List.filter_cons_of_neg (by simpa using h1),
        List.find?_cons_of_neg _ (by simpa using h2)]
      exact ih
    · rw [List.filter_cons_of_pos (by simpa using h1)]
      by_cases h2 : a.1 = q
      · rw [List.find?_cons_of_pos _ (by simpa using h2),
          List.find?_cons_of_pos _ (by simpa using h2)]
      · rw [List.find?_cons_of_neg _ (by simpa using h2),
          List.find?_cons_of_neg _ (by simpa using h2)]
        exact ih

theorem MemFs.lookup_put_same (w : MemFs) (p c : String) : (w.put p c).lookup p = some c := by
  simp [MemFs.lookup, MemFs.put, List.find?_append, find?_filter_ne_same]

theorem MemFs.lookup_put_other (w : MemFs) (p q c : String) (h : q ≠ p) :
    (w.put p c).lookup q = w.lookup q := by
  have h' : p ≠ q := fun e => h e.symm
  unfold MemFs.lookup MemFs.put
  rw [List.find?_append, find?_filter_ne_other _ _ _ h]
  simp [h']

theorem MemFs.unwritable_put (w : MemFs) (p c : String) :
    (w.put p c).unwritable = w.unwritable := rfl

theorem memEnv_writeFile_ok (w : MemFs) (p c : String) (h : p ∉ w.unwritable) :
    memEnv.writeFile w p (some c) = .ok (w.put p c) := by
  simp [memEnv, h]

theorem memEnv_readFile_ok (w : MemFs) (p c : String) (h : w.lookup p = some c) :
    memEnv.readFile w p = .ok c := by
  simp [memEnv, h]

theorem memEnv_remove_ok (w : MemFs) (p : String) (h : p ∉ w.unwritable) :
    memEnv.remove w p =
      .ok { w with files := w.files.filter (fun kv => kv.1 ≠ p)
                   dirs := w.dirs.filter (fun d => d ≠ p) } := by
  simp [memEnv, h]

theorem lookup_removed_same (w : MemFs) (p : String) (d : List String) :
    MemFs.lookup { w with files := w.files.filter (fun kv => kv.1 ≠ p), dirs := d } p = none := by
  simp only [MemFs.lookup, find?_filter_ne_same, Option.map_none']

theorem lookup_removed_other (w : MemFs) (p q : String) (d : List String) (h : q ≠ p) :
    MemFs.lookup { w with files := w.files.filter (fun kv => kv.1 ≠ p), dirs := d } q =
      w.lookup q := by
  simp only [MemFs.lookup, find?_filter_ne_other _ _ _ h]

/-- The backup file never is the file it copies: its path is longer. -/
theorem backupPath_ne (ws p : String) (n : Nat) :
    memEnv.join (memEnv.join ws ".ai-backups")
        (flattenPath p ++ "_" ++ toString n ++ ".backup") ≠ memEnv.join ws p := by
  intro h
  have hl := congrArg String.length h
  simp only [memEnv, String.length_append, flattenPath, String.length_mk, List.length_map] at hl
  have h1 : ("/" : String).length = 1 := rfl
  have h2 : (".ai-backups" : String).length = 11 := rfl
  have h3 : p.data.length = p.length := rfl
  omega

theorem createBackup_mem (m : Manager) (w : MemFs) (p c : String)
    (hfile : w.lookup (memEnv.join m.workspacePath p) = some c) :
    createBackup memEnv m w p =
      if memEnv.join m.backupDir (flattenPath p ++ "_" ++ toString w.clock ++ ".backup") ∈
          w.unwritable then (w, none)
      else
        (w.put (memEnv.join m.backupDir (flattenPath p ++ "_" ++ toString w.clock ++ ".backup")) c,
          some { originalPath := p
                 backupPath := memEnv.join m.backupDir
                   (flattenPath p ++ "_" ++ toString w.clock ++ ".backup")
                 timestamp := toString w.clock }) := by
  have hfile' : w.lookup (m.workspacePath ++ "/" ++ p) = some c := hfile
  by_cases hwr : m.backupDir ++ "/" ++ (flattenPath p ++ "_" ++ toString w.clock ++ ".backup") ∈
      w.unwritable
  · simp [createBackup, memEnv, hfile', hwr]
  · simp [createBackup, memEnv, hfile', hwr, MemFs.put]

theorem undoLastAction_after_push (m : Manager) (w : MemFs) (action : Action) (b : Backup)
    (ts c : String) (hroom : m.undoStack.length < m.maxUndoSteps)
    (hread : w.lookup b.backupPath = some c)
    (hw1 : memEnv.join m.workspacePath action.path ∉ w.unwritable)
    (hw2 : b.backupPath ∉ w.unwritable) :
    undoLastAction memEnv (addToUndoStack m action (some b) ts) w =
      ((m, { w.put (memEnv.join m.workspacePath action.path) c with
              files := (w.put (memEnv.join m.workspacePath action.path) c).files.filter
                (fun kv => kv.1 ≠ b.backupPath)
              dirs := (w.put (memEnv.join m.workspacePath action.path) c).dirs.filter
                (fun d => d ≠ b.backupPath) }),
        .ok (some { success := true, action := action.type, path := action.path })) := by
  have hpush : addToUndoStack m action (some b) ts =
      { m with undoStack := m.undoStack ++ [{ action := action, backup := some b,
                                              timestamp := ts }] } := by
    unfold addToUndoStack
    have : ¬ (m.undoStack ++ [({ action := action, backup := some b, timestamp := ts } :
        UndoEntry)]).length > m.maxUndoSteps := by
      simp only [List.length_append, List.length_singleton]; omega
    simp only [this, if_false]
  have hw1' : m.workspacePath ++ "/" ++ action.path ∉ w.unwritable := hw1
  rw [hpush]
  simp [undoLastAction, restoreEntry, memEnv, hread, hw1', hw2, MemFs.put]

/-- A successful `edit_file` or `delete_file` on an existing file whose
backup could be written: the state it leaves behind. -/
theorem executeActionWithBackup_mem (m : Manager) (w : MemFs) (action : Action) (c : String)
    (htype : action.type = "edit_file" ∨ action.type = "delete_file")
    (hfile : w.lookup (memEnv.join m.workspacePath action.path) = some c)
    (hne : memEnv.join m.backupDir
        (flattenPath action.path ++ "_" ++ toString w.clock ++ ".backup") ≠
      memEnv.join m.workspacePath action.path)
    (hwr : memEnv.join m.backupDir
        (flattenPath action.path ++ "_" ++ toString w.clock ++ ".backup") ∉ w.unwritable)
    (hok : (executeActionWithBackup memEnv m w action).2.toOption.isSome = true) :
    ∃ w2 r, executeActionWithBackup memEnv m w action =
        ((addToUndoStack m action
            (some { originalPath := action.path
                    backupPath := memEnv.join m.backupDir
                      (flattenPath action.path ++ "_" ++ toString w.clock ++ ".backup")
                    timestamp := toString w.clock })
            (toString w.clock), w2), .ok r) ∧
      w2.lookup (memEnv.join m.backupDir
        (flattenPath action.path ++ "_" ++ toString w.clock ++ ".backup")) = some c ∧
      w2.unwritable = w.unwritable ∧
      memEnv.join m.workspacePath action.path ∉ w.unwritable := by
  have hcb := createBackup_mem m w action.path c hfile
  rw [if_neg hwr] at hcb
  generalize hbp : memEnv.join m.backupDir
    (flattenPath action.path ++ "_" ++ toString w.clock ++ ".backup") = bp at *
  generalize hfp : memEnv.join m.workspacePath action.path = fp at *
  have hfp' : m.workspacePath ++ "/" ++ action.path = fp := hfp
  have hbk : (w.put bp c).lookup bp = some c := MemFs.lookup_put_same _ _ _
  by_cases hfw : fp ∈ w.unwritable
  · exfalso
    rcases htype with ht | ht
    · have hperf : ∃ e, performAction memEnv (w.put bp c) fp action
          (some { originalPath := action.path, backupPath := bp, timestamp := toString w.clock }) =
          (w.put bp c, .error e) := by
        cases hcontent : action.content <;>
          simp [performAction, ht, hcontent, memEnv, hfw, MemFs.put]
      obtain ⟨e, hperf⟩ := hperf
      simp [executeActionWithBackup, ht, hcb, hfp, hperf, Except.toOption] at hok
    · have hperf : ∃ e, performAction memEnv (w.put bp c) fp action
          (some { originalPath := action.path, backupPath := bp, timestamp := toString w.clock }) =
          (w.put bp c, .error e) := by
        simp [performAction, ht, memEnv, hfw, MemFs.put]
      obtain ⟨e, hperf⟩ := hperf
      simp [executeActionWithBackup, ht, hcb, hfp, hperf, Except.toOption] at hok
  · rcases htype with ht | ht
    · cases hcontent : action.content with
      | none =>
        exfalso
        have hperf : ∃ e, performAction memEnv (w.put bp c) fp action
            (some { originalPath := action.path, backupPath := bp,
                    timestamp := toString w.clock }) = (w.put bp c, .error e) := by
          simp [performAction, ht, hcontent, memEnv]
        obtain ⟨e, hperf⟩ := hperf
        simp [executeActionWithBackup, ht, hcb, hfp, hperf, Except.toOption] at hok
      | some new =>
        have hperf : performAction memEnv (w.put bp c) fp action
            (some { originalPath := action.path, backupPath := bp,
                    timestamp := toString w.clock }) =
            ((w.put bp c).put fp new, .ok { success := true, type := "modified", backup := some ⟨action.path, bp, toString w.clock⟩ }) := by
          simp [performAction, ht, hcontent, memEnv, hfw, MemFs.put]
        refine ⟨(w.put bp c).put fp new,
          { action := action, executed := true
            result := some { success := true, type := "modified"
                             backup := some ⟨action.path, bp, toString w.clock⟩ }
            error := none, timestamp := toString w.clock }, ?_, ?_, rfl, hfw⟩
        · simp only [executeActionWithBackup, ht, true_or, if_true, hcb, hfp, hperf]
          rfl
        · rw [MemFs.lookup_put_other _ _ _ _ hne]
          exact hbk
    · have hperf : performAction memEnv (w.put bp c) fp action
          (some { originalPath := action.path, backupPath := bp,
                  timestamp := toString w.clock }) =
          ({ (w.put bp c) with
              files := (w.put bp c).files.filter (fun kv => kv.1 ≠ fp)
              dirs := w.dirs.filter (fun d => d ≠ fp) },
            .ok { success := true, type := "deleted", backup := some ⟨action.path, bp, toString w.clock⟩ }) := by
        simp [performAction, ht, memEnv, hfw, MemFs.put]
      refine ⟨{ (w.put bp c) with
          files := (w.put bp c).files.filter (fun kv => kv.1 ≠ fp)
          dirs := w.dirs.filter (fun d => d ≠ fp) },
        { action := action, executed := true
          result := some { success := true, type := "deleted"
                           backup := some ⟨action.path, bp, toString w.clock⟩ }
          error := none, timestamp := toString w.clock }, ?_, ?_, rfl, hfw⟩
      · simp only [executeActionWithBackup, ht, or_true, if_true, hcb, hfp, hperf]
        rfl
      · rw [lookup_removed_other _ _ _ _ hne]
        exact hbk

/-- C27, counterexample. (1) With an undo stack at its capacity of ten
entries, a successful `edit_file` on the existing file `a.txt` followed by
`undoLastAction` restores the content `old`, but the stack now holds the nine
entries `f1.txt` to `f9.txt`: the push has shifted out the oldest entry
`f0.txt`, so the stack is not as it was before the action. (2) When the
backup copy cannot be written, `createBackup` returns `null`, the edit still
succeeds, and `undoLastAction` pops the entry without restoring anything: the
file keeps the content `new`. -/
theorem executeThenUndo_full_stack_loses_oldest :
    sampleWorld.lookup "ws/a.txt" = some "old" ∧
    (executeActionWithBackup memEnv fullManager sampleWorld editSample).2.toOption.isSome = true ∧
    (executeThenUndo memEnv fullManager sampleWorld editSample).2.toOption =
        some (some { success := true, action := "edit_file", path := "a.txt" }) ∧
    (executeThenUndo memEnv fullManager sampleWorld editSample).1.2.lookup "ws/a.txt" =
        some "old" ∧
    fullManager.undoStack.map (fun e => e.action.path) =
        ["f0.txt", "f1.txt", "f2.txt", "f3.txt", "f4.txt", "f5.txt", "f6.txt", "f7.txt",
          "f8.txt", "f9.txt"] ∧
    (executeThenUndo memEnv fullManager sampleWorld editSample).1.1.undoStack.map
        (fun e => e.action.path) =
        ["f1.txt", "f2.txt", "f3.txt", "f4.txt", "f5.txt", "f6.txt", "f7.txt", "f8.txt",
          "f9.txt"] ∧
    refusedWorld.lookup "ws/a.txt" = some "old" ∧
    (executeActionWithBackup memEnv historyManager refusedWorld editSample).2.toOption.isSome =
        true ∧
    (executeThenUndo memEnv historyManager refusedWorld editSample).2.toOption = some none ∧
    (executeThenUndo memEnv historyManager refusedWorld editSample).1.2.lookup "ws/a.txt" =
        some "new" := by
  decide

/-- C27, amended: in the in-memory file system, for every manager whose
backup directory is `.ai-backups` in its workspace and whose undo stack holds
fewer than `maxUndoSteps` entries, every existing file with content `c` and
every `edit_file` or `delete_file` action on its path for which `createBackup`
writes its copy: a successful `executeActionWithBackup` followed by
`undoLastAction` succeeds, leaves the file with content exactly `c`, removes
the backup file that held `c` in between, and leaves the manager (its undo
stack included) as it was before the action. -/
theorem executeThenUndo_restores (m : Manager) (w : MemFs) (action : Action) (c : String)
    (hdir : m.backupDir = memEnv.join m.workspacePath ".ai-backups")
    (htype : action.type = "edit_file" ∨ action.type = "delete_file")
    (hfile : w.lookup (memEnv.join m.workspacePath action.path) = some c)
    (hroom : m.undoStack.length < m.maxUndoSteps)
    (hbackup : (createBackup memEnv m w action.path).2.isSome = true)
    (hok : (executeActionWithBackup memEnv m w action).2.toOption.isSome = true) :
    (executeThenUndo memEnv m w action).2 =
        .ok (some { success := true, action := action.type, path := action.path }) ∧
      (executeThenUndo memEnv m w action).1.2.lookup
        (memEnv.join m.workspacePath action.path) = some c ∧
      (∃ b, (createBackup memEnv m w action.path).2 = some b ∧
        (executeActionWithBackup memEnv m w action).1.2.lookup b.backupPath = some c ∧
        (executeThenUndo memEnv m w action).1.2.lookup b.backupPath = none) ∧
      (executeThenUndo memEnv m w action).1.1 = m := by
  have hcb := createBackup_mem m w action.path c hfile
  by_cases hwr : memEnv.join m.backupDir
      (flattenPath action.path ++ "_" ++ toString w.clock ++ ".backup") ∈ w.unwritable
  · rw [hcb, if_pos hwr] at hbackup
    exact absurd hbackup (by simp)
  · rw [if_neg hwr] at hcb
    have hne : memEnv.join m.backupDir
        (flattenPath action.path ++ "_" ++ toString w.clock ++ ".backup") ≠
        memEnv.join m.workspacePath action.path := by
      rw [hdir]
      exact backupPath_ne _ _ _
    obtain ⟨w2, r, hexec, hread, hunw, hfw⟩ :=
      executeActionWithBackup_mem m w action c htype hfile hne hwr hok
    have hundo := undoLastAction_after_push m w2 action
      { originalPath := action.path
        backupPath := memEnv.join m.backupDir
          (flattenPath action.path ++ "_" ++ toString w.clock ++ ".backup")
        timestamp := toString w.clock } (toString w.clock) c hroom hread
      (by rw [hunw]; exact hfw) (by rw [hunw]; exact hwr)
    have hall : executeThenUndo memEnv m w action =
        undoLastAction memEnv
          (addToUndoStack m action
            (some { originalPath := action.path
                    backupPath := memEnv.join m.backupDir
                      (flattenPath action.path ++ "_" ++ toString w.clock ++ ".backup")
                    timestamp := toString w.clock })
            (toString w.clock)) w2 := by
      unfold executeThenUndo
      rw [hexec]
    rw [hall, hundo, hcb, hexec]
    refine ⟨rfl, ?_, ⟨_, rfl, hread, ?_⟩, rfl⟩
    · show MemFs.lookup _ _ = _
      rw [lookup_removed_other _ _ _ _ (fun h => hne h.symm)]
      exact MemFs.lookup_put_same _ _ _
    · exact lookup_removed_same _ _ _

/-- Witness for C27: the workspace `ws` with the file `a.txt` of content
`old`, the history `sampleStack` of three entries and the action that
overwrites `a.txt`. -/
theorem executeThenUndo_restores_witness :
    (executeThenUndo memEnv historyManager sampleWorld editSample).2 =
        .ok (some { success := true, action := "edit_file", path := "a.txt" }) ∧
      (executeThenUndo memEnv historyManager sampleWorld editSample).1.2.lookup
        (memEnv.join "ws" "a.txt") = some "old" ∧
      (∃ b, (createBackup memEnv historyManager sampleWorld "a.txt").2 = some b ∧
        (executeActionWithBackup memEnv historyManager sampleWorld editSample).1.2.lookup
          b.backupPath = some "old" ∧
        (executeThenUndo memEnv historyManager sampleWorld editSample).1.2.lookup
          b.backupPath = none) ∧
      (executeThenUndo memEnv historyManager sampleWorld editSample).1.1 = historyManager :=
  executeThenUndo_restores historyManager sampleWorld editSample "old" (by decide)
    (by decide) (by decide) (by decide) (by decide) (by decide)

end SafetyManager

namespace Indexer

/-! ## Range of the similarity (C30) -/

/-- C30 (evaluation at the failing inputs). For `A = B = "call the
constructor"` the word `constructor` reads `Object.prototype.constructor`
from the plain object `wordFreq`, its entry becomes a string, the magnitude is
`NaN` and so is the similarity of the text with itself: neither in `[0, 1]`
nor equal to 1. For `A = B = "__proto__"` no key is stored at all: the
magnitude is `sqrt 0 = 0`, below 1, and the similarity of the text with itself
is the literal 0 of the early return. -/
theorem similarity_prototype_words :
    (createSimpleEmbedding "call the constructor".data).vector =
        [("call".data, .count 1), ("the".data, .count 1), ("constructor".data, .text)] ∧
    (createSimpleEmbedding "call the constructor".data).magnitude = .nan ∧
    calculateSimilarity (createSimpleEmbedding "call the constructor".data)
        (createSimpleEmbedding "call the constructor".data) = .nan ∧
    (createSimpleEmbedding "__proto__".data).vector = [] ∧
    (createSimpleEmbedding "__proto__".data).magnitude = .sqrt 0 ∧
    calculateSimilarity (createSimpleEmbedding "__proto__".data)
        (createSimpleEmbedding "__proto__".data) = .zero := by
  decide

end Indexer

namespace Indexer.Enhanced

/-! ## Wildcard ignore patterns (C24) -/

/-- C24 (evaluation at the failing inputs). `shouldIgnore` ignores
`src/catalog.js`, and the only pattern that hits is the wildcard `*.log`
(the expression `.*.log` finds `alog` inside `catalog`), although the path
does not end with `.log`; likewise `src/clock.js` is ignored on account of
`*.lock` alone without ending in `.lock`. -/
theorem shouldIgnore_catalog_and_clock :
    shouldIgnore "src/catalog.js".data = true ∧
    hittingPatterns "src/catalog.js".data = ["*.log".data] ∧
    Js.endsWith "src/catalog.js".data ".log".data = false ∧
    shouldIgnore "src/clock.js".data = true ∧
    hittingPatterns "src/clock.js".data = ["*.lock".data] ∧
    Js.endsWith "src/clock.js".data ".lock".data = false := by
  decide

end Indexer.Enhanced

namespace Js

/-! ## Laws of the `Map` model -/

theorem find?_map_replace {κ α : Type} [DecidableEq κ] (m : List (κ × α)) (key : κ) (value : α)
    (h : m.any (fun kv => kv.1 = key) = true) :
    (m.map (fun kv => if kv.1 = key then (key, value) else kv)).find? (fun kv => kv.1 = key) =
      some (key, value) := by
  induction m with
  | nil => simp at h
  | cons a m ih =>
    by_cases ha : a.1 = key
    · simp [ha]
    · have h' : m.any (fun kv => kv.1 = key) = true := by
        simpa [List.any_cons, ha] using h
      rw [List.map_cons, if_neg ha, List.find?_cons_of_neg _ (by simpa using ha)]
      exact ih h'

theorem find?_of_any_false {κ α : Type} [DecidableEq κ] (m : List (κ × α)) (key : κ)
    (h : m.any (fun kv => kv.1 = key) = false) :
    m.find? (fun kv => kv.1 = key) = none := by
  rw [List.find?_eq_none]
  intro x hx hk
  have : m.any (fun kv => kv.1 = key) = true := List.any_eq_true.2 ⟨x, hx, hk⟩
  rw [h] at this
  exact Bool.noConfusion this

theorem mapGet_mapSet_same {κ α : Type} [DecidableEq κ] (m : List (κ × α)) (key : κ)
    (value : α) : mapGet (mapSet m key value) key = some value := by
  unfold mapGet mapSet
  by_cases h : m.any (fun kv => kv.1 = key) = true
  · rw [if_pos h, find?_map_replace m key value h]
    rfl
  · have h' : m.any (fun kv => kv.1 = key) = false := Bool.eq_false_iff.2 h
    rw [if_neg h, List.find?_append, find?_of_any_false m key h']
    simp

theorem find?_map_replace_other {κ α : Type} [DecidableEq κ] (m : List (κ × α)) (key other : κ)
    (value : α) (hne : other ≠ key) :
    ((m.map (fun kv => if kv.1 = key then (key, value) else kv)).find?
        (fun kv => kv.1 = other)).map Prod.snd =
      (m.find? (fun kv => kv.1 = other)).map Prod.snd := by
  induction m with
  | nil => rfl
  | cons a m ih =>
    by_cases ha : a.1 = key
    · have h1 : ¬ a.1 = other := fun h => hne (h.symm.trans ha)
      have h2 : ¬ key = other := fun h => hne h.symm
      rw [List.map_cons, if_pos ha, List.find?_cons_of_neg _ (by simpa using h2),
        List.find?_cons_of_neg _ (by simpa using h1)]
      exact ih
    · rw [List.map_cons, if_neg ha]
      by_cases hb : a.1 = other
      · rw [List.find?_cons_of_pos _ (by simpa using hb),
          List.find?_cons_of_pos _ (by simpa using hb)]
      · rw [List.find?_cons_of_neg _ (by simpa using hb),
          List.find?_cons_of_neg _ (by simpa using hb)]
        exact ih

theorem mapGet_mapSet_other {κ α : Type} [DecidableEq κ] (m : List (κ × α)) (key other : κ)
    (value : α) (hne : other ≠ key) :
    mapGet (mapSet m key value) other = mapGet m other := by
  unfold mapGet mapSet
  by_cases h : m.any (fun kv => kv.1 = key) = true
  · rw [if_pos h]
    exact find?_map_replace_other m key other value hne
  · rw [if_neg h, List.find?_append]
    have h2 : ¬ key = other := fun h => hne h.symm
    simp [h2]

end Js

namespace Indexer

/-! ## Embeddings and current chunks (C23) -/

/-- The loop of `generateEmbeddings`: afterwards every chunk of the list has
an entry under its id, computed from a chunk of the list with that id, and
the entries under all other keys are as before. -/
theorem foldl_embeddings (cs : List Chunk) (e : List (List Char × Embedding)) :
    (∀ c ∈ cs, ∃ c' ∈ cs, c'.id = c.id ∧
        Js.mapGet (cs.foldl (fun e c => Js.mapSet e c.id (createSimpleEmbedding c.content)) e)
          c.id = some (createSimpleEmbedding c'.content)) ∧
    (∀ key, key ∉ cs.map (fun c => c.id) →
        Js.mapGet (cs.foldl (fun e c => Js.mapSet e c.id (createSimpleEmbedding c.content)) e)
          key = Js.mapGet e key) := by
  induction cs generalizing e with
  | nil => exact ⟨fun c hc => absurd hc (List.not_mem_nil c), fun _ _ => rfl⟩
  | cons a cs ih =>
    obtain ⟨ih1, ih2⟩ := ih (Js.mapSet e a.id (createSimpleEmbedding a.content))
    refine ⟨?_, ?_⟩
    · intro c hc
      by_cases hin : c.id ∈ cs.map (fun c => c.id)
      · obtain ⟨c2, hc2, hid⟩ := List.mem_map.1 hin
        obtain ⟨c', hc', hid', hget⟩ := ih1 c2 hc2
        refine ⟨c', List.mem_cons_of_mem _ hc', hid'.trans hid, ?_⟩
        rw [List.foldl_cons, ← hid]
        exact hget
      · have hca : c = a := by
          rcases List.mem_cons.1 hc with h | h
          · exact h
          · exact absurd (List.mem_map.2 ⟨c, h, rfl⟩) hin
        subst hca
        refine ⟨c, List.mem_cons_self _ _, rfl, ?_⟩
        rw [List.foldl_cons, ih2 _ hin]
        exact Js.mapGet_mapSet_same _ _ _
    · intro key hkey
      have h1 : key ≠ a.id := fun h => hkey (by simp [h])
      have h2 : key ∉ cs.map (fun c => c.id) := fun h => hkey (by
        rw [List.map_cons]; exact List.mem_cons_of_mem _ h)
      rw [List.foldl_cons, ih2 _ h2]
      exact Js.mapGet_mapSet_other _ _ _ _ h1

/-- After `generateEmbeddings()` every stored chunk has an embedding under
its id. -/
theorem generateEmbeddings_covers (ix : CodebaseIndexer) :
    ∀ c ∈ (generateEmbeddings ix).index.chunks.flatMap Prod.snd,
      ∃ c' ∈ (generateEmbeddings ix).index.chunks.flatMap Prod.snd, c'.id = c.id ∧
        Js.mapGet (generateEmbeddings ix).index.embeddings c.id =
          some (createSimpleEmbedding c'.content) :=
  (foldl_embeddings (ix.index.chunks.flatMap Prod.snd) ix.index.embeddings).1

/-- C23, counterexample: `a.js` is indexed with the content `x` (one chunk,
id `a.js:0-0`), then changed to the two lines `x`, `y` and re-indexed by
`updateIndex` (one chunk, id `a.js:0-1`). The embeddings map now has the keys
`a.js:0-0` and `a.js:0-1`, while the only stored chunk id is `a.js:0-1`: the
embedding of the replaced chunk survives. -/
theorem stale_embedding_after_reindex :
    chunkIds (indexCodebase firstWorld (CodebaseIndexer.new "ws".data) firstScan) =
        ["a.js:0-0".data] ∧
    chunkIds reindexed = ["a.js:0-1".data] ∧
    reindexed.index.embeddings.map Prod.fst = ["a.js:0-0".data, "a.js:0-1".data] := by
  set_option maxRecDepth 1000000 in decide

/-- C23, amended: after every `indexCodebase` and every `updateIndex` call,
every chunk currently stored for any file has an entry in the embeddings map
under its id, and that entry is the embedding of the content of a stored
chunk with this id. (The map may hold further entries, those of chunks that
were replaced.) -/
theorem embeddings_cover_chunks (w : World) (ix : CodebaseIndexer) :
    (∀ files : List FileInfo,
      ∀ c ∈ (indexCodebase w ix files).index.chunks.flatMap Prod.snd,
        ∃ c' ∈ (indexCodebase w ix files).index.chunks.flatMap Prod.snd, c'.id = c.id ∧
          Js.mapGet (indexCodebase w ix files).index.embeddings c.id =
            some (createSimpleEmbedding c'.content)) ∧
    (∀ changedFiles : List (List Char),
      ∀ c ∈ (updateIndex w ix changedFiles).index.chunks.flatMap Prod.snd,
        ∃ c' ∈ (updateIndex w ix changedFiles).index.chunks.flatMap Prod.snd, c'.id = c.id ∧
          Js.mapGet (updateIndex w ix changedFiles).index.embeddings c.id =
            some (createSimpleEmbedding c'.content)) :=
  ⟨fun _ => generateEmbeddings_covers _, fun _ => generateEmbeddings_covers _⟩

/-- Instance of C23 (amended) on the re-indexed workspace: the chunk
`a.js:0-1` has its embedding. -/
theorem embeddings_cover_chunks_witness :
    ∃ c' ∈ reindexed.index.chunks.flatMap Prod.snd, c'.id = "a.js:0-1".data ∧
      Js.mapGet reindexed.index.embeddings "a.js:0-1".data =
        some (createSimpleEmbedding c'.content) :=
  (embeddings_cover_chunks secondWorld
    (indexCodebase firstWorld (CodebaseIndexer.new "ws".data) firstScan)).2 ["a.js".data]
    { id := "a.js:0-1".data, content := "x\ny".data, filePath := "a.js".data, startLine := 1,
      endLine := 2, tokenCount := 1 }
    (by set_option maxRecDepth 1000000 in decide)

end Indexer

namespace Indexer.Enhanced

/-! ## Deleted files (C22) -/

theorem chunks_of_x (an : Analysis) (fi : FileInfo) :
    generateSemanticChunks an 300 "x".data fi = [createChunk an "x\n".data fi 0 0] := by
  have h1 : Js.splitLines "x".data = ["x".data] := by decide
  simp only [generateSemanticChunks, h1, generateSemanticChunksLoop, pushChunk]
  simp
  decide

theorem matchBonus_pos (queryLower : List Char) (e : Entry)
    (h : Js.includes (Js.toLowerCase e.content) queryLower = true) :
    0 < matchBonus queryLower e := by
  unfold matchBonus
  rw [if_pos h]
  omega

theorem indexedOnce_embeddings (an : Analysis) :
    (indexedOnce an).index.embeddings =
      [("a.js:0-0".data,
        entryOf (generateSemanticContext an (buildEnhancedDependencyGraph
            (processFile an firstWorld (EnhancedCodebaseIndexer.new "ws".data) (sampleInfo an))))
          "a.js".data (createChunk an "x\n".data (sampleInfo an) 0 0))] := by
  have h : (indexedOnce an).index.embeddings =
      ([("a.js".data, generateSemanticChunks an 300 "x".data (sampleInfo an))].flatMap
        (fun kv => kv.2.map (fun c => (kv.1, c)))).foldl
        (fun e pc => Js.mapSet e pc.2.base.id
          (entryOf (generateSemanticContext an (buildEnhancedDependencyGraph
            (processFile an firstWorld (EnhancedCodebaseIndexer.new "ws".data)
              (sampleInfo an)))) pc.1 pc.2)) [] := rfl
  rw [h, chunks_of_x]
  rfl

theorem afterDeletion_embeddings (an : Analysis) :
    (afterDeletion an).index.embeddings = (indexedOnce an).index.embeddings := by
  have h : (afterDeletion an).index.embeddings =
      Js.mapDelete (indexedOnce an).index.embeddings "a.js".data := rfl
  rw [h, indexedOnce_embeddings]
  rfl

/-- C22 (evaluation at the failing input, for every choice of the
text-analysis methods). The file `a.js` with the line `x` is indexed and then
deleted from disk; `updateIndex(['a.js'])` removes its FileRecord, chunk
list, digest, time and dependency record, but the embedding of its chunk,
stored under the chunk id `a.js:0-0`, stays in the embeddings map, and a
subsequent `searchSemantic('x')` returns that chunk of `a.js`. -/
theorem deleted_file_still_found (an : Analysis) :
    (indexedOnce an).index.files.map Prod.fst = ["a.js".data] ∧
    goneWorld.pathExists (Js.pathJoin "ws".data "a.js".data) = false ∧
    (afterDeletion an).index.files = [] ∧
    (afterDeletion an).index.chunks = [] ∧
    (afterDeletion an).index.dependencyGraph = [] ∧
    (afterDeletion an).index.fileHashes = [] ∧
    (afterDeletion an).index.lastIndexed = [] ∧
    (afterDeletion an).index.embeddings.map (fun kv => (kv.1, kv.2.filePath)) =
        [("a.js:0-0".data, "a.js".data)] ∧
    (searchSemantic (afterDeletion an) "x".data none).map
        (fun hit => (hit.chunkId, hit.embedding.filePath, hit.embedding.content)) =
        [("a.js:0-0".data, "a.js".data, "x".data)] := by
  refine ⟨rfl, rfl, rfl, rfl, rfl, rfl, rfl, ?_, ?_⟩
  · rw [afterDeletion_embeddings, indexedOnce_embeddings]
    rfl
  · have hq : (Js.splitSpaces "x".data).filter (fun word => decide (word.length > 2)) = [] := by
      decide
    have hlow : Js.toLowerCase "x".data = "x".data := by decide
    have hpos := matchBonus_pos "x".data
      (entryOf (generateSemanticContext an (buildEnhancedDependencyGraph
          (processFile an firstWorld (EnhancedCodebaseIndexer.new "ws".data) (sampleInfo an))))
        "a.js".data (createChunk an "x\n".data (sampleInfo an) 0 0)) rfl
    simp only [searchSemantic, afterDeletion_embeddings, indexedOnce_embeddings, hlow, hq,
      List.filterMap_cons, List.filterMap_nil, scoreOf, calculateVectorSimilarity,
      List.foldl_nil, Nat.zero_mul, Nat.add_zero, hpos, if_true, gt_iff_lt,
      List.insertionSort, List.orderedInsert, List.map_cons, List.map_nil]
    rfl

end Indexer.Enhanced

namespace Indexer

/-! ## Unchanged files are skipped (C21) -/

theorem processFile_skip (w : World) (ix : CodebaseIndexer) (f : FileInfo) (content : List Char)
    (hread : w.readFile f.fullPath = .ok content)
    (hhash : Js.mapGet ix.index.fileHashes f.relativePath = some (Js.md5 content)) :
    processFile w ix f = ix := by
  unfold processFile
  rw [hread]
  simp only [hhash, if_true]

theorem processFile_twice (w w' : World) (ix : CodebaseIndexer) (f : FileInfo)
    (hsame : w'.readFile f.fullPath = w.readFile f.fullPath) :
    processFile w' (processFile w ix f) f = processFile w ix f := by
  cases hread : w.readFile f.fullPath with
  | error e =>
    have h1 : processFile w ix f = ix := by unfold processFile; rw [hread]
    rw [h1]
    unfold processFile
    rw [hsame, hread]
  | ok content =>
    by_cases hhash : Js.mapGet ix.index.fileHashes f.relativePath = some (Js.md5 content)
    · rw [processFile_skip w ix f content hread hhash]
      exact processFile_skip w' ix f content (hsame.trans hread) hhash
    · apply processFile_skip w' _ f content (hsame.trans hread)
      unfold processFile
      rw [hread]
      simp only [hhash, if_false]
      exact Js.mapGet_mapSet_same _ _ _

theorem enhanced_processFile_skip (an : Enhanced.Analysis) (w : World)
    (ix : Enhanced.EnhancedCodebaseIndexer) (f : Enhanced.FileInfo) (content : List Char)
    (hread : w.readFile f.fullPath = .ok content)
    (hhash : Js.mapGet ix.index.fileHashes f.relativePath = some (Js.md5 content)) :
    Enhanced.processFile an w ix f = ix := by
  unfold Enhanced.processFile
  rw [hread]
  simp only [hhash, if_true]

theorem enhanced_processFile_twice (an : Enhanced.Analysis) (w w' : World)
    (ix : Enhanced.EnhancedCodebaseIndexer) (f : Enhanced.FileInfo)
    (hsame : w'.readFile f.fullPath = w.readFile f.fullPath) :
    Enhanced.processFile an w' (Enhanced.processFile an w ix f) f =
      Enhanced.processFile an w ix f := by
  cases hread : w.readFile f.fullPath with
  | error e =>
    have h1 : Enhanced.processFile an w ix f = ix := by
      unfold Enhanced.processFile; rw [hread]
    rw [h1]
    unfold Enhanced.processFile
    rw [hsame, hread]
  | ok content =>
    by_cases hhash : Js.mapGet ix.index.fileHashes f.relativePath = some (Js.md5 content)
    · rw [enhanced_processFile_skip an w ix f content hread hhash]
      exact enhanced_processFile_skip an w' ix f content (hsame.trans hread) hhash
    · apply enhanced_processFile_skip an w' _ f content (hsame.trans hread)
      unfold Enhanced.processFile
      rw [hread]
      simp only [hhash, if_false]
      exact Js.mapGet_mapSet_same _ _ _

/-- C21: in both indexers, `processFile` on a file whose content has the
digest stored for its path returns the indexer unchanged (same records, same
chunks, same digests, same times); consequently processing a file a second
time, at any later time at which its content is the same, yields the index
that the first processing produced. -/
theorem processFile_idempotent :
    (∀ (w : World) (ix : CodebaseIndexer) (f : FileInfo) (content : List Char),
      w.readFile f.fullPath = .ok content →
      Js.mapGet ix.index.fileHashes f.relativePath = some (Js.md5 content) →
      processFile w ix f = ix) ∧
    (∀ (an : Enhanced.Analysis) (w : World) (ix : Enhanced.EnhancedCodebaseIndexer)
      (f : Enhanced.FileInfo) (content : List Char),
      w.readFile f.fullPath = .ok content →
      Js.mapGet ix.index.fileHashes f.relativePath = some (Js.md5 content) →
      Enhanced.processFile an w ix f = ix) ∧
    (∀ (w w' : World) (ix : CodebaseIndexer) (f : FileInfo),
      w'.readFile f.fullPath = w.readFile f.fullPath →
      processFile w' (processFile w ix f) f = processFile w ix f) ∧
    (∀ (an : Enhanced.Analysis) (w w' : World) (ix : Enhanced.EnhancedCodebaseIndexer)
      (f : Enhanced.FileInfo),
      w'.readFile f.fullPath = w.readFile f.fullPath →
      Enhanced.processFile an w' (Enhanced.processFile an w ix f) f =
        Enhanced.processFile an w ix f) :=
  ⟨processFile_skip, enhanced_processFile_skip, processFile_twice, enhanced_processFile_twice⟩

/-- Instance of C21: `a.js` with the line `x` is processed in `firstWorld`
(clock 100) and again in a world with the same content at clock 200; the
second call returns the indexer of the first, whose time for `a.js` is still
100. -/
theorem processFile_idempotent_witness :
    processFile { firstWorld with clock := 200 }
        (processFile firstWorld (CodebaseIndexer.new "ws".data)
          { fullPath := "ws/a.js".data, relativePath := "a.js".data, name := "a.js".data,
            size := some 1 })
        { fullPath := "ws/a.js".data, relativePath := "a.js".data, name := "a.js".data,
          size := some 1 } =
      processFile firstWorld (CodebaseIndexer.new "ws".data)
        { fullPath := "ws/a.js".data, relativePath := "a.js".data, name := "a.js".data,
          size := some 1 } ∧
    (processFile firstWorld (CodebaseIndexer.new "ws".data)
        { fullPath := "ws/a.js".data, relativePath := "a.js".data, name := "a.js".data,
          size := some 1 }).index.lastIndexed = [("a.js".data, 100)] :=
  ⟨processFile_idempotent.2.2.1 firstWorld { firstWorld with clock := 200 } _ _ rfl, rfl⟩

end Indexer

namespace Indexer

/-! ## Index statistics (C25) -/

theorem Enhanced.two_long_lines (an : Enhanced.Analysis) (fi : Enhanced.FileInfo)
    (la lb : List Char) (hla : la.length = 300) (hlb : lb.length = 300)
    (ha : (Js.trim (la ++ ['\n'])).length > 0) (hb : (Js.trim (lb ++ ['\n'])).length > 0) :
    Enhanced.generateSemanticChunksLoop an 300 fi [la, lb] 0 [] 0 =
      [Enhanced.createChunk an (la ++ ['\n']) fi 0 0,
       Enhanced.createChunk an (lb ++ ['\n']) fi 1 1] := by
  have e : (Js.trim ([] : List Char)).length = 0 := by decide
  simp only [Enhanced.generateSemanticChunksLoop, Enhanced.pushChunk, List.length_append,
    List.length_singleton, List.length_nil, hla, hlb, ha, hb, if_true, e]
  simp

theorem Enhanced.chunks_of_long (an : Enhanced.Analysis) (fi : Enhanced.FileInfo) :
    Enhanced.generateSemanticChunks an 300 twoChunkText fi =
      [Enhanced.createChunk an (List.replicate 300 'a' ++ ['\n']) fi 0 0,
       Enhanced.createChunk an (List.replicate 300 'b' ++ ['\n']) fi 1 1] := by
  have h1 : Js.splitLines twoChunkText = [List.replicate 300 'a', List.replicate 300 'b'] := by
    set_option maxRecDepth 1000000 in decide
  unfold Enhanced.generateSemanticChunks
  rw [h1]
  exact Enhanced.two_long_lines an fi _ _ (List.length_replicate _ _) (List.length_replicate _ _)
    (by set_option maxRecDepth 1000000 in decide) (by set_option maxRecDepth 1000000 in decide)

theorem Enhanced.longIndexed_chunks (an : Enhanced.Analysis) :
    ∃ fi, fi.relativePath = "a.js".data ∧ (Enhanced.longIndexed an).index.chunks =
      [("a.js".data,
        [Enhanced.createChunk an (List.replicate 300 'a' ++ ['\n']) fi 0 0,
         Enhanced.createChunk an (List.replicate 300 'b' ++ ['\n']) fi 1 1])] := by
  have h : ∃ fi, fi.relativePath = "a.js".data ∧ (Enhanced.longIndexed an).index.chunks =
      [("a.js".data, Enhanced.generateSemanticChunks an 300 twoChunkText fi)] :=
    ⟨_, rfl, rfl⟩
  obtain ⟨fi, hp, h⟩ := h
  exact ⟨fi, hp, by rw [h, Enhanced.chunks_of_long]⟩

/-- C25 (evaluation at the failing input, for every choice of the
text-analysis methods of the enhanced indexer). The workspace holds one file
`a.js` of two lines of 300 characters. After `updateIndex(['a.js'])` on a
fresh indexer two chunks are stored for the file (`a.js:0-0` and `a.js:1-1`),
and `getIndexStats()` reports `totalFiles = 1`, the languages
`javascript: 1`, and `totalChunks = 1`: the number of files that have a chunk
list, not the number of chunks. Both indexers behave this way. -/
theorem totalChunks_counts_files (an : Enhanced.Analysis) :
    (longIndexed.index.chunks.flatMap Prod.snd).map (fun c => c.id) =
        ["a.js:0-0".data, "a.js:1-1".data] ∧
    (getIndexStats longIndexed).totalChunks = 1 ∧
    (getIndexStats longIndexed).totalFiles = 1 ∧
    (getIndexStats longIndexed).totalEmbeddings = 2 ∧
    (getIndexStats longIndexed).languages = [("javascript".data, .count 1)] ∧
    ((Enhanced.longIndexed an).index.chunks.flatMap Prod.snd).map (fun c => c.base.id) =
        ["a.js:0-0".data, "a.js:1-1".data] ∧
    (Enhanced.getIndexStats (Enhanced.longIndexed an)).totalChunks = 1 ∧
    (Enhanced.getIndexStats (Enhanced.longIndexed an)).totalFiles = 1 ∧
    (Enhanced.getIndexStats (Enhanced.longIndexed an)).languages =
        [("javascript".data, .count 1)] := by
  obtain ⟨fi, hp, h⟩ := Enhanced.longIndexed_chunks an
  refine ⟨by set_option maxRecDepth 1000000 in decide,
    by set_option maxRecDepth 1000000 in decide, by set_option maxRecDepth 1000000 in decide,
    by set_option maxRecDepth 1000000 in decide, by set_option maxRecDepth 1000000 in decide,
    ?_, ?_, rfl, rfl⟩
  · rw [h]
    show [Indexer.chunkId fi.relativePath 0 0, Indexer.chunkId fi.relativePath 1 1] = _
    rw [hp]
    rfl
  · show (Enhanced.longIndexed an).index.chunks.length = 1
    rw [h]
    rfl

end Indexer

namespace Indexer

/-! ## The similarity of texts without prototype words -/

theorem find?_key_none_iff (v : List (List Char × Freq)) (w : List Char) :
    v.find? (fun kv => kv.1 = w) = none ↔ w ∉ v.map Prod.fst := by
  rw [List.find?_eq_none]
  constructor
  · intro h hm
    obtain ⟨kv, hkv, hk⟩ := List.mem_map.1 hm
    exact h kv hkv (by simpa using hk)
  · intro h kv hkv hk
    exact h (List.mem_map.2 ⟨kv, hkv, by simpa using hk⟩)

theorem addWord_counted (v : List (List Char × Freq)) (w : List Char) (hv : Counted v)
    (hw : w ≠ "constructor".data) : Counted (addWord v w) := by
  unfold addWord
  by_cases hp : w = "__proto__".data
  · rw [if_pos hp]; exact hv
  · rw [if_neg hp]
    cases hf : v.find? (fun kv => kv.1 = w) with
    | some x =>
      simp only
      refine ⟨?_, ?_⟩
      · have : (v.map (fun kv => if kv.1 = w then
            (kv.1, match kv.2 with
              | .count n => Freq.count (n + 1)
              | .text => Freq.text) else kv)).map Prod.fst = v.map Prod.fst := by
          rw [List.map_map]
          apply List.map_congr_left
          intro kv _
          by_cases h : kv.1 = w <;> simp [h]
        rw [this]
        exact hv.1
      · intro kv hkv
        obtain ⟨kv0, hkv0, rfl⟩ := List.mem_map.1 hkv
        obtain ⟨n, hn, hc⟩ := hv.2 kv0 hkv0
        by_cases h : kv0.1 = w
        · rw [if_pos h]
          exact ⟨n + 1, by omega, by simp [hc]⟩
        · rw [if_neg h]
          exact ⟨n, hn, hc⟩
    | none =>
      simp only
      rw [if_neg hw]
      have hnot := (find?_key_none_iff v w).1 hf
      refine ⟨?_, ?_⟩
      · rw [List.map_append, List.map_singleton]
        refine List.Nodup.append hv.1 (List.nodup_singleton _) ?_
        intro a ha hb
        rw [List.mem_singleton] at hb
        have hb' : a = w := hb
        rw [hb'] at ha
        exact hnot ha
      · intro kv hkv
        rcases List.mem_append.1 hkv with h | h
        · exact hv.2 kv h
        · rw [List.mem_singleton] at h
          subst h
          exact ⟨1, le_refl 1, rfl⟩

theorem foldl_addWord_counted (ws : List (List Char)) (v : List (List Char × Freq))
    (hv : Counted v) (hw : "constructor".data ∉ ws) : Counted (ws.foldl addWord v) := by
  induction ws generalizing v with
  | nil => exact hv
  | cons w ws ih =>
    rw [List.foldl_cons]
    apply ih
    · exact addWord_counted v w hv (fun h => hw (by rw [h]; exact List.mem_cons_self _ _))
    · exact fun h => hw (List.mem_cons_of_mem _ h)

theorem addWord_length_le (v : List (List Char × Freq)) (w : List Char) :
    v.length ≤ (addWord v w).length := by
  unfold addWord
  split
  · exact le_refl _
  · split
    · simp
    · split <;> simp

theorem foldl_addWord_length_le (ws : List (List Char)) (v : List (List Char × Freq)) :
    v.length ≤ (ws.foldl addWord v).length := by
  induction ws generalizing v with
  | nil => exact le_refl _
  | cons w ws ih =>
    rw [List.foldl_cons]
    exact le_trans (addWord_length_le v w) (ih _)

theorem addWord_ne_nil (v : List (List Char × Freq)) (w : List Char)
    (hp : w ≠ "__proto__".data) : addWord v w ≠ [] := by
  unfold addWord
  rw [if_neg hp]
  cases hf : v.find? (fun kv => kv.1 = w) with
  | some x =>
    have hne : v ≠ [] := by
      intro h; rw [h] at hf; simp at hf
    simpa using hne
  | none =>
    simp only
    split <;> simp

theorem foldl_addWord_ne_nil (ws : List (List Char)) (v : List (List Char × Freq))
    (h : ∃ t ∈ ws, t ≠ "__proto__".data) : ws.foldl addWord v ≠ [] := by
  induction ws generalizing v with
  | nil => obtain ⟨t, ht, _⟩ := h; exact absurd ht (List.not_mem_nil t)
  | cons w ws ih =>
    rw [List.foldl_cons]
    by_cases hw : w = "__proto__".data
    · apply ih
      obtain ⟨t, ht, hne⟩ := h
      rcases List.mem_cons.1 ht with h1 | h1
      · exact absurd (h1.trans hw) hne
      · exact ⟨t, h1, hne⟩
    · have h1 := addWord_ne_nil v w hw
      have h2 := foldl_addWord_length_le ws (addWord v w)
      intro h3
      rw [h3] at h2
      have : (addWord v w).length = 0 := by simpa using h2
      exact h1 (List.length_eq_zero.1 this)

theorem find?_of_nodup (v : List (List Char × Freq)) (hv : (v.map Prod.fst).Nodup)
    (kv : List Char × Freq) (hkv : kv ∈ v) : v.find? (fun x => x.1 = kv.1) = some kv := by
  induction v with
  | nil => exact absurd hkv (List.not_mem_nil _)
  | cons a v ih =>
    rw [List.map_cons, List.nodup_cons] at hv
    rcases List.mem_cons.1 hkv with h | h
    · subst h
      exact List.find?_cons_of_pos _ (by simp)
    · have hne : ¬ a.1 = kv.1 := fun he => hv.1 (he ▸ List.mem_map.2 ⟨kv, h, rfl⟩)
      rw [List.find?_cons_of_neg _ (by simpa using hne)]
      exact ih hv.2 h

theorem countOf_of_mem (v : List (List Char × Freq)) (hv : Counted v) (w : List Char)
    (hw : w ∈ v.map Prod.fst) :
    v.find? (fun x => x.1 = w) = some (w, .count (countOf v w)) ∧ 1 ≤ countOf v w := by
  obtain ⟨kv, hkv, rfl⟩ := List.mem_map.1 hw
  obtain ⟨n, hn, hc⟩ := hv.2 kv hkv
  have hf := find?_of_nodup v hv.1 kv hkv
  have hkv' : kv = (kv.1, Freq.count n) := by rw [← hc]
  have hcount : countOf v kv.1 = n := by
    unfold countOf
    rw [hf, hkv']
  rw [hcount, hf]
  exact ⟨by rw [← hkv'], hn⟩

theorem magnitudeOf_counted (v : List (List Char × Freq)) (hv : Counted v) :
    magnitudeOf v = .sqrt (sumSquares v) := by
  unfold magnitudeOf sumSquares
  have hany : v.any (fun kv => kv.2 = Freq.text) = false := by
    rw [List.any_eq_false]
    intro kv hkv
    obtain ⟨n, _, hc⟩ := hv.2 kv hkv
    simp [hc]
  rw [hany]
  simp only [Bool.false_eq_true, if_false, List.map_map]
  congr 1
  congr 1
  apply List.map_congr_left
  intro kv hkv
  obtain ⟨n, _, hc⟩ := hv.2 kv hkv
  have h := (countOf_of_mem v hv kv.1 (List.mem_map.2 ⟨kv, hkv, rfl⟩)).1
  rw [find?_of_nodup v hv.1 kv hkv] at h
  have hkv' : kv = (kv.1, Freq.count (countOf v kv.1)) := Option.some.inj h
  have h2 : kv.2 = Freq.count (countOf v kv.1) := by rw [hkv'] 
  simp only [Function.comp, h2]

theorem one_le_sumSquares (v : List (List Char × Freq)) (hv : Counted v) (hne : v ≠ []) :
    1 ≤ sumSquares v := by
  unfold sumSquares
  cases v with
  | nil => exact absurd rfl hne
  | cons a v =>
    have h := (countOf_of_mem (a :: v) hv a.1
      (List.mem_map.2 ⟨a, List.mem_cons_self _ _, rfl⟩)).2
    simp only [List.map_cons, List.sum_cons]
    have : 1 ≤ countOf (a :: v) a.1 * countOf (a :: v) a.1 := Nat.mul_pos h h
    omega

theorem dotProduct_counted (e1 e2 : Embedding) (h1 : Counted e1.vector) (h2 : Counted e2.vector)
    (ws : List (List Char)) (hws1 : ∀ w ∈ ws, w ∈ e1.vector.map Prod.fst)
    (hws2 : ∀ w ∈ ws, w ∈ e2.vector.map Prod.fst) (acc : Nat) :
    ws.foldl (fun acc w =>
        match acc, freqOf e1 w, freqOf e2 w with
        | some d, some (.count x), some (.count y) => some (d + x * y)
        | _, _, _ => none) (some acc) =
      some (acc + (ws.map (fun w => countOf e1.vector w * countOf e2.vector w)).sum) := by
  induction ws generalizing acc with
  | nil => simp
  | cons w ws ih =>
    have f1 : freqOf e1 w = some (.count (countOf e1.vector w)) := by
      unfold freqOf
      rw [(countOf_of_mem _ h1 w (hws1 w (List.mem_cons_self _ _))).1]
      rfl
    have f2 : freqOf e2 w = some (.count (countOf e2.vector w)) := by
      unfold freqOf
      rw [(countOf_of_mem _ h2 w (hws2 w (List.mem_cons_self _ _))).1]
      rfl
    rw [List.foldl_cons, f1, f2]
    simp only
    rw [ih (fun x hx => hws1 x (List.mem_cons_of_mem _ hx))
      (fun x hx => hws2 x (List.mem_cons_of_mem _ hx))]
    simp only [List.map_cons, List.sum_cons]
    congr 1
    omega

theorem commonWords_nodup (e1 e2 : Embedding) (h1 : Counted e1.vector) :
    (commonWords e1 e2).Nodup := by
  unfold commonWords
  exact h1.1.filter _

theorem mem_commonWords (e1 e2 : Embedding) (w : List Char) :
    w ∈ commonWords e1 e2 ↔ w ∈ e1.vector.map Prod.fst ∧ w ∈ e2.vector.map Prod.fst := by
  unfold commonWords
  rw [List.mem_filter]
  constructor
  · intro h
    exact ⟨h.1, List.elem_iff.1 h.2⟩
  · intro h
    exact ⟨h.1, List.elem_iff.2 h.2⟩

/-- The sum over the common words that `calculateSimilarity` accumulates. -/
theorem calculateSimilarity_counted (e1 e2 : Embedding) (h1 : Counted e1.vector)
    (h2 : Counted e2.vector) (m1 : e1.magnitude = .sqrt (sumSquares e1.vector))
    (m2 : e2.magnitude = .sqrt (sumSquares e2.vector)) :
    calculateSimilarity e1 e2 =
      if commonWords e1 e2 = [] then .zero
      else .ratio
        (((commonWords e1 e2).map
          (fun w => countOf e1.vector w * countOf e2.vector w)).sum)
        (sumSquares e1.vector) (sumSquares e2.vector) := by
  unfold calculateSimilarity
  by_cases hc : commonWords e1 e2 = []
  · simp [hc]
  · have hlen : ¬ (commonWords e1 e2).length = 0 := fun h => hc (List.length_eq_zero.1 h)
    have hdot : dotProduct e1 e2 (commonWords e1 e2) =
        some (0 + ((commonWords e1 e2).map
          (fun w => countOf e1.vector w * countOf e2.vector w)).sum) :=
      dotProduct_counted e1 e2 h1 h2 _ (fun w hw => ((mem_commonWords e1 e2 w).1 hw).1)
        (fun w hw => ((mem_commonWords e1 e2 w).1 hw).2) 0
    simp only [hlen, if_false, hc, hdot, m1, m2, Nat.zero_add]

theorem sum_sq_common_le_left (e1 e2 : Embedding) (h1 : Counted e1.vector) (f : List Char → Nat) :
    ((commonWords e1 e2).map f).sum ≤ ((e1.vector.map Prod.fst).map f).sum := by
  rw [← List.sum_toFinset f (commonWords_nodup e1 e2 h1), ← List.sum_toFinset f h1.1]
  apply Finset.sum_le_sum_of_subset
  intro w hw
  rw [List.mem_toFinset] at hw ⊢
  exact ((mem_commonWords e1 e2 w).1 hw).1

theorem sum_sq_common_le_right (e1 e2 : Embedding) (h1 : Counted e1.vector)
    (h2 : Counted e2.vector) (f : List Char → Nat) :
    ((commonWords e1 e2).map f).sum ≤ ((e2.vector.map Prod.fst).map f).sum := by
  rw [← List.sum_toFinset f (commonWords_nodup e1 e2 h1), ← List.sum_toFinset f h2.1]
  apply Finset.sum_le_sum_of_subset
  intro w hw
  rw [List.mem_toFinset] at hw ⊢
  exact ((mem_commonWords e1 e2 w).1 hw).2

/-- Cauchy-Schwarz for the dot product over the common words. -/
theorem dot_sq_le (e1 e2 : Embedding) (h1 : Counted e1.vector) (h2 : Counted e2.vector) :
    ((commonWords e1 e2).map (fun w => countOf e1.vector w * countOf e2.vector w)).sum *
      ((commonWords e1 e2).map (fun w => countOf e1.vector w * countOf e2.vector w)).sum ≤
    sumSquares e1.vector * sumSquares e2.vector := by
  have hcs := Finset.sum_mul_sq_le_sq_mul_sq (commonWords e1 e2).toFinset
    (fun w => countOf e1.vector w) (fun w => countOf e2.vector w)
  rw [List.sum_toFinset _ (commonWords_nodup e1 e2 h1),
    List.sum_toFinset _ (commonWords_nodup e1 e2 h1),
    List.sum_toFinset _ (commonWords_nodup e1 e2 h1)] at hcs
  have ha := sum_sq_common_le_left e1 e2 h1 (fun w => countOf e1.vector w ^ 2)
  have hb := sum_sq_common_le_right e1 e2 h1 h2 (fun w => countOf e2.vector w ^ 2)
  have ha' : ((e1.vector.map Prod.fst).map (fun w => countOf e1.vector w ^ 2)).sum =
      sumSquares e1.vector := by
    unfold sumSquares
    congr 1
    apply List.map_congr_left
    intro w _
    exact sq _
  have hb' : ((e2.vector.map Prod.fst).map (fun w => countOf e2.vector w ^ 2)).sum =
      sumSquares e2.vector := by
    unfold sumSquares
    congr 1
    apply List.map_congr_left
    intro w _
    exact sq _
  rw [ha'] at ha
  rw [hb'] at hb
  calc _ = (((commonWords e1 e2).map
          (fun w => countOf e1.vector w * countOf e2.vector w)).sum) ^ 2 := (sq _).symm
    _ ≤ _ := hcs
    _ ≤ _ := Nat.mul_le_mul ha hb

theorem createSimpleEmbedding_plain (text : List Char) (h : PlainText text) :
    Counted (createSimpleEmbedding text).vector ∧
    (createSimpleEmbedding text).magnitude =
      .sqrt (sumSquares (createSimpleEmbedding text).vector) ∧
    1 ≤ sumSquares (createSimpleEmbedding text).vector := by
  have hc : Counted (createSimpleEmbedding text).vector :=
    foldl_addWord_counted _ [] ⟨List.nodup_nil, fun kv hkv => absurd hkv (List.not_mem_nil _)⟩
      h.1
  have hne : (createSimpleEmbedding text).vector ≠ [] := foldl_addWord_ne_nil _ [] h.2
  exact ⟨hc, magnitudeOf_counted _ hc, one_le_sumSquares _ hc hne⟩

theorem commonWords_perm (e1 e2 : Embedding) (h1 : Counted e1.vector) (h2 : Counted e2.vector) :
    (commonWords e1 e2).Perm (commonWords e2 e1) := by
  apply (List.perm_ext_iff_of_nodup (commonWords_nodup e1 e2 h1)
    (commonWords_nodup e2 e1 h2)).2
  intro w
  rw [mem_commonWords, mem_commonWords]
  exact And.comm

theorem commonWords_self (e : Embedding) : commonWords e e = e.vector.map Prod.fst := by
  unfold commonWords
  rw [List.filter_eq_self]
  intro w hw
  exact List.elem_iff.2 hw

/-- What holds of the similarity once the prototype words are set aside: for
texts that have a counting word and no word `constructor`, both magnitudes
are at least 1, the similarity lies in `[0, 1]`, exchanging the texts gives
the same value, and a text has similarity 1 with itself (all in exact
arithmetic). -/
theorem similarity_of_plain_texts (a b : List Char) (ha : PlainText a) (hb : PlainText b) :
    (createSimpleEmbedding a).magnitude.atLeastOne = true ∧
    (calculateSimilarity (createSimpleEmbedding a) (createSimpleEmbedding b)).inUnitInterval =
      true ∧
    calculateSimilarity (createSimpleEmbedding b) (createSimpleEmbedding a) =
      (calculateSimilarity (createSimpleEmbedding a) (createSimpleEmbedding b)).swap ∧
    (calculateSimilarity (createSimpleEmbedding a) (createSimpleEmbedding a)).isOne = true := by
  obtain ⟨ca, ma, pa⟩ := createSimpleEmbedding_plain a ha
  obtain ⟨cb, mb, pb⟩ := createSimpleEmbedding_plain b hb
  have hab := calculateSimilarity_counted _ _ ca cb ma mb
  have hba := calculateSimilarity_counted _ _ cb ca mb ma
  have haa := calculateSimilarity_counted _ _ ca ca ma ma
  have hperm := commonWords_perm _ _ ca cb
  refine ⟨?_, ?_, ?_, ?_⟩
  · rw [ma]
    simpa [Magnitude.atLeastOne] using pa
  · rw [hab]
    split
    · rfl
    · have hpos : 0 < sumSquares (createSimpleEmbedding a).vector *
          sumSquares (createSimpleEmbedding b).vector := Nat.mul_pos pa pb
      simp only [Similarity.inUnitInterval, decide_eq_true_eq]
      exact ⟨hpos, dot_sq_le _ _ ca cb⟩
  · rw [hab, hba]
    by_cases hc : commonWords (createSimpleEmbedding a) (createSimpleEmbedding b) = []
    · have hc' : commonWords (createSimpleEmbedding b) (createSimpleEmbedding a) = [] := by
        rw [hc] at hperm
        exact List.Perm.eq_nil hperm.symm
      rw [if_pos hc, if_pos hc']
      rfl
    · have hc' : ¬ commonWords (createSimpleEmbedding b) (createSimpleEmbedding a) = [] := by
        intro h
        rw [h] at hperm
        exact hc (List.Perm.eq_nil hperm)
      rw [if_neg hc, if_neg hc']
      simp only [Similarity.swap]
      congr 1
      have h1 := (hperm.map (fun w => countOf (createSimpleEmbedding a).vector w *
        countOf (createSimpleEmbedding b).vector w)).sum_eq
      rw [h1]
      congr 1
      apply List.map_congr_left
      intro w _
      exact Nat.mul_comm _ _
  · rw [haa, commonWords_self]
    have hne : ¬ (createSimpleEmbedding a).vector.map Prod.fst = [] := by
      intro h
      have h0 : sumSquares (createSimpleEmbedding a).vector = 0 := by
        unfold sumSquares
        rw [h]
        rfl
      omega
    rw [if_neg hne]
    have hd : (((createSimpleEmbedding a).vector.map Prod.fst).map
        (fun w => countOf (createSimpleEmbedding a).vector w *
          countOf (createSimpleEmbedding a).vector w)).sum =
        sumSquares (createSimpleEmbedding a).vector := rfl
    rw [hd]
    simp only [Similarity.isOne, decide_eq_true_eq]
    exact ⟨Nat.mul_pos pa pa, trivial⟩

/-- Instance of the previous theorem on the texts `red green` and
`green blue`. -/
theorem similarity_of_plain_texts_witness :
    (createSimpleEmbedding "red green".data).magnitude.atLeastOne = true ∧
    (calculateSimilarity (createSimpleEmbedding "red green".data)
      (createSimpleEmbedding "green blue".data)).inUnitInterval = true ∧
    calculateSimilarity (createSimpleEmbedding "green blue".data)
        (createSimpleEmbedding "red green".data) =
      (calculateSimilarity (createSimpleEmbedding "red green".data)
        (createSimpleEmbedding "green blue".data)).swap ∧
    (calculateSimilarity (createSimpleEmbedding "red green".data)
      (createSimpleEmbedding "red green".data)).isOne = true :=
  similarity_of_plain_texts _ _ ⟨by decide, "red".data, by decide, by decide⟩
    ⟨by decide, "blue".data, by decide, by decide⟩

end Indexer

namespace Indexer.Enhanced

/-! ## What the deletion branch does remove -/

theorem mapGet_mapDelete_same {α : Type} (m : List (List Char × α)) (key : List Char) :
    Js.mapGet (Js.mapDelete m key) key = none := by
  unfold Js.mapGet Js.mapDelete
  have : (m.filter (fun kv => kv.1 ≠ key)).find? (fun kv => kv.1 = key) = none := by
    rw [List.find?_eq_none]
    intro kv hkv
    have := (List.mem_filter.1 hkv).2
    simpa using this
  rw [this]
  rfl

theorem mapDelete_keys {α : Type} (m : List (List Char × α)) (key : List Char) :
    key ∉ (Js.mapDelete m key).map Prod.fst := by
  intro h
  obtain ⟨kv, hkv, hk⟩ := List.mem_map.1 h
  have := (List.mem_filter.1 hkv).2
  simp [hk] at this

theorem foldl_mapSet_other {α β : Type} (items : List (List Char × β)) (f : List Char × β → α)
    (g : List (List Char × α)) (key : List Char) (hkey : key ∉ items.map Prod.fst) :
    Js.mapGet (items.foldl (fun g kv => Js.mapSet g kv.1 (f kv)) g) key = Js.mapGet g key := by
  induction items generalizing g with
  | nil => rfl
  | cons a items ih =>
    have h1 : key ≠ a.1 := fun h => hkey (by
      rw [h]; exact List.mem_map.2 ⟨a, List.mem_cons_self _ _, rfl⟩)
    have h2 : key ∉ items.map Prod.fst := fun h => hkey (by
      rw [List.map_cons]; exact List.mem_cons_of_mem _ h)
    rw [List.foldl_cons, ih _ h2]
    exact Js.mapGet_mapSet_other _ _ _ _ h1

/-- The part of C22 that the code fulfils: after `updateIndex([p])` for a path
`p` that does not exist on disk, the maps `files`, `chunks`, `fileHashes`,
`lastIndexed`, `dependencyGraph` and `semanticContext` have no entry under
`p`. -/
theorem deletion_removes_records (an : Analysis) (w : World) (ix : EnhancedCodebaseIndexer)
    (p : List Char) (hgone : w.pathExists (Js.pathJoin ix.workspacePath p) = false) :
    Js.mapGet (updateIndex an w ix [p]).index.files p = none ∧
    Js.mapGet (updateIndex an w ix [p]).index.chunks p = none ∧
    Js.mapGet (updateIndex an w ix [p]).index.fileHashes p = none ∧
    Js.mapGet (updateIndex an w ix [p]).index.lastIndexed p = none ∧
    Js.mapGet (updateIndex an w ix [p]).index.dependencyGraph p = none ∧
    Js.mapGet (updateIndex an w ix [p]).index.semanticContext p = none := by
  have hstep : [p].foldl (updateStep an w) ix =
      { ix with index :=
        { files := Js.mapDelete ix.index.files p
          chunks := Js.mapDelete ix.index.chunks p
          embeddings := Js.mapDelete ix.index.embeddings p
          dependencyGraph := Js.mapDelete ix.index.dependencyGraph p
          fileHashes := Js.mapDelete ix.index.fileHashes p
          lastIndexed := Js.mapDelete ix.index.lastIndexed p
          semanticContext := Js.mapDelete ix.index.semanticContext p } } := by
    simp only [List.foldl_cons, List.foldl_nil, updateStep, hgone, Bool.false_eq_true, if_false]
  unfold updateIndex updateIndexForChangedFiles
  rw [hstep]
  refine ⟨mapGet_mapDelete_same _ _, mapGet_mapDelete_same _ _, mapGet_mapDelete_same _ _,
    mapGet_mapDelete_same _ _, ?_, ?_⟩
  · show Js.mapGet ((Js.mapDelete ix.index.files p).foldl _ _) p = none
    rw [foldl_mapSet_other _ _ _ _ (mapDelete_keys _ _)]
    exact mapGet_mapDelete_same _ _
  · show Js.mapGet ((Js.mapDelete ix.index.files p).foldl _ _) p = none
    rw [foldl_mapSet_other _ _ _ _ (mapDelete_keys _ _)]
    exact mapGet_mapDelete_same _ _

/-- Instance of the previous theorem on the deleted file `a.js`. -/
theorem deletion_removes_records_witness (an : Analysis) :
    Js.mapGet (afterDeletion an).index.files "a.js".data = none ∧
    Js.mapGet (afterDeletion an).index.chunks "a.js".data = none ∧
    Js.mapGet (afterDeletion an).index.fileHashes "a.js".data = none ∧
    Js.mapGet (afterDeletion an).index.lastIndexed "a.js".data = none ∧
    Js.mapGet (afterDeletion an).index.dependencyGraph "a.js".data = none ∧
    Js.mapGet (afterDeletion an).index.semanticContext "a.js".data = none :=
  deletion_removes_records an goneWorld (indexedOnce an) "a.js".data rfl

end Indexer.Enhanced

namespace SafetyManager

/-- C9, evaluation at a failing input: the batch `[create_file c.txt,
edit_file a.txt]` whose second action carries no content, in the sample world.
Validation passes and asks for no confirmation, so the call proceeds; the
diff preview of the second action then throws outside every `try`, and the
call ends with that exception: no result list is returned, `c.txt` is never
created and the world is unchanged. The execution loop, run on the same batch,
isolates the failure as the claim says: two results, the first
`executed: true`, the second `executed: false` with an error, and `c.txt`
written. -/
theorem executeActionsSafely_diff_throws :
    (validateActions memEnv.basename (scopeFor (Manager.new memEnv "ws") none).scopedFiles
        [⟨"create_file", "c.txt", some "1"⟩, ⟨"edit_file", "a.txt", none⟩]).valid = true ∧
    (validateActions memEnv.basename (scopeFor (Manager.new memEnv "ws") none).scopedFiles
        [⟨"create_file", "c.txt", some "1"⟩, ⟨"edit_file", "a.txt", none⟩]).requiresConfirmation
      = false ∧
    (executeActionsSafely memEnv (Manager.new memEnv "ws") sampleWorld
        [⟨"create_file", "c.txt", some "1"⟩, ⟨"edit_file", "a.txt", none⟩] none true).2 =
      .error "Cannot read properties of undefined (reading 'split')" ∧
    (executeActionsSafely memEnv (Manager.new memEnv "ws") sampleWorld
        [⟨"create_file", "c.txt", some "1"⟩, ⟨"edit_file", "a.txt", none⟩] none true).1.2 =
      sampleWorld ∧
    sampleWorld.lookup "ws/c.txt" = none ∧
    (executeLoop memEnv (scopeFor (Manager.new memEnv "ws") none) sampleWorld
        [⟨"create_file", "c.txt", some "1"⟩, ⟨"edit_file", "a.txt", none⟩]).2.map
        (fun r => (r.action.path, r.executed, r.error.isSome)) =
      [("c.txt", true, false), ("a.txt", false, true)] ∧
    (executeLoop memEnv (scopeFor (Manager.new memEnv "ws") none) sampleWorld
        [⟨"create_file", "c.txt", some "1"⟩, ⟨"edit_file", "a.txt", none⟩]).1.2.lookup
        "ws/c.txt" = some "1" :=
  ⟨by decide, by decide, by rfl, by decide, by decide, by decide, by decide⟩

end SafetyManager
